import Mathlib

/-!
ProbabilityTheoryModeling: the sigma-algebra closure engine.

A shallow embedding of `src/lib/sigma-algebra` (`Event.cpp`, `SigmaAlgebra.cpp`,
`ProbabilityMeasure.cpp`, `DiscreteRandomVariable.cpp`) and a verification of the
closure algorithm `SigmaAlgebra::Generate` against the axiom checker
`SigmaAlgebra::IsSigmaAlgebra`, of the event operations, and of the measure and the
expectation built on them; then of the collaborating modules
`src/lib/markov-chain` (`MarkovChain.cpp`, `MarkovTextModel.cpp`),
`src/lib/law-of-large-numbers` and `GeometricDistribution.cpp`.

Conventions of the embedding:
* `std::vector<bool>` is `List Bool`;
* `std::set<std::vector<bool>>` is a `List (List Bool)` kept strictly increasing
  for `std::lexicographical_compare`, which is the order the set iterates in;
* a read of `mask_[i]` past the end of a vector is undefined behaviour in the
  source and is the result `none` here; for `IsSigmaAlgebra` the run in which such
  a read yields some bit is modelled as well (`IsSigmaAlgebraStray`);
* the `while (changed)` loop of `Generate` takes a pass budget (`fuel`); running
  out of budget is `none` as well, and the theorems show a budget that suffices.
* a `double` is an exact rational (`ℚ`): the arithmetic of the measure and of the
  expectation is exact, rounding is not modelled;
* a read of `atom_probs_[i]` or `values_[i]` past the end is `none`, like a read of
  a mask.
* a `std::string` is the list of its characters, a `std::unordered_map` from states
  to indices is a list of pairs with at most one entry per key, and so is the
  `std::unordered_map` from states to `double` that `NextDistribution` returns,
  its entries in the order in which the loop adds them;
* the counters of the Markov chain, `size_t` in the source, are natural numbers: one
  grows by one per trained transition; the loop counter of `Simulate` is a 64-bit
  `size_t` and wraps, and the conversion to `int` in `Pdf` is `none` out of range;
* the random source is a state handed through, and `std::discrete_distribution` and
  the sampler of a distribution are functions of it, taken as parameters.
-/

namespace ptm

/-! ## Outcome space and events -/

/-- Modelled from the spec: `OutcomeSpace.hpp`/`OutcomeSpace.cpp` are not part of the
sources at hand.  An outcome space is the ordered sequence of named outcomes; the
identity of an outcome is its position. -/
structure OutcomeSpace where
  outcomes_ : List String
deriving DecidableEq, Repr

/-- Modelled from the spec: the size of the universe, the number of outcomes. -/
def OutcomeSpace.GetSize (omega : OutcomeSpace) : Nat := omega.outcomes_.length

/-- An event is its membership mask (`Event::mask_`). -/
structure Event where
  mask_ : List Bool
deriving DecidableEq, Repr

namespace Event

/-- Method `Event::GetSize`. -/
def GetSize (e : Event) : Nat := e.mask_.length

/-- Method `Event::GetMask`. -/
def GetMask (e : Event) : List Bool := e.mask_

/-- Method `Event::Contains`: `id < mask_.size() && mask_[id]`. -/
def Contains (e : Event) (id : Nat) : Bool :=
  decide (id < e.mask_.length) && e.mask_.getD id false

/-- Method `Event::Empty`. -/
def Empty (n : Nat) : Event := ⟨List.replicate n false⟩

/-- Method `Event::Full`. -/
def Full (n : Nat) : Event := ⟨List.replicate n true⟩

/-- Method `Event::Complement`: a copy of the mask with every bit flipped. -/
def Complement (e : Event) : Event := ⟨e.mask_.map (fun b => !b)⟩

/-- The loop of `Event::Unite` over the positions of `a`, the two masks advanced in
step: `result[i] = a.mask_[i] || b.mask_[i]`.  The right operand of `||` is only
evaluated when `a.mask_[i]` is false; reading it past the end of `b` is `none`. -/
def uniteLoop : List Bool → List Bool → Option (List Bool)
  | [], _ => some []
  | true :: as, bs => (uniteLoop as bs.tail).map (fun r => true :: r)
  | false :: _, [] => none
  | false :: as, b :: bs => (uniteLoop as bs).map (fun r => b :: r)

/-- Method `Event::Unite`. -/
def Unite (a b : Event) : Option Event := (uniteLoop a.mask_ b.mask_).map Event.mk

/-- The loop of `Event::Intersect`: `result[i] = a.mask_[i] && b.mask_[i]`.  The right
operand of `&&` is only evaluated when `a.mask_[i]` is true; reading it past the end
of `b` is `none`. -/
def intersectLoop : List Bool → List Bool → Option (List Bool)
  | [], _ => some []
  | false :: as, bs => (intersectLoop as bs.tail).map (fun r => false :: r)
  | true :: _, [] => none
  | true :: as, b :: bs => (intersectLoop as bs).map (fun r => b :: r)

/-- Method `Event::Intersect`. -/
def Intersect (a b : Event) : Option Event := (intersectLoop a.mask_ b.mask_).map Event.mk

end Event

/-! ## `std::set<std::vector<bool>>` -/

/-- The comparison `operator<` on `std::vector<bool>`, that is `std::lexicographical_compare` with
`false < true`: the first differing position decides, a proper prefix is smaller. -/
def maskLess : List Bool → List Bool → Bool
  | _, [] => false
  | [], _ :: _ => true
  | a :: as, b :: bs =>
    if (!a && b) then true
    else if (!b && a) then false
    else maskLess as bs

/-- The operation `std::set::insert`: the set with `x` put at its place in the order, and whether
`x` was new (`.second` of the returned pair).  An element equivalent to `x` (neither
smaller than the other) keeps the set as it is. -/
def setInsert (x : List Bool) : List (List Bool) → List (List Bool) × Bool
  | [] => ([x], true)
  | y :: ys =>
    if maskLess x y then (x :: y :: ys, true)
    else if maskLess y x then ((y :: (setInsert x ys).1), (setInsert x ys).2)
    else (y :: ys, false)

/-- The test `storage.find(x) != storage.end()`: some element is equivalent to `x`. -/
def setFind (x : List Bool) (s : List (List Bool)) : Bool :=
  s.any (fun y => !maskLess x y && !maskLess y x)

/-! ## SigmaAlgebra -/

/-- The class `SigmaAlgebra`: the outcome space and the stored event collection. -/
structure SigmaAlgebra where
  omega_ : OutcomeSpace
  events_ : List Event
deriving DecidableEq, Repr

namespace SigmaAlgebra

/-- Method `SigmaAlgebra::GetOutcomeSpace`. -/
def GetOutcomeSpace (sa : SigmaAlgebra) : OutcomeSpace := sa.omega_

/-- Method `SigmaAlgebra::GetEvents`. -/
def GetEvents (sa : SigmaAlgebra) : List Event := sa.events_

/-- The set built by inserting the mask of every event in turn
(`for (const auto& e : events) storage.insert(e.GetMask())`). -/
def insertMasks (events : List Event) (storage : List (List Bool)) : List (List Bool) :=
  events.foldl (fun s e => (setInsert e.GetMask s).1) storage

/-- The inner loop of `IsSigmaAlgebra` over `mask2`: `some false` is the early
`return false`, `some true` is the loop running to its end. -/
def checkUnions (storage : List (List Bool)) (mask : List Bool) :
    List (List Bool) → Option Bool
  | [] => some true
  | mask2 :: rest =>
    match Event.Unite ⟨mask⟩ ⟨mask2⟩ with
    | none => none
    | some united =>
      if !setFind united.GetMask storage then some false
      else checkUnions storage mask rest

/-- The outer loop of `IsSigmaAlgebra` over `mask`. -/
def checkClosed (storage : List (List Bool)) : List (List Bool) → Option Bool
  | [] => some true
  | mask :: rest =>
    if !setFind (Event.Complement ⟨mask⟩).GetMask storage then some false
    else
      match checkUnions storage mask storage with
      | none => none
      | some false => some false
      | some true => checkClosed storage rest

/-- Method `SigmaAlgebra::IsSigmaAlgebra`. -/
def IsSigmaAlgebra (sa : SigmaAlgebra) : Option Bool :=
  let n := sa.omega_.GetSize
  let storage := insertMasks sa.events_ []
  if !setFind (Event.Empty n).GetMask storage then some false
  else if !setFind (Event.Full n).GetMask storage then some false
  else checkClosed storage storage

/-- The inner loop of a pass of `Generate` over `mask2`, on the pair
(`next_step`, `changed`). -/
def passUnions (mask : List Bool) :
    List (List Bool) → List (List Bool) × Bool → Option (List (List Bool) × Bool)
  | [], st => some st
  | mask2 :: rest, st =>
    match Event.Unite ⟨mask⟩ ⟨mask2⟩ with
    | none => none
    | some uni =>
      passUnions mask rest
        ((setInsert uni.GetMask st.1).1, st.2 || (setInsert uni.GetMask st.1).2)

/-- The outer loop of a pass of `Generate` over `mask`; `current_sets` is the set the
pass started from, which both loops iterate. -/
def passMasks (current_sets : List (List Bool)) :
    List (List Bool) → List (List Bool) × Bool → Option (List (List Bool) × Bool)
  | [], st => some st
  | mask :: rest, st =>
    let comp := (Event.Complement ⟨mask⟩).GetMask
    match passUnions mask current_sets
        ((setInsert comp st.1).1, st.2 || (setInsert comp st.1).2) with
    | none => none
    | some st1 => passMasks current_sets rest st1

/-- One iteration of the body of `while (changed)`: `changed = false`,
`next_step = current_sets`, the two loops; the result is (`next_step`, `changed`). -/
def generatePass (current_sets : List (List Bool)) : Option (List (List Bool) × Bool) :=
  passMasks current_sets current_sets (current_sets, false)

/-- The loop `while (changed)`, entered with `changed = true`, for at most `fuel`
passes. -/
def generateLoop : Nat → List (List Bool) → Option (List (List Bool))
  | 0, _ => none
  | fuel + 1, current_sets =>
    match generatePass current_sets with
    | none => none
    | some (next_step, changed) =>
      if changed then generateLoop fuel next_step else some next_step

/-- The seed of `Generate`: the empty mask, the full mask and the mask of every
generator, inserted in this order. -/
def generateSeed (n : Nat) (generators : List Event) : List (List Bool) :=
  insertMasks generators
    (setInsert (Event.Full n).GetMask (setInsert (Event.Empty n).GetMask []).1).1

/-- Method `SigmaAlgebra::Generate`, with a budget of `fuel` passes. -/
def Generate (fuel : Nat) (omega : OutcomeSpace) (generators : List Event) :
    Option SigmaAlgebra :=
  let n := omega.GetSize
  (generateLoop fuel (generateSeed n generators)).map
    (fun current_sets => ⟨omega, current_sets.map Event.mk⟩)

end SigmaAlgebra

/-! ## IsSigmaAlgebra when a read past the end of a mask yields a bit -/

namespace SigmaAlgebra

end SigmaAlgebra

/-! ## Contains, with the read of the mask made explicit -/

/-- The expression `id < mask_.size() && mask_[id]` of `Event::Contains` with the read
`mask_[id]` fallible (`none` past the end of the mask): `&&` evaluates it only when
`id < mask_.size()`. -/
def Event.ContainsRead (e : Event) (id : Nat) : Option Bool :=
  if id < e.mask_.length then e.mask_[id]? else some false

/-! ## ProbabilityMeasure -/

/-- The class `ProbabilityMeasure`: the outcome space and the atomic probabilities.
A `double` is an exact rational here: rounding is not modelled. -/
structure ProbabilityMeasure where
  omega_ : OutcomeSpace
  atom_probs_ : List ℚ
deriving DecidableEq, Repr

namespace ProbabilityMeasure

/-- The constructor `ProbabilityMeasure(omega)`: one atom `0.0` per outcome. -/
def create (omega : OutcomeSpace) : ProbabilityMeasure :=
  ⟨omega, List.replicate omega.GetSize 0⟩

/-- Method `ProbabilityMeasure::SetAtomicProbability`. -/
def SetAtomicProbability (P : ProbabilityMeasure) (id : Nat) (p : ℚ) : ProbabilityMeasure :=
  if id < P.atom_probs_.length then ⟨P.omega_, P.atom_probs_.set id p⟩ else P

/-- Method `ProbabilityMeasure::GetAtomicProbability`. -/
def GetAtomicProbability (P : ProbabilityMeasure) (id : Nat) : ℚ :=
  if h : id < P.atom_probs_.length then P.atom_probs_.get ⟨id, h⟩ else 0

/-- The loop of `IsValid` over the atoms, on the running `sum`: `none` is the early
`return false` at a negative atom. -/
def isValidLoop : List ℚ → ℚ → Option ℚ
  | [], sum => some sum
  | p :: rest, sum => if p < 0 then none else isValidLoop rest (sum + p)

/-- Method `ProbabilityMeasure::IsValid`. -/
def IsValid (P : ProbabilityMeasure) (eps : ℚ) : Bool :=
  match isValidLoop P.atom_probs_ 0 with
  | none => false
  | some sum => decide (|sum - 1| < eps)

/-- One iteration of the loop of `Probability` at index `i`: `atom_probs_[i]` is read
only when `mask[i]` is set, and a read past the end of the atoms is `none`. -/
def probabilityStep (P : ProbabilityMeasure) (mask : List Bool) (p_sum : ℚ) (i : Nat) :
    Option ℚ :=
  if mask.getD i false then (P.atom_probs_[i]?).map (fun a => p_sum + a) else some p_sum

/-- Method `ProbabilityMeasure::Probability`: the loop over `i < mask.size()`. -/
def Probability (P : ProbabilityMeasure) (event : Event) : Option ℚ :=
  (List.range event.GetMask.length).foldlM (probabilityStep P event.GetMask) 0

end ProbabilityMeasure

/-! ## DiscreteRandomVariable -/

/-- The class `DiscreteRandomVariable`: the outcome space, the measure and the values. -/
structure DiscreteRandomVariable where
  omega_ : OutcomeSpace
  P_ : ProbabilityMeasure
  values_ : List ℚ
deriving DecidableEq, Repr

namespace DiscreteRandomVariable

/-- Method `DiscreteRandomVariable::Value`: `std::nullopt` is `none`. -/
def Value (X : DiscreteRandomVariable) (id : Nat) : Option ℚ :=
  if h : id < X.values_.length then some (X.values_.get ⟨id, h⟩) else none

/-- One iteration of the loop of `ExpectedValue` at index `i`: a read of `values_[i]`
past the end of the values is `none`. -/
def expectedValueStep (X : DiscreteRandomVariable) (ev : ℚ) (i : Nat) : Option ℚ :=
  (X.values_[i]?).map (fun v => ev + v * X.P_.GetAtomicProbability i)

/-- Method `DiscreteRandomVariable::ExpectedValue`: the loop over `i < omega_.GetSize()`. -/
def ExpectedValue (X : DiscreteRandomVariable) : Option ℚ :=
  (List.range X.omega_.GetSize).foldlM (expectedValueStep X) 0

end DiscreteRandomVariable

/-! ## GeometricDistribution -/

/-- The function `std::round`: to the nearest integer, halfway cases away from zero. -/
def stdRound (x : ℚ) : ℤ := if 0 ≤ x then ⌊x + 1 / 2⌋ else -⌊-x + 1 / 2⌋

/-- The conversion `static_cast<int>` of an integer-valued `double`: undefined, `none`
here, when the value is not in the range of a 32-bit `int`. -/
def castToInt (z : ℤ) : Option ℤ :=
  if -(2 : ℤ) ^ 31 ≤ z ∧ z < (2 : ℤ) ^ 31 then some z else none

/-- The class `GeometricDistribution`: the success probability `p_`. -/
structure GeometricDistribution where
  p_ : ℚ
deriving DecidableEq, Repr

namespace GeometricDistribution

/-- Method `GeometricDistribution::Pdf`; the constant `exponent` is `1e-9`. -/
def Pdf (g : GeometricDistribution) (x : ℚ) : Option ℚ :=
  match castToInt (stdRound x) with
  | none => none
  | some k =>
    if k < 1 ∨ |x - k| > 1 / 1000000000 then some 0
    else some ((1 - g.p_) ^ (k - 1).toNat * g.p_)

/-- The statements of `Pdf` that follow the conversion, with `k` the `int` the
conversion has yielded. -/
def pdfAfterCast (g : GeometricDistribution) (x : ℚ) (k : ℤ) : ℚ :=
  if k < 1 ∨ |x - k| > 1 / 1000000000 then 0
  else (1 - g.p_) ^ (k - 1).toNat * g.p_

/-- Method `GeometricDistribution::Cdf`; `std::floor(x)` stays a `double`. -/
def Cdf (g : GeometricDistribution) (x : ℚ) : ℚ :=
  if x < 1 then 0 else 1 - (1 - g.p_) ^ (⌊x⌋).toNat

end GeometricDistribution

/-! ## LawOfLargeNumbersSimulator -/

/-- Modelled from the spec: the interface a distribution offers the simulator, a
sampler on the random source and the theoretical mean (`Distribution.hpp` is not part
of the sources at hand). -/
structure Distribution (Rng : Type) where
  Sample : Rng → ℚ × Rng
  TheoreticalMean : ℚ

/-- An entry of `LLNPathResult::entries`: `n`, `sample_mean`, `abs_error`. -/
structure LLNEntry where
  n : Nat
  sample_mean : ℚ
  abs_error : ℚ
deriving DecidableEq, Repr

/-- The result `LLNPathResult`. -/
structure LLNPathResult where
  entries : List LLNEntry
deriving DecidableEq, Repr

/-- The number of values of a `size_t` (64 bits). -/
def sizeRange : Nat := 2 ^ 64

namespace LawOfLargeNumbersSimulator

/-- The loop `for (size_t n = 1; n <= max_n; ++n)` of `Simulate`, from the counter `n`,
for at most `fuel` iterations; the state is the random source, `sum` and the entries.
The increment `++n` wraps at `sizeRange`; `n % step` with `step = 0` is undefined,
`none` here, as is running out of `fuel`. -/
def simulateLoop {Rng : Type} (dist : Distribution Rng) (max_n step : Nat) :
    Nat → Nat → Rng → ℚ → List LLNEntry → Option (Rng × ℚ × List LLNEntry)
  | 0, _, _, _, _ => none
  | fuel + 1, n, rng, sum, entries =>
    if n ≤ max_n then
      let x := (dist.Sample rng).1
      let rng1 := (dist.Sample rng).2
      let sum1 := sum + x
      if step = 0 then none
      else if n % step = 0 then
        simulateLoop dist max_n step fuel ((n + 1) % sizeRange) rng1 sum1
          (entries ++ [⟨n, sum1 / n, |sum1 / n - dist.TheoreticalMean|⟩])
      else simulateLoop dist max_n step fuel ((n + 1) % sizeRange) rng1 sum1 entries
    else some (rng, sum, entries)

/-- Method `LawOfLargeNumbersSimulator::Simulate`, with a budget of `fuel` loop
iterations. -/
def Simulate {Rng : Type} (dist : Distribution Rng) (fuel : Nat) (rng : Rng)
    (max_n step : Nat) : Option LLNPathResult :=
  match simulateLoop dist max_n step fuel 1 rng 0 [] with
  | none => none
  | some (_, sum, entries) =>
    if step = 0 then none
    else if max_n % step ≠ 0 then
      some ⟨entries ++ [⟨max_n, sum / max_n, |sum / max_n - dist.TheoreticalMean|⟩]⟩
    else some ⟨entries⟩

end LawOfLargeNumbersSimulator

/-! ## MarkovChain -/

/-- A `std::string`: the list of its characters. -/
abbrev State := List Char

/-- The lookup `state_to_index_.find(s)` in the `std::unordered_map`: `none` is
`end()`. -/
def mapFind (s : State) : List (State × Nat) → Option Nat
  | [] => none
  | (k, v) :: rest => if k = s then some v else mapFind s rest

/-- The assignment `state_to_index_[s] = index`: the entry of `s` is overwritten, or
added when there is none. -/
def mapAssign (s : State) (index : Nat) : List (State × Nat) → List (State × Nat)
  | [] => [(s, index)]
  | (k, v) :: rest => if k = s then (k, index) :: rest else (k, v) :: mapAssign s index rest

/-- The lookup `dist.find(s)` in a `std::unordered_map<State, double>`. -/
def distFind (s : State) : List (State × ℚ) → Option ℚ
  | [] => none
  | (k, v) :: rest => if k = s then some v else distFind s rest

/-- The assignment `dist[s] = p` in a `std::unordered_map<State, double>`: the entry
of `s` is overwritten, or added when there is none. -/
def distAssign (s : State) (p : ℚ) : List (State × ℚ) → List (State × ℚ)
  | [] => [(s, p)]
  | (k, v) :: rest => if k = s then (k, p) :: rest else (k, v) :: distAssign s p rest

/-- The call `row.resize(n, 0)`: cut to `n` entries, or filled with zeros up to `n`. -/
def resizeRow (n : Nat) (row : List Nat) : List Nat :=
  (row ++ List.replicate (n - row.length) 0).take n

/-- The class `MarkovChain`.  The counters are `size_t` in the source and natural
numbers here: a counter grows by one per trained transition. -/
structure MarkovChain where
  state_to_index_ : List (State × Nat)
  index_to_state_ : List State
  counts_ : List (List Nat)
  row_sums_ : List Nat
deriving DecidableEq, Repr

namespace MarkovChain

/-- A default-constructed `MarkovChain`. -/
def fresh : MarkovChain := ⟨[], [], [], []⟩

/-- Method `MarkovChain::States`. -/
def States (mc : MarkovChain) : List State := mc.index_to_state_

/-- Method `MarkovChain::ensureState`: the chain afterwards and the index returned. -/
def ensureState (mc : MarkovChain) (s : State) : MarkovChain × Nat :=
  match mapFind s mc.state_to_index_ with
  | some index => (mc, index)
  | none =>
    let index := mc.index_to_state_.length
    let index_to_state := mc.index_to_state_ ++ [s]
    let counts := mc.counts_ ++ [List.replicate index_to_state.length 0]
    (⟨mapAssign s index mc.state_to_index_, index_to_state,
      counts.map (resizeRow index_to_state.length), mc.row_sums_ ++ [0]⟩, index)

/-- The statements `counts_[from_idx][to_idx]++; row_sums_[from_idx]++;` of `Train`:
`none` when an index is out of range. -/
def countTransition (mc : MarkovChain) (from_idx to_idx : Nat) : Option MarkovChain :=
  match mc.counts_[from_idx]? with
  | none => none
  | some row =>
    match row[to_idx]? with
    | none => none
    | some c =>
      match mc.row_sums_[from_idx]? with
      | none => none
      | some r =>
        some ⟨mc.state_to_index_, mc.index_to_state_,
          mc.counts_.set from_idx (row.set to_idx (c + 1)), mc.row_sums_.set from_idx (r + 1)⟩

/-- The first loop of `Train`: `ensureState` on every element. -/
def trainStates : List State → MarkovChain → MarkovChain
  | [], mc => mc
  | s :: rest, mc => trainStates rest (mc.ensureState s).1

/-- The second loop of `Train`, over the positions `i` with `i + 1 < sequence.size()`;
the list is the sequence from position `i` on. -/
def trainPairs : List State → MarkovChain → Option MarkovChain
  | x :: y :: rest, mc =>
    let mc1 := (mc.ensureState x).1
    let from_idx := (mc.ensureState x).2
    let mc2 := (mc1.ensureState y).1
    let to_idx := (mc1.ensureState y).2
    match mc2.countTransition from_idx to_idx with
    | none => none
    | some mc3 => trainPairs (y :: rest) mc3
  | _, mc => some mc

/-- Method `MarkovChain::Train`. -/
def Train (mc : MarkovChain) (sequence : List State) : Option MarkovChain :=
  trainPairs sequence (trainStates sequence mc)

/-- The body of the loop of `NextDistribution` at position `j`: `none` when a read is
out of range. -/
def nextDistributionStep (mc : MarkovChain) (idx : Nat) (dist : List (State × ℚ))
    (j : Nat) : Option (List (State × ℚ)) :=
  match mc.counts_[idx]? with
  | none => none
  | some row =>
    match row[j]? with
    | none => none
    | some c =>
      if 0 < c then
        match mc.index_to_state_[j]?, mc.row_sums_[idx]? with
        | some s, some r => some (distAssign s ((c : ℚ) / (r : ℚ)) dist)
        | _, _ => none
      else some dist

/-- Method `MarkovChain::NextDistribution`; the quotient of the two counters is
exact, and `none` is a read out of range. -/
def NextDistribution (mc : MarkovChain) (current : State) : Option (List (State × ℚ)) :=
  match mapFind current mc.state_to_index_ with
  | none => some []
  | some idx =>
    match mc.row_sums_[idx]? with
    | none => none
    | some r =>
      if r = 0 then some []
      else (List.range mc.index_to_state_.length).foldlM (mc.nextDistributionStep idx) []

/-- Method `MarkovChain::TransitionProbability`; the quotient of the two counters is
exact. -/
def TransitionProbability (mc : MarkovChain) (src dst : State) : Option ℚ :=
  match mapFind src mc.state_to_index_, mapFind dst mc.state_to_index_ with
  | some from_idx, some to_idx =>
    match mc.row_sums_[from_idx]? with
    | none => none
    | some r =>
      if r = 0 then some 0
      else
        match mc.counts_[from_idx]? with
        | none => none
        | some row =>
          match row[to_idx]? with
          | none => none
          | some c => some ((c : ℚ) / (r : ℚ))
  | _, _ => some 0

/-- The loop of `SampleNext` that fills `weights` with `counts_[idx][j]` for
`j < index_to_state_.size()`. -/
def sampleWeights (mc : MarkovChain) (idx : Nat) : Option (List ℚ) :=
  match mc.counts_[idx]? with
  | none => none
  | some row =>
    (List.range mc.index_to_state_.length).mapM
      (fun j => Option.map (fun c : Nat => (c : ℚ)) row[j]?)

/-- Method `MarkovChain::SampleNext`.  The random source is a state `rng` and a
function `draw` for `std::discrete_distribution`: from the source and the weights,
the index drawn and the source afterwards.  The outer `none` is a read out of range,
the inner one is `std::nullopt`. -/
def SampleNext {Rng : Type} (mc : MarkovChain) (draw : Rng → List ℚ → Nat × Rng)
    (current : State) (rng : Rng) : Option (Option State × Rng) :=
  match mapFind current mc.state_to_index_ with
  | none => some (none, rng)
  | some idx =>
    match mc.row_sums_[idx]? with
    | none => none
    | some r =>
      if r = 0 then some (none, rng)
      else
        match mc.sampleWeights idx with
        | none => none
        | some weights =>
          match mc.index_to_state_[(draw rng weights).1]? with
          | none => none
          | some next => some (some next, (draw rng weights).2)

/-- The loop `for (size_t i = 1; i < length; ++i)` of `Generate`, with `steps`
iterations left; `back` is `result.back()`. -/
def generateSteps {Rng : Type} (mc : MarkovChain) (draw : Rng → List ℚ → Nat × Rng) :
    Nat → State → Rng → List State → Option (List State × Rng)
  | 0, _, rng, result => some (result, rng)
  | steps + 1, back, rng, result =>
    match mc.SampleNext draw back rng with
    | none => none
    | some (none, rng1) => some (result, rng1)
    | some (some next, rng1) => generateSteps mc draw steps next rng1 (result ++ [next])

/-- Method `MarkovChain::Generate`. -/
def Generate {Rng : Type} (mc : MarkovChain) (draw : Rng → List ℚ → Nat × Rng)
    (start : State) (length : Nat) (rng : Rng) : Option (List State × Rng) :=
  if length = 0 then some ([], rng)
  else generateSteps mc draw (length - 1) start rng [start]

end MarkovChain

/-! ## MarkovTextModel -/

/-- The function `std::isalnum` in the "C" locale, on ASCII: digits and letters. -/
def isalnum (c : Char) : Bool :=
  (48 ≤ c.toNat && c.toNat ≤ 57) || (65 ≤ c.toNat && c.toNat ≤ 90) ||
    (97 ≤ c.toNat && c.toNat ≤ 122)

/-- The function `std::isspace` in the "C" locale: space, and the controls from
horizontal tab to carriage return. -/
def isspace (c : Char) : Bool :=
  c.toNat = 32 || (9 ≤ c.toNat && c.toNat ≤ 13)

/-- The enumeration `MarkovTextModel::TokenLevel`. -/
inductive TokenLevel where
  | Character
  | Word
deriving DecidableEq, Repr

/-- The class `MarkovTextModel`. -/
structure MarkovTextModel where
  level_ : TokenLevel
  chain_ : MarkovChain
deriving DecidableEq, Repr

namespace MarkovTextModel

/-- The constructor `MarkovTextModel(level)`. -/
def create (level : TokenLevel) : MarkovTextModel := ⟨level, MarkovChain.fresh⟩

/-- Method `MarkovTextModel::Chain`. -/
def Chain (m : MarkovTextModel) : MarkovChain := m.chain_

/-- The loop of `Tokenize` in `Word` mode, on the pair (`tokens`, `current_word`),
with the flush of `current_word` after the loop. -/
def tokenizeWords : List Char → List State → List Char → List State
  | [], tokens, current_word =>
    if current_word ≠ [] then tokens ++ [current_word] else tokens
  | c :: rest, tokens, current_word =>
    if isalnum c || c = Char.ofNat 39 then tokenizeWords rest tokens (current_word ++ [c])
    else
      let tokens1 := if current_word ≠ [] then tokens ++ [current_word] else tokens
      let tokens2 := if !isspace c then tokens1 ++ [[c]] else tokens1
      tokenizeWords rest tokens2 []

/-- Method `MarkovTextModel::Tokenize`. -/
def Tokenize (m : MarkovTextModel) (text : List Char) : List State :=
  match m.level_ with
  | TokenLevel.Character => text.map (fun c => [c])
  | TokenLevel.Word => tokenizeWords text [] []

/-- The test `is_punctuation` of `Detokenize` on a token. -/
def isPunctuation (t : State) : Bool :=
  match t with
  | [c] => !isalnum c && c ≠ Char.ofNat 39
  | _ => false

/-- The loop of `Detokenize` in `Word` mode over the tokens after the first. -/
def detokenizeWords : List State → List Char → List Char
  | [], result => result
  | t :: rest, result =>
    if isPunctuation t then detokenizeWords rest (result ++ t)
    else detokenizeWords rest (result ++ (' ' :: t))

/-- Method `MarkovTextModel::Detokenize`. -/
def Detokenize (m : MarkovTextModel) (tokens : List State) : List Char :=
  match tokens with
  | [] => []
  | t0 :: rest =>
    match m.level_ with
    | TokenLevel.Character => (t0 :: rest).foldl (fun result t => result ++ t) []
    | TokenLevel.Word => detokenizeWords rest t0

/-- Method `MarkovTextModel::TrainFromText`. -/
def TrainFromText (m : MarkovTextModel) (text : List Char) : Option MarkovTextModel :=
  (m.chain_.Train (m.Tokenize text)).map (fun chain => ⟨m.level_, chain⟩)

/-- Method `MarkovTextModel::GenerateText`. -/
def GenerateText {Rng : Type} (m : MarkovTextModel) (draw : Rng → List ℚ → Nat × Rng)
    (num_tokens : Nat) (rng : Rng) (start_token : List Char) : Option (List Char × Rng) :=
  if num_tokens = 0 then some ([], rng)
  else
    match m.chain_.States with
    | [] => some ([], rng)
    | s0 :: states =>
      let start :=
        if start_token = [] ∨ start_token ∉ s0 :: states then s0 else start_token
      (m.chain_.Generate draw start num_tokens rng).map
        (fun g => (m.Detokenize g.1, g.2))

end MarkovTextModel

/-! ## Vocabulary of the claims on the Markov chain and the text model -/

/-- The number of positions of a sequence at which `a` is immediately followed by
`b`. -/
def pairCount (a b : State) : List State → Nat
  | x :: y :: rest => (if x = a ∧ y = b then 1 else 0) + pairCount a b (y :: rest)
  | _ => 0

/-- The number of positions of a sequence at which `a` is followed by an element. -/
def outCount (a : State) : List State → Nat
  | x :: y :: rest => (if x = a then 1 else 0) + outCount a (y :: rest)
  | _ => 0

/-- One `Train` call per sequence, in order. -/
def trainSequences (mc : MarkovChain) (seqs : List (List State)) : Option MarkovChain :=
  seqs.foldlM MarkovChain.Train mc

/-- One `TrainFromText` call per text, in order. -/
def trainTexts (m : MarkovTextModel) (texts : List (List Char)) : Option MarkovTextModel :=
  texts.foldlM MarkovTextModel.TrainFromText m

/-- The known states after new elements are seen: each new one is appended. -/
def knownAfter : List State → List State → List State
  | states, [] => states
  | states, s :: rest => knownAfter (if s ∈ states then states else states ++ [s]) rest

/-- The position of the first occurrence of `s` in the list of states (its length
when there is none). -/
def stateIndex (s : State) : List State → Nat
  | [] => 0
  | x :: xs => if x = s then 0 else stateIndex s xs + 1

/-- The chain stores the counts `C` and the row sums `R` over its known states: the
states are pairwise distinct, the map sends each to its position, `counts_` is the
matrix of `C` and `row_sums_` the vector of `R` over the states, `C` and `R` vanish
outside the states, and `R a` is the sum of row `a`. -/
def Represents (mc : MarkovChain) (C : State → State → Nat) (R : State → Nat) : Prop :=
  mc.index_to_state_.Nodup ∧
  (∀ s, mapFind s mc.state_to_index_ =
    if s ∈ mc.index_to_state_ then some (stateIndex s mc.index_to_state_) else none) ∧
  mc.counts_ = mc.index_to_state_.map (fun a => mc.index_to_state_.map (C a)) ∧
  mc.row_sums_ = mc.index_to_state_.map R ∧
  (∀ a b, a ∉ mc.index_to_state_ ∨ b ∉ mc.index_to_state_ → C a b = 0) ∧
  (∀ a, a ∉ mc.index_to_state_ → R a = 0) ∧
  (∀ a, R a = (mc.index_to_state_.map (C a)).sum)

/-- The representation invariant of the chain in the words of the claim: with `k`
the number of entries of `index_to_state_`, these entries are pairwise distinct, the
map sends each of them to its position and knows no other state, `counts_` has `k`
rows of `k` entries, `row_sums_` has `k` entries, and entry `i` of `row_sums_` is
the sum of row `i` of `counts_`. -/
def RepInvariant (mc : MarkovChain) : Prop :=
  mc.index_to_state_.Nodup ∧
  (∀ (i : Nat) (s : State), mc.index_to_state_[i]? = some s →
    mapFind s mc.state_to_index_ = some i) ∧
  (∀ s, s ∉ mc.index_to_state_ → mapFind s mc.state_to_index_ = none) ∧
  mc.counts_.length = mc.index_to_state_.length ∧
  (∀ row ∈ mc.counts_, row.length = mc.index_to_state_.length) ∧
  mc.row_sums_.length = mc.index_to_state_.length ∧
  (∀ (i : Nat) (row : List Nat), mc.counts_[i]? = some row →
    mc.row_sums_[i]? = some row.sum)

/-- A character of a word: alphanumeric or the apostrophe. -/
def isWordChar (c : Char) : Bool := isalnum c || c = Char.ofNat 39

/-- The tokens of a text as the claim describes them: a word character opens the
maximal run of word characters from there on, which is one token; any other
character that is not whitespace is a token of its own; whitespace gives none. -/
def wordTokens : List Char → List State
  | [] => []
  | c :: rest =>
    if isWordChar c then
      (c :: rest.takeWhile isWordChar) :: wordTokens (rest.dropWhile isWordChar)
    else if isspace c then wordTokens rest
    else [c] :: wordTokens rest
termination_by text => text.length
decreasing_by
  all_goals simp_wf
  · exact Nat.lt_succ_of_le (List.dropWhile_suffix _).length_le

/-- A sampler for `std::discrete_distribution` is sound when, on weights of which
one is positive, it returns the index of a positive weight. -/
def SoundDraw {Rng : Type} (draw : Rng → List ℚ → Nat × Rng) : Prop :=
  ∀ rng (w : List ℚ), (∃ x ∈ w, 0 < x) →
    (draw rng w).1 < w.length ∧ 0 < w.getD (draw rng w).1 0

/-- A sampler that returns the first index of a positive weight and leaves the
source as it is. -/
def firstPositive (rng : Nat) (w : List ℚ) : Nat × Nat :=
  (w.findIdx (fun x => decide (0 < x)), rng)

/-- The sample sizes the claim lists: `step, 2 * step, ..., (max_n / step) * step`,
then `max_n` when `step` does not divide it. -/
def sampleSizes (max_n step : Nat) : List Nat :=
  (List.range (max_n / step)).map (fun k => (k + 1) * step) ++
    (if max_n % step = 0 then [] else [max_n])

/-- The count `N(a, b)`: the total number of positions in the trained sequences at
which `a` is immediately followed by `b` within the same sequence. -/
def transitions (a b : State) (seqs : List (List State)) : Nat :=
  (seqs.map (pairCount a b)).sum

/-- The count `N(a)`: the total number of positions in the trained sequences at which
`a` is followed by an element of the same sequence. -/
def outgoing (a : State) (seqs : List (List State)) : Nat :=
  (seqs.map (outCount a)).sum

/-! ## Vocabulary of the proofs -/

/-- The representation invariant of the set: strictly increasing. -/
def SetOk (s : List (List Bool)) : Prop := s.Pairwise (fun a b => maskLess a b = true)

/-- Elementwise OR of two masks, over the shorter length. -/
def orMask (a b : List Bool) : List Bool := List.zipWith (fun x y => x || y) a b

/-- Elementwise AND of two masks, over the shorter length. -/
def andMask (a b : List Bool) : List Bool := List.zipWith (fun x y => x && y) a b

/-- The mask with every bit flipped. -/
def notMask (a : List Bool) : List Bool := a.map (fun b => !b)

/-- Every mask of the collection has length `n`. -/
def MasksOfSize (n : Nat) (s : List (List Bool)) : Prop := ∀ m ∈ s, m.length = n

/-- How the pair (`next_step`, `changed`) evolves while masks are inserted: the set
only grows, it stays strictly increasing, and `changed` records exactly whether it
grew. -/
def Grows (st st' : List (List Bool) × Bool) : Prop :=
  st.1.length ≤ st'.1.length ∧
  (st'.2 = false → st.2 = false ∧ st'.1 = st.1) ∧
  (st'.2 = true → st.2 = true ∨ st.1.length < st'.1.length) ∧
  (SetOk st.1 → SetOk st'.1)

/-- Closed under complement and pairwise union. -/
def ClosedMasks (s : List (List Bool)) : Prop :=
  (∀ a ∈ s, notMask a ∈ s) ∧ (∀ a ∈ s, ∀ b ∈ s, orMask a b ∈ s)

open SigmaAlgebra

/-! ## Masks of a common length -/

theorem uniteLoop_eq : ∀ (a b : List Bool), a.length ≤ b.length →
    Event.uniteLoop a b = some (List.zipWith (fun x y => x || y) a b)
  | [], _, _ => by simp [Event.uniteLoop]
  | true :: as, [], h => by simp at h
  | true :: as, b :: bs, h => by
    have := uniteLoop_eq as bs (by simpa using h)
    simp [Event.uniteLoop, this]
  | false :: as, [], h => by simp at h
  | false :: as, b :: bs, h => by
    have := uniteLoop_eq as bs (by simpa using h)
    simp [Event.uniteLoop, this]

theorem intersectLoop_eq : ∀ (a b : List Bool), a.length ≤ b.length →
    Event.intersectLoop a b = some (List.zipWith (fun x y => x && y) a b)
  | [], _, _ => by simp [Event.intersectLoop]
  | true :: as, [], h => by simp at h
  | true :: as, b :: bs, h => by
    have := intersectLoop_eq as bs (by simpa using h)
    simp [Event.intersectLoop, this]
  | false :: as, [], h => by simp at h
  | false :: as, b :: bs, h => by
    have := intersectLoop_eq as bs (by simpa using h)
    simp [Event.intersectLoop, this]

/-! ## The order of the set -/

theorem maskLess_irrefl : ∀ a : List Bool, maskLess a a = false
  | [] => rfl
  | a :: as => by cases a <;> simp [maskLess, maskLess_irrefl as]

theorem maskLess_trans (a b c : List Bool) (h1 : maskLess a b = true)
    (h2 : maskLess b c = true) : maskLess a c = true := by
  induction a generalizing b c with
  | nil => cases b <;> cases c <;> simp_all [maskLess]
  | cons x xs ih =>
    cases b with
    | nil => simp [maskLess] at h1
    | cons y ys =>
      cases c with
      | nil => simp [maskLess] at h2
      | cons z zs =>
        cases x <;> cases y <;> cases z <;> simp_all [maskLess] <;> exact ih _ _ h1 h2

theorem maskLess_asymm (a b : List Bool) (h1 : maskLess a b = true) : maskLess b a = false := by
  cases h : maskLess b a
  · rfl
  · have := maskLess_trans a b a h1 h
    simp [maskLess_irrefl] at this

theorem maskLess_total (a b : List Bool) (h1 : maskLess a b = false)
    (h2 : maskLess b a = false) : a = b := by
  induction a generalizing b with
  | nil => cases b <;> simp_all [maskLess]
  | cons x xs ih =>
    cases b with
    | nil => simp [maskLess] at h2
    | cons y ys =>
      cases x <;> cases y <;> simp_all [maskLess] <;> exact ih _ h1 h2

theorem mem_setInsert (x m : List Bool) (s : List (List Bool)) :
    m ∈ (setInsert x s).1 ↔ m = x ∨ m ∈ s := by
  induction s with
  | nil => simp [setInsert]
  | cons y ys ih =>
    unfold setInsert
    by_cases h1 : maskLess x y = true
    · simp [h1]
    · by_cases h2 : maskLess y x = true
      · simp [h1, h2, ih]; tauto
      · have hxy : x = y := maskLess_total x y (by simpa using h1) (by simpa using h2)
        subst hxy
        simp [h1]

theorem setInsert_length (x : List Bool) (s : List (List Bool)) :
    (setInsert x s).1.length = s.length + (if (setInsert x s).2 then 1 else 0) := by
  induction s with
  | nil => simp [setInsert]
  | cons y ys ih =>
    unfold setInsert
    by_cases h1 : maskLess x y = true
    · simp [h1]
    · by_cases h2 : maskLess y x = true
      · simp [h1, h2, ih]; omega
      · simp [h1, h2]

theorem setInsert_same (x : List Bool) (s : List (List Bool))
    (h : (setInsert x s).2 = false) : (setInsert x s).1 = s := by
  induction s with
  | nil => simp [setInsert] at h
  | cons y ys ih =>
    unfold setInsert at h ⊢
    by_cases h1 : maskLess x y = true
    · simp [h1] at h
    · by_cases h2 : maskLess y x = true
      · simp [h1, h2] at h ⊢; exact ih h
      · simp [h1, h2]

theorem setInsert_ok (x : List Bool) (s : List (List Bool)) (hs : SetOk s) :
    SetOk (setInsert x s).1 := by
  induction s with
  | nil => simp [setInsert, SetOk]
  | cons y ys ih =>
    unfold SetOk at hs ih ⊢
    rw [List.pairwise_cons] at hs
    unfold setInsert
    by_cases h1 : maskLess x y = true
    · simp only [h1, if_true]
      refine List.pairwise_cons.2 ⟨?_, List.pairwise_cons.2 hs⟩
      intro z hz
      rcases List.mem_cons.1 hz with rfl | hz
      · exact h1
      · exact maskLess_trans _ _ _ h1 (hs.1 z hz)
    · by_cases h2 : maskLess y x = true
      · simp only [h1, h2, if_true, Bool.false_eq_true, if_false]
        refine List.pairwise_cons.2 ⟨?_, ih hs.2⟩
        intro z hz
        rcases (mem_setInsert x z ys).1 hz with rfl | hz
        · exact h2
        · exact hs.1 z hz
      · simp only [h1, h2, Bool.false_eq_true, if_false]
        exact List.pairwise_cons.2 hs

theorem setFind_iff (x : List Bool) (s : List (List Bool)) :
    setFind x s = true ↔ x ∈ s := by
  unfold setFind
  rw [List.any_eq_true]
  constructor
  · rintro ⟨y, hy, h⟩
    simp only [Bool.and_eq_true, Bool.not_eq_true'] at h
    rw [maskLess_total x y h.1 h.2]; exact hy
  · intro h
    exact ⟨x, h, by simp [maskLess_irrefl]⟩

theorem setOk_nodup {s : List (List Bool)} (hs : SetOk s) : s.Nodup := by
  unfold SetOk at hs
  refine List.Pairwise.imp ?_ hs
  intro a b h hab
  subst hab
  simp [maskLess_irrefl] at h

/-- Two sets with the same elements are the same list. -/
theorem setOk_ext {s t : List (List Bool)} (hs : SetOk s) (ht : SetOk t)
    (h : ∀ m, m ∈ s ↔ m ∈ t) : s = t := by
  induction s generalizing t with
  | nil =>
    cases t with
    | nil => rfl
    | cons y ys => exact absurd ((h y).2 (List.mem_cons_self _ _)) (List.not_mem_nil _)
  | cons x xs ih =>
    cases t with
    | nil => exact absurd ((h x).1 (List.mem_cons_self _ _)) (List.not_mem_nil _)
    | cons y ys =>
      unfold SetOk at hs ht
      rw [List.pairwise_cons] at hs ht
      have hxy : x = y := by
        rcases List.mem_cons.1 ((h x).1 (List.mem_cons_self _ _)) with e | hx
        · exact e
        · rcases List.mem_cons.1 ((h y).2 (List.mem_cons_self _ _)) with e | hy
          · exact e.symm
          · have := maskLess_asymm _ _ (ht.1 x hx)
            rw [hs.1 y hy] at this
            exact absurd this (by simp)
      subst hxy
      congr 1
      refine ih hs.2 ht.2 ?_
      intro m
      constructor
      · intro hm
        rcases List.mem_cons.1 ((h m).1 (List.mem_cons_of_mem _ hm)) with e | hm2
        · subst e
          have := hs.1 m hm
          simp [maskLess_irrefl] at this
        · exact hm2
      · intro hm
        rcases List.mem_cons.1 ((h m).2 (List.mem_cons_of_mem _ hm)) with e | hm2
        · subst e
          have := ht.1 m hm
          simp [maskLess_irrefl] at this
        · exact hm2

theorem Unite_eq (a b : List Bool) (h : a.length ≤ b.length) :
    Event.Unite ⟨a⟩ ⟨b⟩ = some ⟨orMask a b⟩ := by
  simp [Event.Unite, uniteLoop_eq a b h, orMask]

theorem Intersect_eq (a b : List Bool) (h : a.length ≤ b.length) :
    Event.Intersect ⟨a⟩ ⟨b⟩ = some ⟨andMask a b⟩ := by
  simp [Event.Intersect, intersectLoop_eq a b h, andMask]

theorem orMask_length (a b : List Bool) (n : Nat) (ha : a.length = n) (hb : b.length = n) :
    (orMask a b).length = n := by
  simp [orMask, ha, hb]

theorem andMask_length (a b : List Bool) (n : Nat) (ha : a.length = n) (hb : b.length = n) :
    (andMask a b).length = n := by
  simp [andMask, ha, hb]

theorem notMask_length (a : List Bool) : (notMask a).length = a.length := by
  simp [notMask]

theorem grows_refl (st : List (List Bool) × Bool) : Grows st st :=
  ⟨le_refl _, fun h => ⟨h, rfl⟩, fun h => Or.inl h, fun h => h⟩

theorem grows_trans {a b c : List (List Bool) × Bool} (h1 : Grows a b) (h2 : Grows b c) :
    Grows a c := by
  obtain ⟨l1, f1, t1, o1⟩ := h1
  obtain ⟨l2, f2, t2, o2⟩ := h2
  refine ⟨le_trans l1 l2, ?_, ?_, fun h => o2 (o1 h)⟩
  · intro h
    obtain ⟨hb, e2⟩ := f2 h
    obtain ⟨ha, e1⟩ := f1 hb
    exact ⟨ha, by rw [e2, e1]⟩
  · intro h
    rcases t2 h with hb | hlt
    · rcases t1 hb with ha | hlt
      · exact Or.inl ha
      · exact Or.inr (lt_of_lt_of_le hlt l2)
    · exact Or.inr (lt_of_le_of_lt l1 hlt)

theorem grows_insert (x : List Bool) (st : List (List Bool) × Bool) :
    Grows st ((setInsert x st.1).1, st.2 || (setInsert x st.1).2) := by
  have hlen := setInsert_length x st.1
  refine ⟨?_, ?_, ?_, fun h => setInsert_ok x st.1 h⟩
  · simp only; omega
  · intro h
    simp only [Bool.or_eq_false_iff] at h
    exact ⟨h.1, setInsert_same x st.1 h.2⟩
  · intro h
    simp only [Bool.or_eq_true] at h
    rcases h with h | h
    · exact Or.inl h
    · right
      simp only [h, if_true] at hlen
      simp only; omega

theorem passUnions_spec (mask : List Bool) (l : List (List Bool))
    (st : List (List Bool) × Bool) (h : ∀ b ∈ l, mask.length ≤ b.length) :
    ∃ st', passUnions mask l st = some st' ∧
      (∀ m, m ∈ st'.1 ↔ m ∈ st.1 ∨ ∃ b ∈ l, m = orMask mask b) ∧ Grows st st' := by
  induction l generalizing st with
  | nil => exact ⟨st, rfl, by simp, grows_refl st⟩
  | cons b bs ih =>
    have hb := h b (List.mem_cons_self _ _)
    obtain ⟨st', e, hm, hg⟩ := ih
      ((setInsert (orMask mask b) st.1).1, st.2 || (setInsert (orMask mask b) st.1).2)
      (fun c hc => h c (List.mem_cons_of_mem _ hc))
    refine ⟨st', ?_, ?_, grows_trans (grows_insert _ st) hg⟩
    · simp only [passUnions, Unite_eq mask b hb, Event.GetMask]
      exact e
    · intro m
      rw [hm m, mem_setInsert]
      simp only [List.mem_cons, exists_eq_or_imp]
      tauto

theorem passMasks_spec (n : Nat) (cur l : List (List Bool)) (st : List (List Bool) × Bool)
    (hcur : MasksOfSize n cur) (hl : MasksOfSize n l) :
    ∃ st', passMasks cur l st = some st' ∧
      (∀ m, m ∈ st'.1 ↔ m ∈ st.1 ∨ (∃ a ∈ l, m = notMask a) ∨
        (∃ a ∈ l, ∃ b ∈ cur, m = orMask a b)) ∧ Grows st st' := by
  induction l generalizing st with
  | nil => exact ⟨st, rfl, by simp, grows_refl st⟩
  | cons a as ih =>
    have ha := hl a (List.mem_cons_self _ _)
    obtain ⟨st1, e1, hm1, hg1⟩ := passUnions_spec a cur
      ((setInsert (notMask a) st.1).1, st.2 || (setInsert (notMask a) st.1).2)
      (fun b hb => by rw [ha, hcur b hb])
    obtain ⟨st', e, hm, hg⟩ := ih st1 (fun c hc => hl c (List.mem_cons_of_mem _ hc))
    refine ⟨st', ?_, ?_, (grows_trans (grows_trans (grows_insert _ st) hg1) hg)⟩
    · simp only [passMasks, Event.Complement, Event.GetMask]
      rw [show (List.map (fun b => !b) a) = notMask a from rfl, e1]
      exact e
    · intro m
      rw [hm m, hm1 m, mem_setInsert]
      constructor
      · rintro (((h | h) | ⟨b, hb, h⟩) | ⟨c, hc, h⟩ | ⟨c, hc, b, hb, h⟩)
        · exact Or.inr (Or.inl ⟨a, List.mem_cons_self _ _, h⟩)
        · exact Or.inl h
        · exact Or.inr (Or.inr ⟨a, List.mem_cons_self _ _, b, hb, h⟩)
        · exact Or.inr (Or.inl ⟨c, List.mem_cons_of_mem _ hc, h⟩)
        · exact Or.inr (Or.inr ⟨c, List.mem_cons_of_mem _ hc, b, hb, h⟩)
      · rintro (h | ⟨c, hc, h⟩ | ⟨c, hc, b, hb, h⟩)
        · exact Or.inl (Or.inl (Or.inr h))
        · rcases List.mem_cons.1 hc with rfl | hc
          · exact Or.inl (Or.inl (Or.inl h))
          · exact Or.inr (Or.inl ⟨c, hc, h⟩)
        · rcases List.mem_cons.1 hc with rfl | hc
          · exact Or.inl (Or.inr ⟨b, hb, h⟩)
          · exact Or.inr (Or.inr ⟨c, hc, b, hb, h⟩)

/-- One pass of `Generate` on a set of masks of length `n`: it completes, adds exactly
the complements and the pairwise unions, and reports `changed` exactly when the
set grew. -/
theorem generatePass_spec (n : Nat) (cur : List (List Bool)) (hcur : MasksOfSize n cur) :
    ∃ next changed, generatePass cur = some (next, changed) ∧
      (∀ m, m ∈ next ↔ m ∈ cur ∨ (∃ a ∈ cur, m = notMask a) ∨
        (∃ a ∈ cur, ∃ b ∈ cur, m = orMask a b)) ∧
      (changed = false → next = cur) ∧
      (changed = true → cur.length < next.length) ∧
      (SetOk cur → SetOk next) ∧ MasksOfSize n next := by
  obtain ⟨st', e, hm, hl, hf, ht, ho⟩ := passMasks_spec n cur cur (cur, false) hcur hcur
  refine ⟨st'.1, st'.2, e, hm, fun h => (hf h).2, ?_, ho, ?_⟩
  · intro h
    rcases ht h with h' | h'
    · simp at h'
    · exact h'
  · intro m hmem
    rcases (hm m).1 hmem with h | ⟨a, ha, rfl⟩ | ⟨a, ha, b, hb, rfl⟩
    · exact hcur m h
    · rw [notMask_length]; exact hcur a ha
    · exact orMask_length a b n (hcur a ha) (hcur b hb)

/-! ## Counting masks -/

/-- A duplicate-free collection of masks of length `n` has at most `2 ^ n` members. -/
theorem length_le_two_pow (n : Nat) (s : List (List Bool)) (hs : s.Nodup)
    (h : MasksOfSize n s) : s.length ≤ 2 ^ n := by
  have hnd : (s.pmap (fun m hm => (⟨m, hm⟩ : Mathlib.Vector Bool n)) h).Nodup := by
    refine List.Nodup.pmap ?_ hs
    intro a ha b hb hab
    exact congrArg Subtype.val hab
  have hle := @List.Nodup.length_le_card (Mathlib.Vector Bool n) _ _ hnd
  rw [List.length_pmap, card_vector, Fintype.card_bool] at hle
  exact hle

/-- A duplicate-free collection holding every mask of length `n`, and nothing else,
has exactly `2 ^ n` members. -/
theorem length_eq_two_pow (n : Nat) (s : List (List Bool)) (hs : s.Nodup)
    (h : MasksOfSize n s) (hall : ∀ m : List Bool, m.length = n → m ∈ s) :
    s.length = 2 ^ n := by
  refine le_antisymm (length_le_two_pow n s hs h) ?_
  have hsub : (Finset.univ : Finset (Mathlib.Vector Bool n)) ⊆
      (s.pmap (fun m hm => (⟨m, hm⟩ : Mathlib.Vector Bool n)) h).toFinset := by
    intro v _
    rw [List.mem_toFinset, List.mem_pmap]
    exact ⟨v.1, hall v.1 v.2, rfl⟩
  have h1 := Finset.card_le_card hsub
  have h2 := List.toFinset_card_le (s.pmap (fun m hm => (⟨m, hm⟩ : Mathlib.Vector Bool n)) h)
  rw [Finset.card_univ, card_vector, Fintype.card_bool] at h1
  rw [List.length_pmap] at h2
  omega

/-! ## The fixed-point loop -/

/-- The result of the loop does not depend on the budget. -/
theorem generateLoop_fuel (fuel fuel' : Nat) (cur r r' : List (List Bool))
    (h : generateLoop fuel cur = some r) (h' : generateLoop fuel' cur = some r') : r = r' := by
  induction fuel generalizing fuel' cur with
  | zero => simp [generateLoop] at h
  | succ f ih =>
    cases fuel' with
    | zero => simp [generateLoop] at h'
    | succ f' =>
      unfold generateLoop at h h'
      cases hp : generatePass cur with
      | none => simp [hp] at h
      | some st =>
        obtain ⟨next, changed⟩ := st
        simp only [hp] at h h'
        cases changed with
        | false =>
          simp only [Bool.false_eq_true, if_false, Option.some.injEq] at h h'
          rw [← h, ← h']
        | true =>
          simp only [if_true] at h h'
          exact ih f' next h h'

/-- What the loop returns, when it returns: a strictly increasing set of masks of
length `n` that contains the set it started from, is closed, and lies inside every
closed family that contains the start. -/
theorem generateLoop_spec (n : Nat) (fuel : Nat) (cur r : List (List Bool))
    (hcur : MasksOfSize n cur) (hok : SetOk cur) (h : generateLoop fuel cur = some r) :
    SetOk r ∧ MasksOfSize n r ∧ (∀ m ∈ cur, m ∈ r) ∧ ClosedMasks r ∧
      ∀ P : List Bool → Prop, (∀ m ∈ cur, P m) → (∀ a, P a → P (notMask a)) →
        (∀ a b, P a → P b → P (orMask a b)) → ∀ m ∈ r, P m := by
  induction fuel generalizing cur with
  | zero => simp [generateLoop] at h
  | succ f ih =>
    obtain ⟨next, changed, hp, hm, hf, _, hso, hsz⟩ := generatePass_spec n cur hcur
    unfold generateLoop at h
    simp only [hp] at h
    cases changed with
    | false =>
      simp only [Bool.false_eq_true, if_false, Option.some.injEq] at h
      have hnc : next = cur := hf rfl
      subst h
      refine ⟨hso hok, hsz, fun m hmc => (hm m).2 (Or.inl hmc), ⟨?_, ?_⟩, ?_⟩
      · intro a ha
        rw [hnc] at ha
        exact (hm _).2 (Or.inr (Or.inl ⟨a, ha, rfl⟩))
      · intro a ha b hb
        rw [hnc] at ha hb
        exact (hm _).2 (Or.inr (Or.inr ⟨a, ha, b, hb, rfl⟩))
      · intro P hP _ _ m hmn
        rw [hnc] at hmn
        exact hP m hmn
    | true =>
      simp only [if_true] at h
      obtain ⟨r1, r2, r3, r4, r5⟩ := ih next hsz (hso hok) h
      refine ⟨r1, r2, fun m hmc => r3 m ((hm m).2 (Or.inl hmc)), r4, ?_⟩
      intro P hP hnot hor m hmr
      refine r5 P ?_ hnot hor m hmr
      intro x hx
      rcases (hm x).1 hx with h1 | ⟨a, ha, rfl⟩ | ⟨a, ha, b, hb, rfl⟩
      · exact hP x h1
      · exact hnot a (hP a ha)
      · exact hor a b (hP a ha) (hP b hb)

/-- The loop stops: a pass that changes the set enlarges it, and a strictly
increasing set of masks of length `n` has at most `2 ^ n` members. -/
theorem generateLoop_terminates (n : Nat) (k : Nat) (cur : List (List Bool))
    (hcur : MasksOfSize n cur) (hok : SetOk cur) (hk : 2 ^ n - cur.length ≤ k)
    (fuel : Nat) (hfuel : k + 1 ≤ fuel) : ∃ r, generateLoop fuel cur = some r := by
  induction k generalizing cur fuel with
  | zero =>
    obtain ⟨next, changed, hp, _, _, ht, hso, hsz⟩ := generatePass_spec n cur hcur
    obtain ⟨f, rfl⟩ : ∃ f, fuel = f + 1 := ⟨fuel - 1, by omega⟩
    unfold generateLoop
    simp only [hp]
    cases changed with
    | false => exact ⟨next, by simp⟩
    | true =>
      have h1 := ht rfl
      have h2 := length_le_two_pow n next (setOk_nodup (hso hok)) hsz
      omega
  | succ k ih =>
    obtain ⟨next, changed, hp, _, _, ht, hso, hsz⟩ := generatePass_spec n cur hcur
    obtain ⟨f, rfl⟩ : ∃ f, fuel = f + 1 := ⟨fuel - 1, by omega⟩
    unfold generateLoop
    simp only [hp]
    cases changed with
    | false => exact ⟨next, by simp⟩
    | true =>
      have h1 := ht rfl
      simp only [if_true]
      exact ih next hsz (hso hok) (by omega) f (by omega)

/-! ## The seed -/

theorem mem_insertMasks (evs : List Event) (s : List (List Bool)) (m : List Bool) :
    m ∈ insertMasks evs s ↔ m ∈ s ∨ ∃ e ∈ evs, e.mask_ = m := by
  induction evs generalizing s with
  | nil => simp [insertMasks]
  | cons e es ih =>
    have := ih (setInsert e.GetMask s).1
    unfold insertMasks at this ⊢
    rw [List.foldl_cons, this, mem_setInsert]
    simp only [List.mem_cons, exists_eq_or_imp, Event.GetMask]
    constructor
    · rintro ((h | h) | h)
      · exact Or.inr (Or.inl h.symm)
      · exact Or.inl h
      · exact Or.inr (Or.inr h)
    · rintro (h | h | h)
      · exact Or.inl (Or.inr h)
      · exact Or.inl (Or.inl h.symm)
      · exact Or.inr h

theorem insertMasks_ok (evs : List Event) (s : List (List Bool)) (hs : SetOk s) :
    SetOk (insertMasks evs s) := by
  induction evs generalizing s with
  | nil => simpa [insertMasks] using hs
  | cons e es ih =>
    have := ih (setInsert e.GetMask s).1 (setInsert_ok _ _ hs)
    unfold insertMasks at this ⊢
    rw [List.foldl_cons]
    exact this

theorem mem_generateSeed (n : Nat) (G : List Event) (m : List Bool) :
    m ∈ generateSeed n G ↔
      m = List.replicate n false ∨ m = List.replicate n true ∨ ∃ g ∈ G, g.mask_ = m := by
  unfold generateSeed
  rw [mem_insertMasks, mem_setInsert, mem_setInsert]
  simp only [Event.GetMask, Event.Full, Event.Empty, List.not_mem_nil, or_false]
  constructor
  · rintro ((h | h) | h)
    · exact Or.inr (Or.inl h)
    · exact Or.inl h
    · exact Or.inr (Or.inr h)
  · rintro (h | h | h)
    · exact Or.inl (Or.inr h)
    · exact Or.inl (Or.inl h)
    · exact Or.inr h

theorem generateSeed_ok (n : Nat) (G : List Event) : SetOk (generateSeed n G) := by
  unfold generateSeed
  refine insertMasks_ok _ _ (setInsert_ok _ _ (setInsert_ok _ _ ?_))
  simp [SetOk]

theorem generateSeed_size (n : Nat) (G : List Event) (hG : ∀ g ∈ G, g.GetSize = n) :
    MasksOfSize n (generateSeed n G) := by
  intro m hm
  rcases (mem_generateSeed n G m).1 hm with rfl | rfl | ⟨g, hg, rfl⟩
  · simp
  · simp
  · exact hG g hg

theorem generateSeed_pos (n : Nat) (G : List Event) : 0 < (generateSeed n G).length := by
  apply List.length_pos_of_mem (a := List.replicate n false)
  exact (mem_generateSeed n G _).2 (Or.inl rfl)

/-! ## The axiom checker -/

theorem Complement_mask (a : List Bool) : (Event.Complement ⟨a⟩).GetMask = notMask a := rfl

theorem checkUnions_spec (storage : List (List Bool)) (mask : List Bool)
    (l : List (List Bool)) (h : ∀ b ∈ l, mask.length ≤ b.length) :
    ∃ r, checkUnions storage mask l = some r ∧
      (r = true ↔ ∀ b ∈ l, orMask mask b ∈ storage) := by
  induction l with
  | nil => exact ⟨true, rfl, by simp⟩
  | cons b bs ih =>
    obtain ⟨r, e, hr⟩ := ih (fun c hc => h c (List.mem_cons_of_mem _ hc))
    simp only [checkUnions, Unite_eq mask b (h b (List.mem_cons_self _ _)), Event.GetMask]
    by_cases hf : setFind (orMask mask b) storage = true
    · refine ⟨r, by simp [hf, e], ?_⟩
      rw [hr]
      simp only [List.mem_cons, forall_eq_or_imp]
      exact ⟨fun h' => ⟨(setFind_iff _ _).1 hf, h'⟩, fun h' => h'.2⟩
    · refine ⟨false, by simp [hf], ?_⟩
      simp only [List.mem_cons, forall_eq_or_imp, Bool.false_eq_true, false_iff]
      intro h'
      exact hf ((setFind_iff _ _).2 h'.1)

theorem checkClosed_spec (n : Nat) (storage l : List (List Bool))
    (hst : MasksOfSize n storage) (hl : MasksOfSize n l) :
    ∃ r, checkClosed storage l = some r ∧
      (r = true ↔ ∀ a ∈ l, notMask a ∈ storage ∧ ∀ b ∈ storage, orMask a b ∈ storage) := by
  induction l with
  | nil => exact ⟨true, rfl, by simp⟩
  | cons a as ih =>
    obtain ⟨r, e, hr⟩ := ih (fun c hc => hl c (List.mem_cons_of_mem _ hc))
    obtain ⟨u, eu, hu⟩ := checkUnions_spec storage a storage
      (fun b hb => by rw [hl a (List.mem_cons_self _ _), hst b hb])
    simp only [checkClosed, Complement_mask]
    by_cases hf : setFind (notMask a) storage = true
    · cases u with
      | false =>
        refine ⟨false, by simp [hf, eu], ?_⟩
        simp only [List.mem_cons, forall_eq_or_imp, Bool.false_eq_true, false_iff]
        intro h'
        have := hu.2 h'.1.2
        simp at this
      | true =>
        refine ⟨r, by simp [hf, eu, e], ?_⟩
        rw [hr]
        simp only [List.mem_cons, forall_eq_or_imp]
        exact ⟨fun h' => ⟨⟨(setFind_iff _ _).1 hf, hu.1 rfl⟩, h'⟩, fun h' => h'.2⟩
    · refine ⟨false, by simp [hf], ?_⟩
      simp only [List.mem_cons, forall_eq_or_imp, Bool.false_eq_true, false_iff]
      intro h'
      exact hf ((setFind_iff _ _).2 h'.1.1)

theorem mem_storage (evs : List Event) (m : List Bool) :
    m ∈ insertMasks evs [] ↔ Event.mk m ∈ evs := by
  rw [mem_insertMasks]
  simp only [List.not_mem_nil, false_or]
  constructor
  · rintro ⟨e, he, rfl⟩; exact he
  · intro h; exact ⟨⟨m⟩, h, rfl⟩

/-- The verdict of `IsSigmaAlgebra` on a collection of events of the size of the
outcome space, in terms of the masks. -/
theorem isSigmaAlgebra_masks (sa : SigmaAlgebra)
    (h : ∀ e ∈ sa.events_, e.GetSize = sa.omega_.GetSize) :
    ∃ r, sa.IsSigmaAlgebra = some r ∧
      (r = true ↔
        (List.replicate sa.omega_.GetSize false ∈ insertMasks sa.events_ [] ∧
         List.replicate sa.omega_.GetSize true ∈ insertMasks sa.events_ [] ∧
         ClosedMasks (insertMasks sa.events_ []))) := by
  have hst : MasksOfSize sa.omega_.GetSize (insertMasks sa.events_ []) := by
    intro m hm
    exact h _ ((mem_storage _ _).1 hm)
  obtain ⟨r, e, hr⟩ := checkClosed_spec _ _ _ hst hst
  simp only [IsSigmaAlgebra, Event.Empty, Event.Full, Event.GetMask]
  by_cases h1 : setFind (List.replicate sa.omega_.GetSize false) (insertMasks sa.events_ []) = true
  · by_cases h2 : setFind (List.replicate sa.omega_.GetSize true) (insertMasks sa.events_ []) = true
    · refine ⟨r, by simp [h1, h2, e], ?_⟩
      rw [hr]
      rw [setFind_iff] at h1 h2
      unfold ClosedMasks
      constructor
      · intro h'
        exact ⟨h1, h2, fun a ha => (h' a ha).1, fun a ha => (h' a ha).2⟩
      · rintro ⟨_, _, hc, hu⟩ a ha
        exact ⟨hc a ha, hu a ha⟩
    · refine ⟨false, by simp [h1, h2], ?_⟩
      simp only [Bool.false_eq_true, false_iff]
      rintro ⟨_, h', _⟩
      exact h2 ((setFind_iff _ _).2 h')
  · refine ⟨false, by simp [h1], ?_⟩
    simp only [Bool.false_eq_true, false_iff]
    rintro ⟨h', _⟩
    exact h1 ((setFind_iff _ _).2 h')

/-! ## `Generate` as a whole -/

/-- The masks `Generate` computes: the loop run from the seed returns for every
budget of at least `2 ^ n` passes, always the same strictly increasing set `r`,
closed, containing the seed, and least such. -/
theorem generate_masks (omega : OutcomeSpace) (G : List Event)
    (hG : ∀ g ∈ G, g.GetSize = omega.GetSize) :
    ∃ r : List (List Bool),
      (∀ fuel, 2 ^ omega.GetSize ≤ fuel →
        Generate fuel omega G = some ⟨omega, r.map Event.mk⟩) ∧
      (∀ fuel sa, Generate fuel omega G = some sa → sa = ⟨omega, r.map Event.mk⟩) ∧
      SetOk r ∧ MasksOfSize omega.GetSize r ∧
      (∀ m ∈ generateSeed omega.GetSize G, m ∈ r) ∧ ClosedMasks r ∧
      ∀ P : List Bool → Prop, (∀ m ∈ generateSeed omega.GetSize G, P m) →
        (∀ a, P a → P (notMask a)) → (∀ a b, P a → P b → P (orMask a b)) →
        ∀ m ∈ r, P m := by
  have hsz := generateSeed_size omega.GetSize G hG
  have hok := generateSeed_ok omega.GetSize G
  have hpos := generateSeed_pos omega.GetSize G
  obtain ⟨r, hr⟩ := generateLoop_terminates omega.GetSize (2 ^ omega.GetSize - 1)
    (generateSeed omega.GetSize G) hsz hok (by omega) (2 ^ omega.GetSize)
    (by have := Nat.one_le_two_pow (n := omega.GetSize); omega)
  obtain ⟨r1, r2, r3, r4, r5⟩ := generateLoop_spec _ _ _ _ hsz hok hr
  refine ⟨r, ?_, ?_, r1, r2, r3, r4, r5⟩
  · intro fuel hfuel
    obtain ⟨r', hr'⟩ := generateLoop_terminates omega.GetSize (2 ^ omega.GetSize - 1)
      (generateSeed omega.GetSize G) hsz hok (by omega) fuel
      (by have := Nat.one_le_two_pow (n := omega.GetSize); omega)
    have := generateLoop_fuel _ _ _ _ _ hr hr'
    subst this
    simp [Generate, hr']
  · intro fuel sa hsa
    unfold Generate at hsa
    simp only [Option.map_eq_some'] at hsa
    obtain ⟨r', hr', rfl⟩ := hsa
    rw [generateLoop_fuel _ _ _ _ _ hr hr']

theorem mem_map_mk (r : List (List Bool)) (e : Event) :
    e ∈ r.map Event.mk ↔ e.mask_ ∈ r := by
  rw [List.mem_map]
  constructor
  · rintro ⟨m, hm, rfl⟩; exact hm
  · intro h; exact ⟨e.mask_, h, rfl⟩

/-! ## Facts about masks -/

theorem notMask_replicate (n : Nat) (b : Bool) :
    notMask (List.replicate n b) = List.replicate n (!b) := by
  simp [notMask]

theorem notMask_notMask (a : List Bool) : notMask (notMask a) = a := by
  induction a with
  | nil => rfl
  | cons x xs ih =>
    simp only [notMask, List.map_cons, Bool.not_not, List.cons.injEq, true_and] at ih ⊢
    exact ih

/-- De Morgan: the intersection is the complement of the union of the complements. -/
theorem andMask_eq (a b : List Bool) :
    andMask a b = notMask (orMask (notMask a) (notMask b)) := by
  induction a generalizing b with
  | nil => simp [andMask, orMask, notMask]
  | cons x xs ih =>
    cases b with
    | nil => simp [andMask, orMask, notMask]
    | cons y ys =>
      have := ih ys
      simp only [andMask, orMask, notMask, List.zipWith_cons_cons, List.map_cons,
        List.cons.injEq] at this ⊢
      exact ⟨by cases x <;> cases y <;> rfl, this⟩

theorem closedMasks_andMask_mem {s : List (List Bool)} (hs : ClosedMasks s)
    {a b : List Bool} (ha : a ∈ s) (hb : b ∈ s) : andMask a b ∈ s := by
  rw [andMask_eq]
  exact hs.1 _ (hs.2 _ (hs.1 a ha) _ (hs.1 b hb))

theorem mem_storage_map (r : List (List Bool)) (m : List Bool) :
    m ∈ insertMasks (r.map Event.mk) [] ↔ m ∈ r := by
  rw [mem_storage, mem_map_mk]

/-- The conditions on the masks of the stored set, read on the stored events. -/
theorem closed_events_iff (n : Nat) (evs : List Event) (h : ∀ e ∈ evs, e.GetSize = n) :
    (List.replicate n false ∈ insertMasks evs [] ∧
      List.replicate n true ∈ insertMasks evs [] ∧ ClosedMasks (insertMasks evs [])) ↔
    (Event.Empty n ∈ evs ∧ Event.Full n ∈ evs ∧
      (∀ a ∈ evs, Event.Complement a ∈ evs) ∧
      ∀ a ∈ evs, ∀ b ∈ evs, ∃ u, Event.Unite a b = some u ∧ u ∈ evs) := by
  unfold ClosedMasks
  simp only [mem_storage]
  constructor
  · rintro ⟨h1, h2, h3, h4⟩
    refine ⟨h1, h2, fun a ha => h3 a.mask_ ha, fun a ha b hb => ?_⟩
    refine ⟨⟨orMask a.mask_ b.mask_⟩, ?_, h4 a.mask_ ha b.mask_ hb⟩
    have hl : a.mask_.length ≤ b.mask_.length := by
      have h1 := h a ha
      have h2 := h b hb
      unfold Event.GetSize at h1 h2
      omega
    exact Unite_eq a.mask_ b.mask_ hl
  · rintro ⟨h1, h2, h3, h4⟩
    refine ⟨h1, h2, fun a ha => h3 ⟨a⟩ ha, fun a ha b hb => ?_⟩
    obtain ⟨u, hu, hmem⟩ := h4 ⟨a⟩ ha ⟨b⟩ hb
    have hl : a.length ≤ b.length := by
      have h1 := h ⟨a⟩ ha
      have h2 := h ⟨b⟩ hb
      unfold Event.GetSize at h1 h2
      simp only at h1 h2
      omega
    rw [Unite_eq a b hl, Option.some.injEq] at hu
    rw [hu]; exact hmem

/-- The events of a result of `Generate` are the masks of `generate_masks`. -/
theorem generate_events (omega : OutcomeSpace) (G : List Event)
    (hG : ∀ g ∈ G, g.GetSize = omega.GetSize) :
    ∃ r : List (List Bool),
      (∀ fuel, 2 ^ omega.GetSize ≤ fuel →
        Generate fuel omega G = some ⟨omega, r.map Event.mk⟩) ∧
      (∀ fuel sa, Generate fuel omega G = some sa → sa.GetEvents = r.map Event.mk) ∧
      SetOk r ∧ MasksOfSize omega.GetSize r ∧
      (∀ m ∈ generateSeed omega.GetSize G, m ∈ r) ∧ ClosedMasks r ∧
      ∀ P : List Bool → Prop, (∀ m ∈ generateSeed omega.GetSize G, P m) →
        (∀ a, P a → P (notMask a)) → (∀ a b, P a → P b → P (orMask a b)) →
        ∀ m ∈ r, P m := by
  obtain ⟨r, h1, h2, h3⟩ := generate_masks omega G hG
  refine ⟨r, h1, ?_, h3⟩
  intro fuel sa hsa
  rw [h2 fuel sa hsa]
  rfl

theorem map_mk_size (n : Nat) (r : List (List Bool)) (h : MasksOfSize n r) :
    ∀ e ∈ r.map Event.mk, e.GetSize = n := by
  intro e he
  exact h _ ((mem_map_mk r e).1 he)

/-- The checker accepts a closed set of masks of the size of the outcome space that
holds the empty and the full mask. -/
theorem isSigmaAlgebra_of_closed (omega : OutcomeSpace) (r : List (List Bool))
    (hsz : MasksOfSize omega.GetSize r) (he : List.replicate omega.GetSize false ∈ r)
    (hf : List.replicate omega.GetSize true ∈ r) (hc : ClosedMasks r) :
    (SigmaAlgebra.mk omega (r.map Event.mk)).IsSigmaAlgebra = some true := by
  obtain ⟨v, hv, hiff⟩ := isSigmaAlgebra_masks ⟨omega, r.map Event.mk⟩
    (map_mk_size _ r hsz)
  have : v = true := by
    rw [hiff]
    simp only [mem_storage_map, ClosedMasks]
    exact ⟨he, hf, hc⟩
  rw [hv, this]

theorem generate_returns (omega : OutcomeSpace) (G : List Event)
    (hG : ∀ g ∈ G, g.GetSize = omega.GetSize) :
    ∃ fuel sa, Generate fuel omega G = some sa := by
  obtain ⟨r, h1, _⟩ := generate_events omega G hG
  exact ⟨2 ^ omega.GetSize, _, h1 _ (le_refl _)⟩

theorem seed_empty_mem (n : Nat) (G : List Event) :
    List.replicate n false ∈ generateSeed n G :=
  (mem_generateSeed n G _).2 (Or.inl rfl)

theorem seed_full_mem (n : Nat) (G : List Event) :
    List.replicate n true ∈ generateSeed n G :=
  (mem_generateSeed n G _).2 (Or.inr (Or.inl rfl))

theorem seed_gen_mem (n : Nat) (G : List Event) (g : Event) (hg : g ∈ G) :
    g.mask_ ∈ generateSeed n G :=
  (mem_generateSeed n G _).2 (Or.inr (Or.inr ⟨g, hg, rfl⟩))

/-! ## The closure engine: main results -/

/-- C1. Closure correctness: for every outcome space and every list of generators
whose masks have the size of the outcome space, `Generate` returns, and the
`SigmaAlgebra` built from the events it returns passes `IsSigmaAlgebra`. -/
theorem generate_isSigmaAlgebra (omega : OutcomeSpace) (G : List Event)
    (hG : ∀ g ∈ G, g.GetSize = omega.GetSize) :
    (∃ fuel sa, Generate fuel omega G = some sa) ∧
    ∀ fuel sa, Generate fuel omega G = some sa →
      (SigmaAlgebra.mk omega sa.GetEvents).IsSigmaAlgebra = some true := by
  refine ⟨generate_returns omega G hG, ?_⟩
  obtain ⟨r, _, h2, _, hsz, hseed, hc, _⟩ := generate_events omega G hG
  intro fuel sa hsa
  rw [h2 fuel sa hsa]
  exact isSigmaAlgebra_of_closed omega r hsz (hseed _ (seed_empty_mem _ _))
    (hseed _ (seed_full_mem _ _)) hc

/-- Witness of C1 on the two-outcome space with the generator `{A}`. -/
theorem generate_isSigmaAlgebra_witness :
    (∀ g ∈ [Event.mk [true, false]], g.GetSize = (OutcomeSpace.mk ["A", "B"]).GetSize) ∧
    ((∃ fuel sa, Generate fuel ⟨["A", "B"]⟩ [⟨[true, false]⟩] = some sa) ∧
      ∀ fuel sa, Generate fuel ⟨["A", "B"]⟩ [⟨[true, false]⟩] = some sa →
        (SigmaAlgebra.mk ⟨["A", "B"]⟩ sa.GetEvents).IsSigmaAlgebra = some true) :=
  ⟨by decide, generate_isSigmaAlgebra ⟨["A", "B"]⟩ [⟨[true, false]⟩] (by decide)⟩

/-- C2. `Generate` builds the smallest sigma-algebra containing the generators: it
returns; what it returns contains every generator and passes `IsSigmaAlgebra`; and
every event it returns belongs to every collection `S` of events of the size of the
outcome space that contains all the generators and passes `IsSigmaAlgebra`. -/
theorem generate_smallest (omega : OutcomeSpace) (G : List Event)
    (hG : ∀ g ∈ G, g.GetSize = omega.GetSize) :
    (∃ fuel sa, Generate fuel omega G = some sa) ∧
    ∀ fuel sa, Generate fuel omega G = some sa →
      (∀ g ∈ G, g ∈ sa.GetEvents) ∧
      (SigmaAlgebra.mk omega sa.GetEvents).IsSigmaAlgebra = some true ∧
      ∀ S : List Event, (∀ e ∈ S, e.GetSize = omega.GetSize) → (∀ g ∈ G, g ∈ S) →
        (SigmaAlgebra.mk omega S).IsSigmaAlgebra = some true →
        ∀ e ∈ sa.GetEvents, e ∈ S := by
  refine ⟨generate_returns omega G hG, ?_⟩
  obtain ⟨r, _, h2, _, hsz, hseed, hc, hmin⟩ := generate_events omega G hG
  intro fuel sa hsa
  rw [h2 fuel sa hsa]
  refine ⟨?_, ?_, ?_⟩
  · intro g hg
    exact (mem_map_mk r g).2 (hseed _ (seed_gen_mem _ G g hg))
  · exact isSigmaAlgebra_of_closed omega r hsz (hseed _ (seed_empty_mem _ _))
      (hseed _ (seed_full_mem _ _)) hc
  · intro S hS hGS hSsa e he
    obtain ⟨v, hv, hiff⟩ := isSigmaAlgebra_masks ⟨omega, S⟩ hS
    rw [hSsa, Option.some.injEq] at hv
    obtain ⟨s1, s2, s3, s4⟩ := hiff.1 hv.symm
    have key : ∀ m ∈ r, m ∈ insertMasks S [] := by
      refine hmin (fun m => m ∈ insertMasks S []) ?_ s3 (fun a b ha hb => s4 a ha b hb)
      intro m hm
      rcases (mem_generateSeed _ G m).1 hm with rfl | rfl | ⟨g, hg, rfl⟩
      · exact s1
      · exact s2
      · exact (mem_storage S g.mask_).2 (hGS g hg)
    exact (mem_storage S e.mask_).1 (key _ ((mem_map_mk r e).1 he))

/-- Witness of C2 on the two-outcome space with the generator `{A}`. -/
theorem generate_smallest_witness :
    (∀ g ∈ [Event.mk [true, false]], g.GetSize = (OutcomeSpace.mk ["A", "B"]).GetSize) ∧
    ((∃ fuel sa, Generate fuel ⟨["A", "B"]⟩ [⟨[true, false]⟩] = some sa) ∧
      ∀ fuel sa, Generate fuel ⟨["A", "B"]⟩ [⟨[true, false]⟩] = some sa →
        (∀ g ∈ [Event.mk [true, false]], g ∈ sa.GetEvents) ∧
        (SigmaAlgebra.mk ⟨["A", "B"]⟩ sa.GetEvents).IsSigmaAlgebra = some true ∧
        ∀ S : List Event, (∀ e ∈ S, e.GetSize = (OutcomeSpace.mk ["A", "B"]).GetSize) →
          (∀ g ∈ [Event.mk [true, false]], g ∈ S) →
          (SigmaAlgebra.mk ⟨["A", "B"]⟩ S).IsSigmaAlgebra = some true →
          ∀ e ∈ sa.GetEvents, e ∈ S) :=
  ⟨by decide, generate_smallest ⟨["A", "B"]⟩ [⟨[true, false]⟩] (by decide)⟩

/-- C3. For every outcome space of size `n` and every list of generators whose masks
have length `n`, `Generate` returns, and the events it returns include
`Event::Empty(n)`, `Event::Full(n)` and every generator. -/
theorem generate_contains_seed (omega : OutcomeSpace) (G : List Event)
    (hG : ∀ g ∈ G, g.GetSize = omega.GetSize) :
    (∃ fuel sa, Generate fuel omega G = some sa) ∧
    ∀ fuel sa, Generate fuel omega G = some sa →
      Event.Empty omega.GetSize ∈ sa.GetEvents ∧
      Event.Full omega.GetSize ∈ sa.GetEvents ∧
      ∀ g ∈ G, g ∈ sa.GetEvents := by
  refine ⟨generate_returns omega G hG, ?_⟩
  obtain ⟨r, _, h2, _, _, hseed, _, _⟩ := generate_events omega G hG
  intro fuel sa hsa
  rw [h2 fuel sa hsa]
  refine ⟨?_, ?_, ?_⟩
  · exact (mem_map_mk r _).2 (hseed _ (seed_empty_mem _ _))
  · exact (mem_map_mk r _).2 (hseed _ (seed_full_mem _ _))
  · intro g hg
    exact (mem_map_mk r g).2 (hseed _ (seed_gen_mem _ G g hg))

/-- Witness of C3 on the two-outcome space with the generator `{A}`. -/
theorem generate_contains_seed_witness :
    (∀ g ∈ [Event.mk [true, false]], g.GetSize = (OutcomeSpace.mk ["A", "B"]).GetSize) ∧
    ((∃ fuel sa, Generate fuel ⟨["A", "B"]⟩ [⟨[true, false]⟩] = some sa) ∧
      ∀ fuel sa, Generate fuel ⟨["A", "B"]⟩ [⟨[true, false]⟩] = some sa →
        Event.Empty (OutcomeSpace.mk ["A", "B"]).GetSize ∈ sa.GetEvents ∧
        Event.Full (OutcomeSpace.mk ["A", "B"]).GetSize ∈ sa.GetEvents ∧
        ∀ g ∈ [Event.mk [true, false]], g ∈ sa.GetEvents) :=
  ⟨by decide, generate_contains_seed ⟨["A", "B"]⟩ [⟨[true, false]⟩] (by decide)⟩

/-- C4. On a stored collection whose masks have length `n`, the size of the outcome
space, `IsSigmaAlgebra` returns a boolean, and it is true if and only if the
collection contains `Event::Empty(n)` and `Event::Full(n)`, the `Complement` of each
of its events, and `Unite(a, b)` for every ordered pair of its events.  In
particular a collection holding only one event that is neither empty nor full, a
collection missing the complement of one of its events, and a collection missing the
union of two of its events are answered with false. -/
theorem isSigmaAlgebra_iff_closed (sa : SigmaAlgebra)
    (h : ∀ e ∈ sa.events_, e.GetSize = sa.omega_.GetSize) :
    (∃ r, sa.IsSigmaAlgebra = some r ∧
      (r = true ↔
        (Event.Empty sa.omega_.GetSize ∈ sa.events_ ∧
         Event.Full sa.omega_.GetSize ∈ sa.events_ ∧
         (∀ a ∈ sa.events_, Event.Complement a ∈ sa.events_) ∧
         ∀ a ∈ sa.events_, ∀ b ∈ sa.events_,
           ∃ u, Event.Unite a b = some u ∧ u ∈ sa.events_))) ∧
    (∀ A, sa.events_ = [A] → A ≠ Event.Empty sa.omega_.GetSize →
      A ≠ Event.Full sa.omega_.GetSize → sa.IsSigmaAlgebra = some false) ∧
    ((∃ a ∈ sa.events_, Event.Complement a ∉ sa.events_) →
      sa.IsSigmaAlgebra = some false) ∧
    ((∃ a ∈ sa.events_, ∃ b ∈ sa.events_, ∀ u, Event.Unite a b = some u → u ∉ sa.events_) →
      sa.IsSigmaAlgebra = some false) := by
  obtain ⟨r, hr, hiff⟩ := isSigmaAlgebra_masks sa h
  have hiff2 := hiff.trans (closed_events_iff _ _ h)
  have hfalse : ∀ {p : Prop}, (r = true → p) → ¬ p → sa.IsSigmaAlgebra = some false := by
    intro p h1 h2
    cases r with
    | false => exact hr
    | true => exact absurd (h1 rfl) h2
  refine ⟨⟨r, hr, hiff2⟩, ?_, ?_, ?_⟩
  · intro A hA hne _
    refine hfalse (fun hrt => (hiff2.1 hrt).1) ?_
    rw [hA, List.mem_singleton]
    exact fun e => hne e.symm
  · rintro ⟨a, ha, hna⟩
    exact hfalse (fun hrt => (hiff2.1 hrt).2.2.1 a ha) hna
  · rintro ⟨a, ha, b, hb, hnu⟩
    refine hfalse (fun hrt => (hiff2.1 hrt).2.2.2 a ha b hb) ?_
    rintro ⟨u, hu, hmem⟩
    exact hnu u hu hmem

/-- Witness of C4 on the collection `{onlyA}` over three outcomes. -/
theorem isSigmaAlgebra_iff_closed_witness :
    (∀ e ∈ (SigmaAlgebra.mk ⟨["1", "2", "3"]⟩ [⟨[true, false, false]⟩]).events_,
      e.GetSize = (SigmaAlgebra.mk ⟨["1", "2", "3"]⟩ [⟨[true, false, false]⟩]).omega_.GetSize) ∧
    (SigmaAlgebra.mk ⟨["1", "2", "3"]⟩ [⟨[true, false, false]⟩]).IsSigmaAlgebra = some false :=
  ⟨by decide,
    (isSigmaAlgebra_iff_closed ⟨⟨["1", "2", "3"]⟩, [⟨[true, false, false]⟩]⟩
      (by decide)).2.1 ⟨[true, false, false]⟩ rfl (by decide) (by decide)⟩

/-- C5. `Generate` is idempotent: for every outcome space and every list of
generators whose masks have the size of the outcome space, `Generate` returns, and
run again on the events it returned it returns again, with the same events (the
same masks, listed in the same order). -/
theorem generate_idempotent (omega : OutcomeSpace) (G : List Event)
    (hG : ∀ g ∈ G, g.GetSize = omega.GetSize) :
    (∃ fuel sa, Generate fuel omega G = some sa) ∧
    ∀ fuel sa, Generate fuel omega G = some sa →
      (∃ fuel' sa', Generate fuel' omega sa.GetEvents = some sa') ∧
      ∀ fuel' sa', Generate fuel' omega sa.GetEvents = some sa' →
        sa'.GetEvents = sa.GetEvents ∧
        sa'.GetEvents.map Event.GetMask = sa.GetEvents.map Event.GetMask := by
  refine ⟨generate_returns omega G hG, ?_⟩
  obtain ⟨r, _, h2, hok, hsz, hseed, hc, _⟩ := generate_events omega G hG
  intro fuel sa hsa
  rw [h2 fuel sa hsa]
  have hG' := map_mk_size _ r hsz
  refine ⟨generate_returns omega _ hG', ?_⟩
  obtain ⟨r', _, h2', hok', _, hseed', _, hmin'⟩ := generate_events omega _ hG'
  intro fuel' sa' hsa'
  rw [h2' fuel' sa' hsa']
  have hrr : r' = r := by
    refine setOk_ext hok' hok (fun m => ⟨fun hm => ?_, fun hm => ?_⟩)
    · refine hmin' (fun m => m ∈ r) ?_ hc.1 (fun a b ha hb => hc.2 a ha b hb) m hm
      intro x hx
      rcases (mem_generateSeed _ _ x).1 hx with rfl | rfl | ⟨g, hg, rfl⟩
      · exact hseed _ (seed_empty_mem _ _)
      · exact hseed _ (seed_full_mem _ _)
      · exact (mem_map_mk r g).1 hg
    · exact hseed' m (seed_gen_mem _ _ ⟨m⟩ ((mem_map_mk r ⟨m⟩).2 hm))
  rw [hrr]
  exact ⟨rfl, rfl⟩

/-- Witness of C5 on the two-outcome space with the generator `{A}`. -/
theorem generate_idempotent_witness :
    (∀ g ∈ [Event.mk [true, false]], g.GetSize = (OutcomeSpace.mk ["A", "B"]).GetSize) ∧
    ((∃ fuel sa, Generate fuel ⟨["A", "B"]⟩ [⟨[true, false]⟩] = some sa) ∧
      ∀ fuel sa, Generate fuel ⟨["A", "B"]⟩ [⟨[true, false]⟩] = some sa →
        (∃ fuel' sa', Generate fuel' ⟨["A", "B"]⟩ sa.GetEvents = some sa') ∧
        ∀ fuel' sa', Generate fuel' ⟨["A", "B"]⟩ sa.GetEvents = some sa' →
          sa'.GetEvents = sa.GetEvents ∧
          sa'.GetEvents.map Event.GetMask = sa.GetEvents.map Event.GetMask) :=
  ⟨by decide, generate_idempotent ⟨["A", "B"]⟩ [⟨[true, false]⟩] (by decide)⟩

theorem map_GetMask_map_mk (r : List (List Bool)) :
    (r.map Event.mk).map Event.GetMask = r := by
  induction r with
  | nil => rfl
  | cons x xs ih => simp only [List.map_cons, ih, Event.GetMask]

/-- C6. For every outcome space of size `n` and every list of generators whose masks
have length `n`, `Generate` returns, and the event list it returns has no two events
with equal masks and at most `2 ^ n` entries. -/
theorem generate_nodup_bounded (omega : OutcomeSpace) (G : List Event)
    (hG : ∀ g ∈ G, g.GetSize = omega.GetSize) :
    (∃ fuel sa, Generate fuel omega G = some sa) ∧
    ∀ fuel sa, Generate fuel omega G = some sa →
      (sa.GetEvents.map Event.GetMask).Nodup ∧
      sa.GetEvents.length ≤ 2 ^ omega.GetSize := by
  refine ⟨generate_returns omega G hG, ?_⟩
  obtain ⟨r, _, h2, hok, hsz, _, _, _⟩ := generate_events omega G hG
  intro fuel sa hsa
  rw [h2 fuel sa hsa, map_GetMask_map_mk, List.length_map]
  exact ⟨(setOk_nodup hok), length_le_two_pow _ r (setOk_nodup hok) hsz⟩

/-- Witness of C6 on the two-outcome space with the generator `{A}`. -/
theorem generate_nodup_bounded_witness :
    (∀ g ∈ [Event.mk [true, false]], g.GetSize = (OutcomeSpace.mk ["A", "B"]).GetSize) ∧
    ((∃ fuel sa, Generate fuel ⟨["A", "B"]⟩ [⟨[true, false]⟩] = some sa) ∧
      ∀ fuel sa, Generate fuel ⟨["A", "B"]⟩ [⟨[true, false]⟩] = some sa →
        (sa.GetEvents.map Event.GetMask).Nodup ∧
        sa.GetEvents.length ≤ 2 ^ (OutcomeSpace.mk ["A", "B"]).GetSize) :=
  ⟨by decide, generate_nodup_bounded ⟨["A", "B"]⟩ [⟨[true, false]⟩] (by decide)⟩

/-- C7. Closure under complement and union implies closure under intersection: in
every collection `S` of events of the size of the outcome space that passes
`IsSigmaAlgebra`, `Event::Intersect(a, b)` of any two stored events is computed and
is again a stored event; and likewise among the events `Generate` returns. -/
theorem intersect_closed (omega : OutcomeSpace) (S G : List Event)
    (hS : ∀ e ∈ S, e.GetSize = omega.GetSize)
    (hsa : (SigmaAlgebra.mk omega S).IsSigmaAlgebra = some true)
    (hG : ∀ g ∈ G, g.GetSize = omega.GetSize) :
    (∀ a ∈ S, ∀ b ∈ S, ∃ i, Event.Intersect a b = some i ∧ i ∈ S) ∧
    (∃ fuel sa, Generate fuel omega G = some sa) ∧
    ∀ fuel sa, Generate fuel omega G = some sa →
      ∀ a ∈ sa.GetEvents, ∀ b ∈ sa.GetEvents,
        ∃ i, Event.Intersect a b = some i ∧ i ∈ sa.GetEvents := by
  refine ⟨?_, generate_returns omega G hG, ?_⟩
  · obtain ⟨v, hv, hiff⟩ := isSigmaAlgebra_masks ⟨omega, S⟩ hS
    rw [hsa, Option.some.injEq] at hv
    obtain ⟨_, _, hc⟩ := hiff.1 hv.symm
    intro a ha b hb
    refine ⟨⟨andMask a.mask_ b.mask_⟩, ?_, ?_⟩
    · have h1 := hS a ha
      have h2 := hS b hb
      unfold Event.GetSize at h1 h2
      exact Intersect_eq a.mask_ b.mask_ (by omega)
    · exact (mem_storage S _).1
        (closedMasks_andMask_mem hc ((mem_storage S a.mask_).2 ha) ((mem_storage S b.mask_).2 hb))
  · obtain ⟨r, _, h2, _, hsz, _, hc, _⟩ := generate_events omega G hG
    intro fuel sa hsa'
    rw [h2 fuel sa hsa']
    intro a ha b hb
    rw [mem_map_mk] at ha hb
    refine ⟨⟨andMask a.mask_ b.mask_⟩, ?_, (mem_map_mk r _).2 (closedMasks_andMask_mem hc ha hb)⟩
    exact Intersect_eq a.mask_ b.mask_ (by rw [hsz _ ha, hsz _ hb])

/-- Witness of C7 on the two-outcome space, for the trivial collection and for the
generator `{A}`. -/
theorem intersect_closed_witness :
    ((∀ e ∈ [Event.Empty 2, Event.Full 2], e.GetSize = (OutcomeSpace.mk ["A", "B"]).GetSize) ∧
      (SigmaAlgebra.mk ⟨["A", "B"]⟩ [Event.Empty 2, Event.Full 2]).IsSigmaAlgebra = some true ∧
      (∀ g ∈ [Event.mk [true, false]], g.GetSize = (OutcomeSpace.mk ["A", "B"]).GetSize)) ∧
    ((∀ a ∈ [Event.Empty 2, Event.Full 2], ∀ b ∈ [Event.Empty 2, Event.Full 2],
        ∃ i, Event.Intersect a b = some i ∧ i ∈ [Event.Empty 2, Event.Full 2]) ∧
      (∃ fuel sa, Generate fuel ⟨["A", "B"]⟩ [⟨[true, false]⟩] = some sa) ∧
      ∀ fuel sa, Generate fuel ⟨["A", "B"]⟩ [⟨[true, false]⟩] = some sa →
        ∀ a ∈ sa.GetEvents, ∀ b ∈ sa.GetEvents,
          ∃ i, Event.Intersect a b = some i ∧ i ∈ sa.GetEvents) :=
  ⟨⟨by decide, by decide, by decide⟩,
    intersect_closed ⟨["A", "B"]⟩ [Event.Empty 2, Event.Full 2] [⟨[true, false]⟩]
      (by decide) (by decide) (by decide)⟩

theorem orMask_replicate (n : Nat) (x y : Bool) :
    orMask (List.replicate n x) (List.replicate n y) = List.replicate n (x || y) := by
  induction n with
  | zero => rfl
  | succ k ih =>
    simp only [orMask, List.replicate_succ, List.zipWith_cons_cons, List.cons.injEq,
      true_and] at ih ⊢
    exact ih

/-- C10. For every outcome space of size `n >= 1`, `Generate` with no generators
returns, and it returns exactly two events, `Event::Empty(n)` and `Event::Full(n)`. -/
theorem generate_no_generators (omega : OutcomeSpace) (hn : 1 ≤ omega.GetSize) :
    (∃ fuel sa, Generate fuel omega [] = some sa) ∧
    ∀ fuel sa, Generate fuel omega [] = some sa →
      sa.GetEvents = [Event.Empty omega.GetSize, Event.Full omega.GetSize] ∧
      sa.GetEvents.length = 2 := by
  have hG : ∀ g ∈ ([] : List Event), g.GetSize = omega.GetSize := by
    intro g hg; exact absurd hg (List.not_mem_nil _)
  refine ⟨generate_returns omega [] hG, ?_⟩
  obtain ⟨r, _, h2, hok, _, hseed, _, hmin⟩ := generate_events omega [] hG
  intro fuel sa hsa
  rw [h2 fuel sa hsa]
  have hr : r = [List.replicate omega.GetSize false, List.replicate omega.GetSize true] := by
    refine setOk_ext hok ?_ (fun m => ⟨fun hm => ?_, fun hm => ?_⟩)
    · obtain ⟨k, hk⟩ : ∃ k, omega.GetSize = k + 1 := ⟨omega.GetSize - 1, by omega⟩
      rw [hk]
      simp [SetOk, List.replicate_succ, maskLess]
    · have := hmin (fun m => m = List.replicate omega.GetSize false ∨
          m = List.replicate omega.GetSize true) ?_ ?_ ?_ m hm
      · simpa using this
      · intro x hx
        rcases (mem_generateSeed _ _ x).1 hx with h | h | ⟨g, hg, _⟩
        · exact Or.inl h
        · exact Or.inr h
        · exact absurd hg (List.not_mem_nil _)
      · rintro a (rfl | rfl)
        · right; simp [notMask_replicate]
        · left; simp [notMask_replicate]
      · rintro a b (rfl | rfl) (rfl | rfl)
        · left; simp [orMask_replicate]
        · right; simp [orMask_replicate]
        · right; simp [orMask_replicate]
        · right; simp [orMask_replicate]
    · simp only [List.mem_cons, List.mem_singleton, List.not_mem_nil, or_false] at hm
      rcases hm with rfl | rfl
      · exact hseed _ (seed_empty_mem _ _)
      · exact hseed _ (seed_full_mem _ _)
  rw [hr]
  exact ⟨rfl, rfl⟩

/-- Witness of C10 on the two-outcome space. -/
theorem generate_no_generators_witness :
    1 ≤ (OutcomeSpace.mk ["1", "2"]).GetSize ∧
    ((∃ fuel sa, Generate fuel ⟨["1", "2"]⟩ [] = some sa) ∧
      ∀ fuel sa, Generate fuel ⟨["1", "2"]⟩ [] = some sa →
        sa.GetEvents = [Event.Empty (OutcomeSpace.mk ["1", "2"]).GetSize,
          Event.Full (OutcomeSpace.mk ["1", "2"]).GetSize] ∧
        sa.GetEvents.length = 2) :=
  ⟨by decide, generate_no_generators ⟨["1", "2"]⟩ (by decide)⟩

/-! ## Masks bit by bit -/

theorem Contains_eq (e : Event) (i : Nat) : e.Contains i = e.mask_.getD i false := by
  unfold Event.Contains
  by_cases h : i < e.mask_.length
  · simp [h]
  · rw [List.getD_eq_default _ _ (Nat.le_of_not_lt h)]
    simp [h]

theorem getD_notMask (a : List Bool) (i : Nat) (h : i < a.length) :
    (notMask a).getD i false = !(a.getD i false) := by
  induction a generalizing i with
  | nil => simp at h
  | cons x xs ih =>
    cases i with
    | zero => simp [notMask]
    | succ j =>
      have := ih j (by simpa using h)
      simpa [notMask] using this

theorem getD_orMask (a b : List Bool) (i : Nat) (h : a.length = b.length) :
    (orMask a b).getD i false = (a.getD i false || b.getD i false) := by
  induction a generalizing b i with
  | nil =>
    cases b with
    | nil => simp [orMask]
    | cons y ys => simp at h
  | cons x xs ih =>
    cases b with
    | nil => simp at h
    | cons y ys =>
      cases i with
      | zero => simp [orMask]
      | succ j =>
        have := ih ys j (by simpa using h)
        simpa [orMask] using this

theorem getD_replicate (n i : Nat) (x : Bool) (h : i < n) :
    (List.replicate n x).getD i false = x := by
  induction n generalizing i with
  | zero => omega
  | succ k ih =>
    cases i with
    | zero => simp [List.replicate_succ]
    | succ j => simpa [List.replicate_succ] using ih j (by omega)

theorem mask_ext (n : Nat) (a b : List Bool) (ha : a.length = n) (hb : b.length = n)
    (h : ∀ i, i < n → a.getD i false = b.getD i false) : a = b := by
  induction a generalizing b n with
  | nil =>
    cases b with
    | nil => rfl
    | cons y ys => simp at ha; subst ha; simp at hb
  | cons x xs ih =>
    cases b with
    | nil => simp at hb; subst hb; simp at ha
    | cons y ys =>
      obtain ⟨k, rfl⟩ : ∃ k, n = k + 1 := ⟨xs.length, by simpa using ha.symm⟩
      have h0 := h 0 (by omega)
      simp only [List.getD_cons_zero] at h0
      rw [h0, ih k ys (by simpa using ha) (by simpa using hb)
        (fun i hi => by simpa using h (i + 1) (by omega))]

theorem orMask_false_left (n : Nat) (x : List Bool) (hx : x.length = n) :
    orMask (List.replicate n false) x = x := by
  refine mask_ext n _ _ (orMask_length _ _ n (by simp) hx) hx (fun i hi => ?_)
  rw [getD_orMask _ _ _ (by simp [hx]), getD_replicate n i false hi, Bool.false_or]

theorem orMask_false_right (n : Nat) (x : List Bool) (hx : x.length = n) :
    orMask x (List.replicate n false) = x := by
  refine mask_ext n _ _ (orMask_length _ _ n hx (by simp)) hx (fun i hi => ?_)
  rw [getD_orMask _ _ _ (by simp [hx]), getD_replicate n i false hi, Bool.or_false]

theorem orMask_true_left (n : Nat) (x : List Bool) (hx : x.length = n) :
    orMask (List.replicate n true) x = List.replicate n true := by
  refine mask_ext n _ _ (orMask_length _ _ n (by simp) hx) (by simp) (fun i hi => ?_)
  rw [getD_orMask _ _ _ (by simp [hx]), getD_replicate n i true hi, Bool.true_or]

theorem orMask_true_right (n : Nat) (x : List Bool) (hx : x.length = n) :
    orMask x (List.replicate n true) = List.replicate n true := by
  refine mask_ext n _ _ (orMask_length _ _ n hx (by simp)) (by simp) (fun i hi => ?_)
  rw [getD_orMask _ _ _ (by simp [hx]), getD_replicate n i true hi, Bool.or_true]

theorem orMask_self (x : List Bool) : orMask x x = x := by
  refine mask_ext x.length _ _ (orMask_length _ _ _ rfl rfl) rfl (fun i _ => ?_)
  rw [getD_orMask _ _ _ rfl, Bool.or_self]

theorem orMask_notMask (n : Nat) (x : List Bool) (hx : x.length = n) :
    orMask x (notMask x) = List.replicate n true := by
  refine mask_ext n _ _ (orMask_length _ _ n hx (by rw [notMask_length, hx])) (by simp)
    (fun i hi => ?_)
  rw [getD_orMask _ _ _ (notMask_length x).symm, getD_notMask x i (by omega),
    getD_replicate n i true hi]
  cases x.getD i false <;> rfl

theorem notMask_orMask (n : Nat) (x : List Bool) (hx : x.length = n) :
    orMask (notMask x) x = List.replicate n true := by
  refine mask_ext n _ _ (orMask_length _ _ n (by rw [notMask_length, hx]) hx) (by simp)
    (fun i hi => ?_)
  rw [getD_orMask _ _ _ (notMask_length x), getD_notMask x i (by omega),
    getD_replicate n i true hi]
  cases x.getD i false <;> rfl

theorem notMask_ne_self (x : List Bool) (h : x ≠ []) : x ≠ notMask x := by
  cases x with
  | nil => exact absurd rfl h
  | cons b bs =>
    intro e
    simp only [notMask, List.map_cons, List.cons.injEq] at e
    cases b <;> simp at e

/-- The masks generated by one event that is neither empty nor full. -/
theorem four_masks (n : Nat) (a : List Bool) (r : List (List Bool)) (ha : a.length = n)
    (hne : a ≠ List.replicate n false) (hnf : a ≠ List.replicate n true)
    (hnd : r.Nodup)
    (hmem : ∀ m, m ∈ r ↔ m = List.replicate n false ∨ m = a ∨ m = notMask a ∨
      m = List.replicate n true) :
    r.Perm [List.replicate n false, a, notMask a, List.replicate n true] := by
  have hpos : a ≠ [] := by
    intro h
    subst h
    simp only [List.length_nil] at ha
    subst ha
    exact hne rfl
  obtain ⟨k, rfl⟩ : ∃ k, n = k + 1 := by
    cases n with
    | zero => exact absurd (List.length_eq_zero.1 ha) hpos
    | succ k => exact ⟨k, rfl⟩
  have h1 : List.replicate (k + 1) false ≠ notMask a := by
    intro h
    apply hnf
    rw [← notMask_notMask a, ← h, notMask_replicate]
    rfl
  have h2 : notMask a ≠ List.replicate (k + 1) true := by
    intro h
    apply hne
    rw [← notMask_notMask a, h, notMask_replicate]
    rfl
  have h3 : List.replicate (k + 1) false ≠ List.replicate (k + 1) true := by
    simp [List.replicate_succ]
  refine (List.perm_ext_iff_of_nodup hnd ?_).2 (fun m => ?_)
  · simp only [List.nodup_cons, List.mem_cons, List.mem_singleton, List.not_mem_nil,
      not_or, List.nodup_nil, not_false_eq_true, and_true, or_false]
    exact ⟨⟨fun h => hne h.symm, h1, h3⟩, ⟨notMask_ne_self a hpos, hnf⟩, h2⟩
  · rw [hmem m]
    simp only [List.mem_cons, List.mem_singleton, List.not_mem_nil, or_false]

/-- C9. For every outcome space of size `n` and every event `A` of length `n` that
is neither the empty nor the full event, `Generate` on the single generator `A`
returns, and it returns exactly four events: `Event::Empty(n)`, `A`,
`Event::Complement(A)` and `Event::Full(n)`. -/
theorem generate_single_event (omega : OutcomeSpace) (A : Event)
    (hA : A.GetSize = omega.GetSize) (hne : A ≠ Event.Empty omega.GetSize)
    (hnf : A ≠ Event.Full omega.GetSize) :
    (∃ fuel sa, Generate fuel omega [A] = some sa) ∧
    ∀ fuel sa, Generate fuel omega [A] = some sa →
      sa.GetEvents.length = 4 ∧
      sa.GetEvents.Perm [Event.Empty omega.GetSize, A, Event.Complement A,
        Event.Full omega.GetSize] := by
  have hG : ∀ g ∈ [A], g.GetSize = omega.GetSize := by
    intro g hg
    rw [List.mem_singleton.1 hg]; exact hA
  refine ⟨generate_returns omega [A] hG, ?_⟩
  obtain ⟨r, _, h2, hok, hsz, hseed, hc, hmin⟩ := generate_events omega [A] hG
  intro fuel sa hsa
  rw [h2 fuel sa hsa]
  have ha : A.mask_.length = omega.GetSize := hA
  have hne' : A.mask_ ≠ List.replicate omega.GetSize false := by
    intro h; apply hne; cases A; simp only [Event.Empty] at h ⊢; rw [h]
  have hnf' : A.mask_ ≠ List.replicate omega.GetSize true := by
    intro h; apply hnf; cases A; simp only [Event.Full] at h ⊢; rw [h]
  have hAr : A.mask_ ∈ r := hseed _ (seed_gen_mem _ [A] A (List.mem_singleton.2 rfl))
  have hmem : ∀ m, m ∈ r ↔ m = List.replicate omega.GetSize false ∨ m = A.mask_ ∨
      m = notMask A.mask_ ∨ m = List.replicate omega.GetSize true := by
    intro m
    constructor
    · refine hmin (fun m => m = List.replicate omega.GetSize false ∨ m = A.mask_ ∨
        m = notMask A.mask_ ∨ m = List.replicate omega.GetSize true) ?_ ?_ ?_ m
      · intro x hx
        rcases (mem_generateSeed _ _ x).1 hx with h | h | ⟨g, hg, h⟩
        · exact Or.inl h
        · exact Or.inr (Or.inr (Or.inr h))
        · rw [List.mem_singleton.1 hg] at h
          exact Or.inr (Or.inl h.symm)
      · rintro x (rfl | rfl | rfl | rfl)
        · right; right; right; simp [notMask_replicate]
        · right; right; left; rfl
        · right; left; exact notMask_notMask _
        · left; simp [notMask_replicate]
      · have hc' : (notMask A.mask_).length = omega.GetSize := by
          rw [notMask_length, ha]
        rintro x y (rfl | rfl | rfl | rfl) (rfl | rfl | rfl | rfl)
        · left; simp [orMask_replicate]
        · right; left; exact orMask_false_left _ _ ha
        · right; right; left; exact orMask_false_left _ _ hc'
        · right; right; right; simp [orMask_replicate]
        · right; left; exact orMask_false_right _ _ ha
        · right; left; exact orMask_self _
        · right; right; right; exact orMask_notMask _ _ ha
        · right; right; right; exact orMask_true_right _ _ ha
        · right; right; left; exact orMask_false_right _ _ hc'
        · right; right; right; exact notMask_orMask _ _ ha
        · right; right; left; exact orMask_self _
        · right; right; right; exact orMask_true_right _ _ hc'
        · right; right; right; simp [orMask_replicate]
        · right; right; right; exact orMask_true_left _ _ ha
        · right; right; right; exact orMask_true_left _ _ hc'
        · right; right; right; simp [orMask_replicate]
    · rintro (rfl | rfl | rfl | rfl)
      · exact hseed _ (seed_empty_mem _ _)
      · exact hAr
      · exact hc.1 _ hAr
      · exact hseed _ (seed_full_mem _ _)
  have hperm := (four_masks _ _ r ha hne' hnf' (setOk_nodup hok) hmem).map Event.mk
  exact ⟨hperm.length_eq, hperm⟩

/-- Witness of C9 on the two-outcome space with the generator `{A}`. -/
theorem generate_single_event_witness :
    (Event.GetSize ⟨[true, false]⟩ = (OutcomeSpace.mk ["A", "B"]).GetSize ∧
      Event.mk [true, false] ≠ Event.Empty (OutcomeSpace.mk ["A", "B"]).GetSize ∧
      Event.mk [true, false] ≠ Event.Full (OutcomeSpace.mk ["A", "B"]).GetSize) ∧
    ((∃ fuel sa, Generate fuel ⟨["A", "B"]⟩ [⟨[true, false]⟩] = some sa) ∧
      ∀ fuel sa, Generate fuel ⟨["A", "B"]⟩ [⟨[true, false]⟩] = some sa →
        sa.GetEvents.length = 4 ∧
        sa.GetEvents.Perm [Event.Empty (OutcomeSpace.mk ["A", "B"]).GetSize,
          ⟨[true, false]⟩, Event.Complement ⟨[true, false]⟩,
          Event.Full (OutcomeSpace.mk ["A", "B"]).GetSize]) :=
  ⟨⟨by decide, by decide, by decide⟩,
    generate_single_event ⟨["A", "B"]⟩ ⟨[true, false]⟩ (by decide) (by decide) (by decide)⟩

/-! ## Separating generators -/

theorem getD_andMask (a b : List Bool) (i : Nat) :
    (andMask a b).getD i false = (a.getD i false && b.getD i false) := by
  induction a generalizing b i with
  | nil => simp [andMask]
  | cons x xs ih =>
    cases b with
    | nil => simp [andMask]
    | cons y ys =>
      cases i with
      | zero => simp [andMask]
      | succ j =>
        have := ih ys j
        simpa [andMask] using this

/-- In a closed family where any two outcomes are told apart by some member, every
outcome `i` has, for every `k`, a member that holds `i` and none of the other
outcomes below `k`. -/
theorem atom_upto (n : Nat) (r : List (List Bool)) (hc : ClosedMasks r)
    (hF : List.replicate n true ∈ r)
    (hsep : ∀ i, i < n → ∀ j, j < n → i ≠ j →
      ∃ m ∈ r, m.getD i false = true ∧ m.getD j false = false)
    (i : Nat) (hi : i < n) (k : Nat) (hk : k ≤ n) :
    ∃ m ∈ r, m.getD i false = true ∧ ∀ j, j < k → j ≠ i → m.getD j false = false := by
  induction k with
  | zero =>
    exact ⟨_, hF, getD_replicate n i true hi, fun j hj => absurd hj (Nat.not_lt_zero j)⟩
  | succ k ih =>
    obtain ⟨m, hm, hmi, hmj⟩ := ih (by omega)
    by_cases hki : k = i
    · refine ⟨m, hm, hmi, fun j hj hji => hmj j ?_ hji⟩
      omega
    · obtain ⟨s, hs, hsi, hsk⟩ := hsep i hi k (by omega) (fun h => hki h.symm)
      refine ⟨andMask m s, closedMasks_andMask_mem hc hm hs, ?_, ?_⟩
      · rw [getD_andMask, hmi, hsi]; rfl
      · intro j hj hji
        rw [getD_andMask]
        by_cases hjk : j = k
        · rw [hjk, hsk, Bool.and_false]
        · rw [hmj j (by omega) hji, Bool.false_and]

/-- A closed family of masks of length `n` that tells any two outcomes apart holds
every mask of length `n`. -/
theorem all_masks_mem (n : Nat) (r : List (List Bool)) (hsz : MasksOfSize n r)
    (hc : ClosedMasks r) (hE : List.replicate n false ∈ r)
    (hF : List.replicate n true ∈ r)
    (hsep : ∀ i, i < n → ∀ j, j < n → i ≠ j →
      ∃ m ∈ r, m.getD i false = true ∧ m.getD j false = false)
    (m : List Bool) (hm : m.length = n) : m ∈ r := by
  have key : ∀ k, k ≤ n → ∃ u ∈ r, ∀ j, j < n →
      u.getD j false = (decide (j < k) && m.getD j false) := by
    intro k
    induction k with
    | zero =>
      intro _
      refine ⟨_, hE, fun j hj => ?_⟩
      rw [getD_replicate n j false hj]
      simp
    | succ k ih =>
      intro hk
      obtain ⟨u, hu, hbits⟩ := ih (by omega)
      by_cases hmk : m.getD k false = true
      · obtain ⟨e, he, hek, hej⟩ := atom_upto n r hc hF hsep k (by omega) n (le_refl _)
        refine ⟨orMask u e, hc.2 u hu e he, fun j hj => ?_⟩
        rw [getD_orMask _ _ _ (by rw [hsz u hu, hsz e he]), hbits j hj]
        by_cases hjk : j = k
        · subst hjk
          rw [hek, hmk]
          simp
        · rw [hej j hj hjk]
          have : (j < k + 1) ↔ (j < k) := by omega
          simp [this]
      · refine ⟨u, hu, fun j hj => ?_⟩
        rw [hbits j hj]
        by_cases hjk : j = k
        · subst hjk
          simp only [Bool.not_eq_true] at hmk
          rw [hmk, Bool.and_false, Bool.and_false]
        · have : (j < k + 1) ↔ (j < k) := by omega
          simp [this]
  obtain ⟨u, hu, hbits⟩ := key n (le_refl _)
  have : u = m := by
    refine mask_ext n u m (hsz u hu) hm (fun i hi => ?_)
    rw [hbits i hi]
    simp [hi]
  rw [← this]; exact hu

/-- C8. For every outcome space of size `n` and every list of generators (masks of
length `n`) that separates all outcomes, so that for any two distinct outcomes
`i, j < n` some generator contains exactly one of them, `Generate` returns, and it
returns the full power set: exactly `2 ^ n` events, all of length `n`, each mask of
length `n` exactly once. -/
theorem generate_separating_powerset (omega : OutcomeSpace) (G : List Event)
    (hG : ∀ g ∈ G, g.GetSize = omega.GetSize)
    (hsep : ∀ i, i < omega.GetSize → ∀ j, j < omega.GetSize → i ≠ j →
      ∃ g ∈ G, g.Contains i ≠ g.Contains j) :
    (∃ fuel sa, Generate fuel omega G = some sa) ∧
    ∀ fuel sa, Generate fuel omega G = some sa →
      sa.GetEvents.length = 2 ^ omega.GetSize ∧
      (∀ e ∈ sa.GetEvents, e.GetSize = omega.GetSize) ∧
      ∀ m : List Bool, m.length = omega.GetSize → sa.GetEvents.count ⟨m⟩ = 1 := by
  refine ⟨generate_returns omega G hG, ?_⟩
  obtain ⟨r, _, h2, hok, hsz, hseed, hc, _⟩ := generate_events omega G hG
  intro fuel sa hsa
  rw [h2 fuel sa hsa]
  have hsep' : ∀ i, i < omega.GetSize → ∀ j, j < omega.GetSize → i ≠ j →
      ∃ m ∈ r, m.getD i false = true ∧ m.getD j false = false := by
    intro i hi j hj hij
    obtain ⟨g, hg, hne⟩ := hsep i hi j hj hij
    have hgr : g.mask_ ∈ r := hseed _ (seed_gen_mem _ G g hg)
    have hlen : g.mask_.length = omega.GetSize := hG g hg
    rw [Contains_eq, Contains_eq] at hne
    cases hgi : g.mask_.getD i false with
    | true =>
      refine ⟨g.mask_, hgr, hgi, ?_⟩
      rw [hgi] at hne
      cases hgj : g.mask_.getD j false with
      | true => rw [hgj] at hne; exact absurd rfl hne
      | false => rfl
    | false =>
      refine ⟨notMask g.mask_, hc.1 _ hgr, ?_, ?_⟩
      · rw [getD_notMask _ _ (by omega), hgi]; rfl
      · rw [hgi] at hne
        rw [getD_notMask _ _ (by omega)]
        cases hgj : g.mask_.getD j false with
        | true => rfl
        | false => rw [hgj] at hne; exact absurd rfl hne
  have hall := all_masks_mem omega.GetSize r hsz hc (hseed _ (seed_empty_mem _ _))
    (hseed _ (seed_full_mem _ _)) hsep'
  refine ⟨?_, map_mk_size _ r hsz, ?_⟩
  · rw [List.length_map]
    exact length_eq_two_pow _ r (setOk_nodup hok) hsz hall
  · intro m hm
    refine List.count_eq_one_of_mem ?_ ((mem_map_mk r ⟨m⟩).2 (hall m hm))
    refine List.Nodup.map ?_ (setOk_nodup hok)
    intro x y hxy
    exact congrArg Event.mask_ hxy

/-- Witness of C8 on four outcomes with the generators `{1,1,0,0}` and `{0,1,1,0}`:
`2 ^ 4 = 16` events. -/
theorem generate_separating_powerset_witness :
    ((∀ g ∈ [Event.mk [true, true, false, false], Event.mk [false, true, true, false]],
        g.GetSize = (OutcomeSpace.mk ["1", "2", "3", "4"]).GetSize) ∧
      (∀ i, i < (OutcomeSpace.mk ["1", "2", "3", "4"]).GetSize →
        ∀ j, j < (OutcomeSpace.mk ["1", "2", "3", "4"]).GetSize → i ≠ j →
        ∃ g ∈ [Event.mk [true, true, false, false], Event.mk [false, true, true, false]],
          g.Contains i ≠ g.Contains j)) ∧
    ((∃ fuel sa, Generate fuel ⟨["1", "2", "3", "4"]⟩
        [⟨[true, true, false, false]⟩, ⟨[false, true, true, false]⟩] = some sa) ∧
      ∀ fuel sa, Generate fuel ⟨["1", "2", "3", "4"]⟩
          [⟨[true, true, false, false]⟩, ⟨[false, true, true, false]⟩] = some sa →
        sa.GetEvents.length = 16 ∧
        (∀ e ∈ sa.GetEvents, e.GetSize = 4) ∧
        ∀ m : List Bool, m.length = 4 → sa.GetEvents.count ⟨m⟩ = 1) :=
  ⟨⟨by decide, by decide⟩,
    generate_separating_powerset ⟨["1", "2", "3", "4"]⟩
      [⟨[true, true, false, false]⟩, ⟨[false, true, true, false]⟩] (by decide) (by decide)⟩

/-! ## Termination of the loop -/

/-- C11. `Generate` terminates for every outcome space of size `n` and every list
of generators whose masks have length `n`: with a budget of `2 ^ n` passes or more
it returns, always the same result.  The reason: on a strictly increasing set of
masks of length `n` a pass completes, a pass that reports `changed` has strictly
enlarged the set, a pass that does not has left it as it was (and the loop stops),
and the enlarged set is again strictly increasing, of masks of length `n`, with at
most `2 ^ n` members. -/
theorem generate_terminates (omega : OutcomeSpace) (G : List Event)
    (hG : ∀ g ∈ G, g.GetSize = omega.GetSize) :
    (∃ sa, ∀ fuel, 2 ^ omega.GetSize ≤ fuel → Generate fuel omega G = some sa) ∧
    (SetOk (generateSeed omega.GetSize G) ∧
      MasksOfSize omega.GetSize (generateSeed omega.GetSize G)) ∧
    ∀ cur, SetOk cur → MasksOfSize omega.GetSize cur →
      ∃ next changed, generatePass cur = some (next, changed) ∧
        (changed = true → cur.length < next.length) ∧
        (changed = false → next = cur) ∧
        SetOk next ∧ MasksOfSize omega.GetSize next ∧ next.length ≤ 2 ^ omega.GetSize := by
  obtain ⟨r, h1, _⟩ := generate_events omega G hG
  refine ⟨⟨_, h1⟩, ⟨generateSeed_ok _ _, generateSeed_size _ _ hG⟩, ?_⟩
  intro cur hok hsz
  obtain ⟨next, changed, hp, _, hf, ht, hso, hnsz⟩ := generatePass_spec _ cur hsz
  exact ⟨next, changed, hp, ht, hf, hso hok, hnsz,
    length_le_two_pow _ next (setOk_nodup (hso hok)) hnsz⟩

/-- Witness of C11 on the two-outcome space with the generator `{A}`. -/
theorem generate_terminates_witness :
    (∀ g ∈ [Event.mk [true, false]], g.GetSize = (OutcomeSpace.mk ["A", "B"]).GetSize) ∧
    ∃ sa, ∀ fuel, 2 ^ (OutcomeSpace.mk ["A", "B"]).GetSize ≤ fuel →
      Generate fuel ⟨["A", "B"]⟩ [⟨[true, false]⟩] = some sa :=
  ⟨by decide, (generate_terminates ⟨["A", "B"]⟩ [⟨[true, false]⟩] (by decide)).1⟩

/-! ## The checker on collections of any shape -/

/-- C13. `Complement` is an involution: for every event `e` the complement of the
complement of `e` is `e` (the same mask); `Complement(e)` has the length of `e`, and
each of its bits is the negation of the bit of `e` at that position. -/
theorem complement_involution (e : Event) :
    Event.Complement (Event.Complement e) = e ∧
    (Event.Complement (Event.Complement e)).GetMask = e.GetMask ∧
    (Event.Complement e).GetSize = e.GetSize ∧
    ∀ i : Nat, (Event.Complement e).GetMask[i]? = (e.GetMask[i]?).map (fun b => !b) := by
  have h : Event.Complement (Event.Complement e) = e := by
    cases e with
    | mk m =>
      show Event.mk (notMask (notMask m)) = Event.mk m
      rw [notMask_notMask]
  refine ⟨h, by rw [h], ?_, ?_⟩
  · simp [Event.Complement, Event.GetSize]
  · intro i
    simp [Event.Complement, Event.GetMask]

/-- C14. For every two events `a` and `b` of equal mask length `n`, `Unite(a, b)`
and `Intersect(a, b)` are computed, have length `n`, and their bit `i` is
`a[i] || b[i]`, respectively `a[i] && b[i]`, for every `i < n`. -/
theorem unite_intersect_bits (a b : Event) (n : Nat) (ha : a.GetSize = n)
    (hb : b.GetSize = n) :
    ∃ u v, Event.Unite a b = some u ∧ Event.Intersect a b = some v ∧
      u.GetSize = n ∧ v.GetSize = n ∧
      ∀ i, i < n →
        u.GetMask.getD i false = (a.GetMask.getD i false || b.GetMask.getD i false) ∧
        v.GetMask.getD i false = (a.GetMask.getD i false && b.GetMask.getD i false) := by
  have hle : a.mask_.length ≤ b.mask_.length := by
    unfold Event.GetSize at ha hb; omega
  refine ⟨⟨orMask a.mask_ b.mask_⟩, ⟨andMask a.mask_ b.mask_⟩,
    Unite_eq a.mask_ b.mask_ hle, Intersect_eq a.mask_ b.mask_ hle,
    orMask_length _ _ n ha hb, andMask_length _ _ n ha hb, ?_⟩
  intro i _
  exact ⟨getD_orMask _ _ i (by unfold Event.GetSize at ha hb; omega), getD_andMask _ _ i⟩

/-- Witness of C14 on `{true, false}` and `{false, false}`. -/
theorem unite_intersect_bits_witness :
    (Event.GetSize ⟨[true, false]⟩ = 2 ∧ Event.GetSize ⟨[false, false]⟩ = 2) ∧
    ∃ u v, Event.Unite ⟨[true, false]⟩ ⟨[false, false]⟩ = some u ∧
      Event.Intersect ⟨[true, false]⟩ ⟨[false, false]⟩ = some v ∧
      u.GetSize = 2 ∧ v.GetSize = 2 ∧
      ∀ i, i < 2 →
        u.GetMask.getD i false =
          ((Event.mk [true, false]).GetMask.getD i false ||
            (Event.mk [false, false]).GetMask.getD i false) ∧
        v.GetMask.getD i false =
          ((Event.mk [true, false]).GetMask.getD i false &&
            (Event.mk [false, false]).GetMask.getD i false) :=
  ⟨⟨by decide, by decide⟩,
    unite_intersect_bits ⟨[true, false]⟩ ⟨[false, false]⟩ 2 (by decide) (by decide)⟩

/-- C15. `Event::Contains` is total: the read `mask_[id]` behind the guard
`id < mask_.size()` never leaves the mask; `Contains(id)` is true exactly when
`id < GetSize()` and bit `id` of the mask is set, and false when `id` is out of
range.  Hence `Full(n)` contains every `id < n`, and `Empty(n)` and
`Complement(Full(n))` contain no `id`. -/
theorem contains_total (e : Event) (id n : Nat) :
    e.ContainsRead id = some (e.Contains id) ∧
    (e.Contains id = true ↔ id < e.GetSize ∧ e.GetMask[id]? = some true) ∧
    (e.GetSize ≤ id → e.Contains id = false) ∧
    (id < n → (Event.Full n).Contains id = true) ∧
    (Event.Empty n).Contains id = false ∧
    (Event.Complement (Event.Full n)).Contains id = false := by
  refine ⟨?_, ?_, ?_, ?_, ?_, ?_⟩
  · unfold Event.ContainsRead Event.Contains
    by_cases h : id < e.mask_.length
    · simp [h, List.getD_eq_getElem?_getD, List.getElem?_eq_getElem h]
    · simp [h]
  · unfold Event.Contains Event.GetSize Event.GetMask
    by_cases h : id < e.mask_.length
    · simp [h, List.getD_eq_getElem?_getD, List.getElem?_eq_getElem h]
    · simp [h]
  · intro h
    unfold Event.Contains
    unfold Event.GetSize at h
    simp [Nat.not_lt.2 h]
  · intro h
    rw [Contains_eq]
    exact getD_replicate n id true h
  · rw [Contains_eq]
    by_cases h : id < n
    · exact getD_replicate n id false h
    · exact List.getD_eq_default _ _ (by simp [Event.Empty]; omega)
  · rw [Contains_eq]
    show (notMask (List.replicate n true)).getD id false = false
    rw [notMask_replicate]
    by_cases h : id < n
    · exact getD_replicate n id (!true) h
    · exact List.getD_eq_default _ _ (by simp; omega)

/-! ## ProbabilityMeasure -/

open ProbabilityMeasure DiscreteRandomVariable

theorem getAtomicProbability_eq (P : ProbabilityMeasure) (i : Nat) :
    P.GetAtomicProbability i = P.atom_probs_.getD i 0 := by
  unfold GetAtomicProbability
  by_cases h : i < P.atom_probs_.length
  · rw [dif_pos h, List.getD_eq_getElem _ _ h]
    rfl
  · rw [dif_neg h, List.getD_eq_default _ _ (Nat.le_of_not_lt h)]

/-- The loop of `Probability` up to index `k`, when every set bit below `k` is the
index of an atom: no read leaves the atoms, and the running sum is the sum of the
atoms at the set positions. -/
theorem probability_fold (P : ProbabilityMeasure) (mask : List Bool) (k : Nat)
    (h : ∀ i, i < k → mask.getD i false = true → i < P.atom_probs_.length) :
    (List.range k).foldlM (probabilityStep P mask) 0 =
      some (∑ i ∈ Finset.range k,
        if mask.getD i false = true then P.atom_probs_.getD i 0 else 0) := by
  induction k with
  | zero => rfl
  | succ k ih =>
    rw [List.range_succ, List.foldlM_append, ih (fun i hi => h i (by omega)),
      Finset.sum_range_succ]
    simp only [Option.some_bind, List.foldlM_cons, List.foldlM_nil, Option.bind_eq_bind,
      Option.pure_def, Option.bind_some, probabilityStep]
    cases hb : mask.getD k false with
    | false => simp
    | true =>
      have hk := h k (by omega) hb
      rw [List.getD_eq_getElem _ _ hk]
      simp [List.getElem?_eq_getElem hk]

/-- C16. For every measure and every event whose mask length equals the number of
atoms, `Probability(event)` is computed and equals the sum of the atomic
probabilities at exactly the positions where the mask is set; the empty event
gives 0. -/
theorem probability_sum (P : ProbabilityMeasure) (event : Event)
    (h : event.GetSize = P.atom_probs_.length) :
    P.Probability event =
      some (∑ i ∈ Finset.range P.atom_probs_.length,
        if event.Contains i = true then P.GetAtomicProbability i else 0) ∧
    P.Probability (Event.Empty P.atom_probs_.length) = some 0 := by
  constructor
  · unfold Probability
    rw [probability_fold P event.GetMask _ (fun i hi _ => by
      unfold Event.GetSize at h; unfold Event.GetMask at hi; omega)]
    unfold Event.GetSize at h
    simp only [Event.GetMask, h, Contains_eq, getAtomicProbability_eq]
  · unfold Probability
    rw [probability_fold P _ _ (fun i hi hb => by
      simp only [Event.GetMask, Event.Empty, List.length_replicate] at hi hb
      rw [getD_replicate _ _ false hi] at hb
      exact absurd hb (by simp))]
    congr 1
    apply Finset.sum_eq_zero
    intro i hi
    simp only [Event.GetMask, Event.Empty, List.length_replicate, Finset.mem_range] at hi ⊢
    rw [if_neg]
    rw [getD_replicate _ _ false hi]
    simp

/-- Witness of C16: atoms 0.2, 0.3, 0.5 and the event `{1, 3}` give 0.7. -/
theorem probability_sum_witness :
    Event.GetSize ⟨[true, false, true]⟩ =
      (ProbabilityMeasure.mk ⟨["1", "2", "3"]⟩ [1 / 5, 3 / 10, 1 / 2]).atom_probs_.length ∧
    (ProbabilityMeasure.mk ⟨["1", "2", "3"]⟩ [1 / 5, 3 / 10, 1 / 2]).Probability
      ⟨[true, false, true]⟩ = some (7 / 10) :=
  ⟨rfl, (probability_sum ⟨⟨["1", "2", "3"]⟩, [1 / 5, 3 / 10, 1 / 2]⟩ ⟨[true, false, true]⟩
    rfl).1.trans (by
      simp [Finset.sum_range_succ, Event.Contains, GetAtomicProbability]
      norm_num)⟩

/-- C17. `Probability` is additive on disjoint events: for every measure and every
two events `a`, `b` whose mask length is the number of atoms and whose `Intersect`
is the empty event, `Unite(a, b)` and the three probabilities are computed and
`Probability(Unite(a, b)) = Probability(a) + Probability(b)`. -/
theorem probability_additive (P : ProbabilityMeasure) (a b : Event)
    (ha : a.GetSize = P.atom_probs_.length) (hb : b.GetSize = P.atom_probs_.length)
    (hdisj : Event.Intersect a b = some (Event.Empty P.atom_probs_.length)) :
    ∃ u pa pb, Event.Unite a b = some u ∧ P.Probability a = some pa ∧
      P.Probability b = some pb ∧ P.Probability u = some (pa + pb) := by
  have hla : a.mask_.length = P.atom_probs_.length := ha
  have hlb : b.mask_.length = P.atom_probs_.length := hb
  have hu : (Event.mk (orMask a.mask_ b.mask_)).GetSize = P.atom_probs_.length :=
    orMask_length _ _ _ hla hlb
  refine ⟨⟨orMask a.mask_ b.mask_⟩, _, _, Unite_eq _ _ (by omega), (probability_sum P a ha).1,
    (probability_sum P b hb).1, ?_⟩
  rw [(probability_sum P _ hu).1, ← Finset.sum_add_distrib]
  congr 1
  apply Finset.sum_congr rfl
  intro i hi
  rw [Finset.mem_range] at hi
  rw [Intersect_eq _ _ (by omega)] at hdisj
  have hand : andMask a.mask_ b.mask_ = List.replicate P.atom_probs_.length false := by
    have := Option.some.inj hdisj
    exact congrArg Event.mask_ this
  have hbit := getD_andMask a.mask_ b.mask_ i
  rw [hand, getD_replicate _ _ false hi] at hbit
  simp only [Contains_eq]
  rw [getD_orMask _ _ _ (by omega)]
  generalize a.mask_.getD i false = x at hbit ⊢
  generalize b.mask_.getD i false = y at hbit ⊢
  cases x <;> cases y <;> simp at hbit ⊢

/-- Witness of C17: over three atoms the events `{1}` and `{3}` are disjoint. -/
theorem probability_additive_witness :
    (Event.GetSize ⟨[true, false, false]⟩ =
        (ProbabilityMeasure.mk ⟨["1", "2", "3"]⟩ [1 / 5, 3 / 10, 1 / 2]).atom_probs_.length ∧
      Event.GetSize ⟨[false, false, true]⟩ =
        (ProbabilityMeasure.mk ⟨["1", "2", "3"]⟩ [1 / 5, 3 / 10, 1 / 2]).atom_probs_.length ∧
      Event.Intersect ⟨[true, false, false]⟩ ⟨[false, false, true]⟩ =
        some (Event.Empty
          (ProbabilityMeasure.mk ⟨["1", "2", "3"]⟩ [1 / 5, 3 / 10, 1 / 2]).atom_probs_.length)) ∧
    ∃ u pa pb, Event.Unite ⟨[true, false, false]⟩ ⟨[false, false, true]⟩ = some u ∧
      (ProbabilityMeasure.mk ⟨["1", "2", "3"]⟩ [1 / 5, 3 / 10, 1 / 2]).Probability
        ⟨[true, false, false]⟩ = some pa ∧
      (ProbabilityMeasure.mk ⟨["1", "2", "3"]⟩ [1 / 5, 3 / 10, 1 / 2]).Probability
        ⟨[false, false, true]⟩ = some pb ∧
      (ProbabilityMeasure.mk ⟨["1", "2", "3"]⟩ [1 / 5, 3 / 10, 1 / 2]).Probability u =
        some (pa + pb) :=
  ⟨⟨rfl, rfl, rfl⟩,
    probability_additive ⟨⟨["1", "2", "3"]⟩, [1 / 5, 3 / 10, 1 / 2]⟩
      ⟨[true, false, false]⟩ ⟨[false, false, true]⟩ rfl rfl rfl⟩

/-- C18. For every measure with `n` atoms and every `id`, `p`, `j`: after
`SetAtomicProbability(id, p)`, `GetAtomicProbability(j)` is `p` when `j = id < n`
and otherwise its value before the call; `GetAtomicProbability(j)` is 0 for every
`j >= n`; a `Set` with `id >= n` leaves the measure as it was, and every `Set`
keeps the number of atoms. -/
theorem set_get_atomic (P : ProbabilityMeasure) (id j : Nat) (p : ℚ) :
    (P.SetAtomicProbability id p).GetAtomicProbability j =
      (if j = id ∧ id < P.atom_probs_.length then p else P.GetAtomicProbability j) ∧
    (P.atom_probs_.length ≤ j → P.GetAtomicProbability j = 0) ∧
    (P.atom_probs_.length ≤ id → P.SetAtomicProbability id p = P) ∧
    (P.SetAtomicProbability id p).atom_probs_.length = P.atom_probs_.length := by
  refine ⟨?_, ?_, ?_, ?_⟩
  · rw [getAtomicProbability_eq, getAtomicProbability_eq]
    unfold SetAtomicProbability
    by_cases hid : id < P.atom_probs_.length
    · rw [if_pos hid]
      by_cases hj : j = id
      · subst hj
        rw [if_pos ⟨rfl, hid⟩, List.getD_eq_getElem _ _ (by simpa using hid)]
        simp
      · rw [if_neg (fun h => hj h.1)]
        simp only [List.getD_eq_getElem?_getD]
        rw [List.getElem?_set_ne (fun h => hj h.symm)]
    · rw [if_neg hid, if_neg (fun h => hid h.2)]
  · intro h
    rw [getAtomicProbability_eq, List.getD_eq_default _ _ h]
  · intro h
    unfold SetAtomicProbability
    rw [if_neg (by omega)]
  · unfold SetAtomicProbability
    by_cases hid : id < P.atom_probs_.length
    · rw [if_pos hid]; simp
    · rw [if_neg hid]

theorem isValidLoop_eq (l : List ℚ) (s : ℚ) :
    isValidLoop l s = if (∀ p ∈ l, 0 ≤ p) then some (s + l.sum) else none := by
  induction l generalizing s with
  | nil => simp [isValidLoop]
  | cons x xs ih =>
    unfold isValidLoop
    by_cases hx : x < 0
    · rw [if_pos hx, if_neg]
      intro h
      exact absurd (h x (List.mem_cons_self _ _)) (not_le.2 hx)
    · rw [if_neg hx, ih]
      have hx' : 0 ≤ x := not_lt.1 hx
      by_cases hall : ∀ p ∈ xs, 0 ≤ p
      · rw [if_pos hall, if_pos (by
          intro p hp
          rcases List.mem_cons.1 hp with rfl | hp
          · exact hx'
          · exact hall p hp)]
        simp [add_assoc]
      · rw [if_neg hall, if_neg (fun h => hall (fun p hp => h p (List.mem_cons_of_mem _ hp)))]

/-- C19, as the code has it. For every measure and every `eps`, `IsValid(eps)`
returns true if and only if every atom is `>= 0` and the distance `|sum - 1|` of the
sum of all atoms from 1 is strictly less than `eps`. -/
theorem isValid_iff (P : ProbabilityMeasure) (eps : ℚ) :
    P.IsValid eps = true ↔
      (∀ p ∈ P.atom_probs_, 0 ≤ p) ∧ |P.atom_probs_.sum - 1| < eps := by
  unfold IsValid
  rw [isValidLoop_eq]
  by_cases hall : ∀ p ∈ P.atom_probs_, 0 ≤ p
  · rw [if_pos hall]
    show decide (|0 + P.atom_probs_.sum - 1| < eps) = true ↔ _
    rw [decide_eq_true_iff, zero_add]
    exact ⟨fun h => ⟨hall, h⟩, fun h => h.2⟩
  · rw [if_neg hall]
    simp only [Bool.false_eq_true, false_iff]
    exact fun h => hall h.1

/-- Counterexample to C19: the atoms 1/2 and 1/4 are non-negative and their sum 3/4
is at distance exactly 1/4 from 1, yet `IsValid(1/4)` is false. -/
theorem isValid_rejects_boundary :
    (ProbabilityMeasure.mk ⟨["1", "2"]⟩ [1 / 2, 1 / 4]).IsValid (1 / 4) = false ∧
    ((∀ p ∈ (ProbabilityMeasure.mk ⟨["1", "2"]⟩ [1 / 2, 1 / 4]).atom_probs_, 0 ≤ p) ∧
      |(ProbabilityMeasure.mk ⟨["1", "2"]⟩ [1 / 2, 1 / 4]).atom_probs_.sum - 1| ≤ 1 / 4) := by
  refine ⟨?_, ?_, ?_⟩
  · rw [Bool.eq_false_iff]
    intro h
    have := ((isValid_iff _ _).1 h).2
    norm_num [abs_lt] at this
  · intro p hp
    simp only [List.mem_cons, List.mem_singleton, List.not_mem_nil, or_false] at hp
    rcases hp with rfl | rfl <;> norm_num
  · norm_num [abs_le]

/-! ## DiscreteRandomVariable -/

/-- The loop of `ExpectedValue` up to index `k`, within the values. -/
theorem expectedValue_fold (X : DiscreteRandomVariable) (k : Nat)
    (h : k ≤ X.values_.length) :
    (List.range k).foldlM (expectedValueStep X) 0 =
      some (∑ i ∈ Finset.range k, X.values_.getD i 0 * X.P_.GetAtomicProbability i) := by
  induction k with
  | zero => rfl
  | succ k ih =>
    rw [List.range_succ, List.foldlM_append, ih (by omega), Finset.sum_range_succ]
    simp only [Option.some_bind, List.foldlM_cons, List.foldlM_nil, Option.bind_eq_bind,
      Option.pure_def, Option.bind_some, expectedValueStep]
    have hk : k < X.values_.length := by omega
    rw [List.getD_eq_getElem _ _ hk]
    simp [List.getElem?_eq_getElem hk]

/-- C20. For every random variable whose value sequence has at least `n` entries,
`n` the size of its outcome space, `ExpectedValue()` is computed and equals the sum
over `i` in `0..n-1` of `values[i] * measure.GetAtomicProbability(i)`. -/
theorem expectedValue_sum (X : DiscreteRandomVariable)
    (h : X.omega_.GetSize ≤ X.values_.length) :
    X.ExpectedValue =
      some (∑ i ∈ Finset.range X.omega_.GetSize,
        X.values_.getD i 0 * X.P_.GetAtomicProbability i) :=
  expectedValue_fold X _ h

/-- Witness of C20: the values 1, 2, 3 with the atoms 0.2, 0.3, 0.5 give 2.3. -/
theorem expectedValue_sum_witness :
    (DiscreteRandomVariable.mk ⟨["1", "2", "3"]⟩ ⟨⟨["1", "2", "3"]⟩, [1 / 5, 3 / 10, 1 / 2]⟩
        [1, 2, 3]).omega_.GetSize ≤
      (DiscreteRandomVariable.mk ⟨["1", "2", "3"]⟩ ⟨⟨["1", "2", "3"]⟩, [1 / 5, 3 / 10, 1 / 2]⟩
        [1, 2, 3]).values_.length ∧
    (DiscreteRandomVariable.mk ⟨["1", "2", "3"]⟩ ⟨⟨["1", "2", "3"]⟩, [1 / 5, 3 / 10, 1 / 2]⟩
        [1, 2, 3]).ExpectedValue = some (23 / 10) :=
  ⟨by decide,
    (expectedValue_sum ⟨⟨["1", "2", "3"]⟩, ⟨⟨["1", "2", "3"]⟩, [1 / 5, 3 / 10, 1 / 2]⟩, [1, 2, 3]⟩
      (by decide)).trans (by
        simp [Finset.sum_range_succ, OutcomeSpace.GetSize, GetAtomicProbability]
        norm_num)⟩

/-! ## Expectation of a constant, values, and reads of the atoms -/

/-- The expectation of a variable that is `c` on the first `n` outcomes is `c` times
the sum of the first `n` atomic probabilities. -/
theorem expectedValue_const (X : DiscreteRandomVariable) (c : ℚ)
    (hc : ∀ i, i < X.omega_.GetSize → X.values_[i]? = some c) :
    X.ExpectedValue =
      some (c * ∑ i ∈ Finset.range X.omega_.GetSize, X.P_.GetAtomicProbability i) := by
  have hlen : X.omega_.GetSize ≤ X.values_.length := by
    by_contra hlt
    have h1 := hc X.values_.length (by omega)
    rw [List.getElem?_eq_none (le_refl _)] at h1
    exact absurd h1 (by simp)
  rw [expectedValue_sum X hlen, Finset.mul_sum]
  congr 1
  apply Finset.sum_congr rfl
  intro i hi
  rw [Finset.mem_range] at hi
  rw [List.getD_eq_getElem?_getD, hc i hi]
  rfl

theorem sum_range_getD (l : List ℚ) :
    ∑ i ∈ Finset.range l.length, l.getD i 0 = l.sum := by
  induction l with
  | nil => rfl
  | cons x xs ih =>
    rw [List.length_cons, Finset.sum_range_succ', List.sum_cons, add_comm]
    congr 1

/-- C21, as the code has it. For every random variable that takes the same value
`c` on all `n` outcomes, under a measure with `n` atoms, `ExpectedValue()` is
computed and equals `c` times the sum of the atoms.  So when `IsValid(eps)` returns
true it is within `|c| * eps` of `c`, and it equals `c` when the atoms sum to
exactly 1. -/
theorem expectedValue_const_valid (X : DiscreteRandomVariable) (c : ℚ)
    (hc : ∀ i, i < X.omega_.GetSize → X.values_[i]? = some c)
    (hP : X.P_.atom_probs_.length = X.omega_.GetSize) :
    X.ExpectedValue = some (c * X.P_.atom_probs_.sum) ∧
    (∀ eps, X.P_.IsValid eps = true →
      ∃ ev, X.ExpectedValue = some ev ∧ |ev - c| ≤ |c| * eps) ∧
    (X.P_.atom_probs_.sum = 1 → X.ExpectedValue = some c) := by
  have hev : X.ExpectedValue = some (c * X.P_.atom_probs_.sum) := by
    rw [expectedValue_const X c hc, ← hP, ← sum_range_getD]
    simp only [getAtomicProbability_eq]
  refine ⟨hev, ?_, ?_⟩
  · intro eps hvalid
    refine ⟨_, hev, ?_⟩
    have hlt := ((isValid_iff _ _).1 hvalid).2
    have : c * X.P_.atom_probs_.sum - c = c * (X.P_.atom_probs_.sum - 1) := by ring
    rw [this, abs_mul]
    exact mul_le_mul_of_nonneg_left (le_of_lt hlt) (abs_nonneg c)
  · intro h1
    rw [hev, h1, mul_one]

/-- Counterexample to C21: the atoms 1/2 and 1/2 + 2^-40 pass `IsValid` with the
default tolerance 1e-9, and the variable that is 1 on both outcomes has expectation
1 + 2^-40, not 1. -/
theorem expectedValue_const_not_exact :
    (ProbabilityMeasure.mk ⟨["1", "2"]⟩ [1 / 2, 1 / 2 + 1 / 2 ^ 40]).IsValid
      (1 / 1000000000) = true ∧
    (DiscreteRandomVariable.mk ⟨["1", "2"]⟩ ⟨⟨["1", "2"]⟩, [1 / 2, 1 / 2 + 1 / 2 ^ 40]⟩
      [1, 1]).ExpectedValue = some (1 + 1 / 2 ^ 40) ∧
    (DiscreteRandomVariable.mk ⟨["1", "2"]⟩ ⟨⟨["1", "2"]⟩, [1 / 2, 1 / 2 + 1 / 2 ^ 40]⟩
      [1, 1]).ExpectedValue ≠ some 1 := by
  have hev : (DiscreteRandomVariable.mk ⟨["1", "2"]⟩
      ⟨⟨["1", "2"]⟩, [1 / 2, 1 / 2 + 1 / 2 ^ 40]⟩ [1, 1]).ExpectedValue =
      some (1 + 1 / 2 ^ 40) := by
    rw [expectedValue_sum _ (by decide)]
    simp [Finset.sum_range_succ, OutcomeSpace.GetSize, GetAtomicProbability]
    norm_num
  refine ⟨?_, hev, ?_⟩
  · rw [isValid_iff]
    constructor
    · intro p hp
      simp only [List.mem_cons, List.mem_singleton, List.not_mem_nil, or_false] at hp
      rcases hp with rfl | rfl <;> norm_num
    · norm_num [abs_lt]
  · rw [hev]
    norm_num

/-- Witness of the amended C21: the value 3 on both outcomes under the atoms 1/2,
1/2. -/
theorem expectedValue_const_valid_witness :
    ((∀ i, i < (OutcomeSpace.mk ["1", "2"]).GetSize →
        ([3, 3] : List ℚ)[i]? = some 3) ∧
      (ProbabilityMeasure.mk ⟨["1", "2"]⟩ [1 / 2, 1 / 2]).atom_probs_.length =
        (OutcomeSpace.mk ["1", "2"]).GetSize) ∧
    (DiscreteRandomVariable.mk ⟨["1", "2"]⟩ ⟨⟨["1", "2"]⟩, [1 / 2, 1 / 2]⟩
      [3, 3]).ExpectedValue = some 3 :=
  have h1 : ∀ i, i < (OutcomeSpace.mk ["1", "2"]).GetSize →
      ([3, 3] : List ℚ)[i]? = some 3 := by
    intro i hi
    have : i < 2 := hi
    interval_cases i <;> rfl
  ⟨⟨h1, rfl⟩,
    (expectedValue_const_valid ⟨⟨["1", "2"]⟩, ⟨⟨["1", "2"]⟩, [1 / 2, 1 / 2]⟩, [3, 3]⟩ 3
      h1 rfl).2.2 (by norm_num)⟩

/-- C22. `DiscreteRandomVariable::Value(id)` returns the stored value at `id` when
`id` is in range and the absent result for every out-of-range `id`; the read of
`values_[id]` is behind the guard `id < values_.size()`, so it never fails. -/
theorem value_total (X : DiscreteRandomVariable) (id : Nat) :
    X.Value id = X.values_[id]? ∧
    (∀ h : id < X.values_.length, X.Value id = some (X.values_.get ⟨id, h⟩)) ∧
    (X.values_.length ≤ id → X.Value id = none) := by
  unfold Value
  refine ⟨?_, ?_, ?_⟩
  · by_cases h : id < X.values_.length
    · rw [dif_pos h, List.getElem?_eq_getElem h]; rfl
    · rw [dif_neg h, List.getElem?_eq_none (Nat.le_of_not_lt h)]
  · intro h
    rw [dif_pos h]
  · intro h
    rw [dif_neg (by omega)]

/-- The loop of `Probability` up to index `k` stops at a read past the end of the
atoms as soon as a set bit below `k` is not the index of an atom. -/
theorem probability_fold_none (P : ProbabilityMeasure) (mask : List Bool) (k : Nat)
    (h : ∃ i, i < k ∧ mask.getD i false = true ∧ P.atom_probs_.length ≤ i) :
    (List.range k).foldlM (probabilityStep P mask) 0 = none := by
  induction k with
  | zero =>
    obtain ⟨i, hi, _⟩ := h
    omega
  | succ k ih =>
    rw [List.range_succ, List.foldlM_append]
    obtain ⟨i, hi, hb, hlen⟩ := h
    by_cases hik : i < k
    · rw [ih ⟨i, hik, hb, hlen⟩]
      rfl
    · have hk : i = k := by omega
      subst hk
      cases hpre : (List.range i).foldlM (probabilityStep P mask) 0 with
      | none => rfl
      | some s =>
        simp only [Option.some_bind, List.foldlM_cons, List.foldlM_nil, Option.bind_eq_bind,
          Option.pure_def, probabilityStep, hb, if_true]
        rw [List.getElem?_eq_none hlen]
        rfl

/-- C30. `ProbabilityMeasure::Probability` reads an atom out of range exactly when
the event has a set bit at an index that is not below the number of atoms.  For
every event whose set bits all lie below the atom count, in particular every event
whose mask is not longer than the atom vector, no read is out of range and the
result is the sum of the atoms at the set positions. -/
theorem probability_reads (P : ProbabilityMeasure) (event : Event) :
    (P.Probability event = none ↔
      ∃ i, i < event.GetSize ∧ event.Contains i = true ∧ P.atom_probs_.length ≤ i) ∧
    ((∀ i, i < event.GetSize → event.Contains i = true → i < P.atom_probs_.length) →
      P.Probability event =
        some (∑ i ∈ Finset.range event.GetSize,
          if event.Contains i = true then P.GetAtomicProbability i else 0)) ∧
    (event.GetSize ≤ P.atom_probs_.length →
      P.Probability event =
        some (∑ i ∈ Finset.range event.GetSize,
          if event.Contains i = true then P.GetAtomicProbability i else 0)) := by
  have hin : (∀ i, i < event.GetSize → event.Contains i = true → i < P.atom_probs_.length) →
      P.Probability event =
        some (∑ i ∈ Finset.range event.GetSize,
          if event.Contains i = true then P.GetAtomicProbability i else 0) := by
    intro h
    unfold Probability
    have hfold := probability_fold P event.GetMask event.GetMask.length
      (fun i hi hb => h i hi (by rw [Contains_eq]; exact hb))
    rw [hfold]
    simp only [Event.GetMask, Event.GetSize, Contains_eq, getAtomicProbability_eq]
  refine ⟨⟨?_, ?_⟩, hin, fun hle => hin (fun i hi _ => by omega)⟩
  · intro hnone
    by_contra hno
    have hall : ∀ i, i < event.GetSize → event.Contains i = true →
        i < P.atom_probs_.length := by
      intro i hi hb
      by_contra hge
      exact hno ⟨i, hi, hb, by omega⟩
    rw [hin hall] at hnone
    exact absurd hnone (by simp)
  · rintro ⟨i, hi, hb, hlen⟩
    unfold Probability
    exact probability_fold_none P event.GetMask _ ⟨i, hi, by
      rw [Contains_eq] at hb; exact hb, hlen⟩

/-! ## GeometricDistribution -/

theorem stdRound_natCast (k : Nat) : stdRound (k : ℚ) = (k : ℤ) := by
  unfold stdRound
  rw [if_pos (Nat.cast_nonneg k)]
  rw [Int.floor_eq_iff]
  constructor
  · push_cast; linarith
  · push_cast; linarith

theorem pdf_natCast (g : GeometricDistribution) (k : Nat) (h1 : 1 ≤ k) (h2 : k < 2 ^ 31) :
    g.Pdf (k : ℚ) = some ((1 - g.p_) ^ (k - 1) * g.p_) := by
  unfold GeometricDistribution.Pdf castToInt
  rw [stdRound_natCast]
  have hr : -(2 : ℤ) ^ 31 ≤ (k : ℤ) ∧ (k : ℤ) < (2 : ℤ) ^ 31 := by
    constructor
    · have : (0 : ℤ) ≤ (k : ℤ) := Int.natCast_nonneg k
      have : -(2 : ℤ) ^ 31 ≤ 0 := by norm_num
      omega
    · exact_mod_cast h2
  rw [if_pos hr]
  have hk : ¬ ((k : ℤ) < 1 ∨ |(k : ℚ) - ((k : ℤ) : ℚ)| > 1 / 1000000000) := by
    rintro (h | h)
    · omega
    · simp at h
      norm_num at h
  simp only [hk, if_false]
  have : ((k : ℤ) - 1).toNat = k - 1 := by omega
  rw [this]

theorem pdf_out_of_int (g : GeometricDistribution) (k : Nat) (h : 2 ^ 31 ≤ k) :
    g.Pdf (k : ℚ) = none := by
  unfold GeometricDistribution.Pdf castToInt
  rw [stdRound_natCast]
  have hr : ¬ (-(2 : ℤ) ^ 31 ≤ (k : ℤ) ∧ (k : ℤ) < (2 : ℤ) ^ 31) := by
    rintro ⟨_, h2⟩
    have : (k : ℤ) < 2 ^ 31 := h2
    have h3 : k < 2 ^ 31 := by exact_mod_cast this
    omega
  rw [if_neg hr]

theorem cdf_natCast (g : GeometricDistribution) (n : Nat) (h1 : 1 ≤ n) :
    g.Cdf (n : ℚ) = 1 - (1 - g.p_) ^ n := by
  unfold GeometricDistribution.Cdf
  have : ¬ ((n : ℚ) < 1) := by
    rw [not_lt]
    exact_mod_cast h1
  rw [if_neg this, Int.floor_natCast, Int.toNat_natCast]

/-- The geometric sum: the first `n` terms `(1 - p)^(k - 1) * p` add up to
`1 - (1 - p)^n`. -/
theorem geometric_sum (p : ℚ) (n : Nat) :
    ∑ k ∈ Finset.Icc 1 n, (1 - p) ^ (k - 1) * p = 1 - (1 - p) ^ n := by
  induction n with
  | zero => simp
  | succ m ih =>
    rw [Finset.sum_Icc_succ_top (by omega), ih]
    simp only [Nat.add_sub_cancel]
    ring

/-- The method `Pdf` is the conversion followed by the statements after it. -/
theorem pdf_eq_afterCast (g : GeometricDistribution) (x : ℚ) :
    g.Pdf x = (castToInt (stdRound x)).map (g.pdfAfterCast x) := by
  unfold GeometricDistribution.Pdf GeometricDistribution.pdfAfterCast
  cases castToInt (stdRound x) with
  | none => rfl
  | some k =>
    simp only [Option.map_some']
    split <;> rfl

/-- At `x = 2^31` the statements after the conversion return 0 whatever `int` the
conversion has yielded: no `int` is within `1e-9` of `x`. -/
theorem pdfAfterCast_beyond (g : GeometricDistribution) (z : ℤ) (hz : z < (2 : ℤ) ^ 31) :
    g.pdfAfterCast 2147483648 z = 0 := by
  unfold GeometricDistribution.pdfAfterCast
  rw [if_pos]
  right
  have h1 : z ≤ 2147483647 := by
    have : (2 : ℤ) ^ 31 = 2147483648 := by norm_num
    omega
  have h2 : (z : ℚ) ≤ 2147483647 := by exact_mod_cast h1
  have h3 : (0 : ℚ) ≤ 2147483648 - (z : ℚ) := by linarith
  rw [abs_of_nonneg h3]
  linarith

/-- C29, as the code has it. For every `p`: `Cdf(n) = 1 - (1 - p)^n` for every
integer `n >= 1`; for the integers `k` with `1 <= k < 2^31`, the positive range of
`int`, `Pdf(k) = (1 - p)^(k - 1) * p`; and for `1 <= n < 2^31` every `Pdf(k)` with
`k = 1..n` is computed and their sum is `Cdf(n)` (exact arithmetic). -/
theorem geometric_pdf_cdf (g : GeometricDistribution) :
    (∀ n : Nat, 1 ≤ n → g.Cdf (n : ℚ) = 1 - (1 - g.p_) ^ n) ∧
    (∀ k : Nat, 1 ≤ k → k < 2 ^ 31 → g.Pdf (k : ℚ) = some ((1 - g.p_) ^ (k - 1) * g.p_)) ∧
    (∀ n : Nat, 1 ≤ n → n < 2 ^ 31 →
      (∀ k ∈ Finset.Icc 1 n, (g.Pdf (k : ℚ)).isSome = true) ∧
      g.Cdf (n : ℚ) = ∑ k ∈ Finset.Icc 1 n, (g.Pdf (k : ℚ)).getD 0) := by
  refine ⟨cdf_natCast g, pdf_natCast g, ?_⟩
  intro n h1 h2
  constructor
  · intro k hk
    rw [Finset.mem_Icc] at hk
    rw [pdf_natCast g k hk.1 (by omega)]
    rfl
  · rw [cdf_natCast g n h1, ← geometric_sum]
    apply Finset.sum_congr rfl
    intro k hk
    rw [Finset.mem_Icc] at hk
    rw [pdf_natCast g k hk.1 (by omega)]
    rfl

/-- Counterexample to C29: `p = 2^-40` and `k = 2^31`.  The value the claim states,
`(1 - p)^(k - 1) * p`, is positive (about `9.08e-13`, no underflow in a `double`).
In `Pdf` the conversion of `x = 2^31` to `int` is out of range, so `Pdf` has no
defined value; and whatever `int` the conversion yields, the statements after it
return 0, because that `int` is not within `1e-9` of `x`. -/
theorem geometric_pdf_beyond_int :
    (0 : ℚ) < (1 - 1 / 2 ^ 40) ^ 2147483647 * (1 / 2 ^ 40) ∧
    (GeometricDistribution.mk (1 / 2 ^ 40)).Pdf 2147483648 = none ∧
    (GeometricDistribution.mk (1 / 2 ^ 40)).Pdf 2147483648 =
      (castToInt (stdRound 2147483648)).map
        ((GeometricDistribution.mk (1 / 2 ^ 40)).pdfAfterCast 2147483648) ∧
    ∀ z : ℤ, -(2 : ℤ) ^ 31 ≤ z → z < (2 : ℤ) ^ 31 →
      (GeometricDistribution.mk (1 / 2 ^ 40)).pdfAfterCast 2147483648 z = 0 := by
  refine ⟨?_, ?_, pdf_eq_afterCast _ _, fun z _ hz => pdfAfterCast_beyond _ z hz⟩
  · apply mul_pos
    · apply pow_pos
      norm_num
    · norm_num
  · have := pdf_out_of_int ⟨1 / 2 ^ 40⟩ 2147483648 (by norm_num)
    simpa using this

/-- The example of C29 in the range of `int`: for `p = 1/2`,
`Cdf(2) = Pdf(1) + Pdf(2) = 3/4`. -/
theorem geometric_pdf_cdf_witness :
    (GeometricDistribution.mk (1 / 2)).Cdf 2 = 3 / 4 ∧
    (GeometricDistribution.mk (1 / 2)).Pdf 1 = some (1 / 2) ∧
    (GeometricDistribution.mk (1 / 2)).Pdf 2 = some (1 / 4) := by
  have h := geometric_pdf_cdf ⟨1 / 2⟩
  refine ⟨?_, ?_, ?_⟩
  · have := h.1 2 (by norm_num)
    norm_num at this ⊢
    exact this
  · have := h.2.1 1 (by norm_num) (by norm_num)
    norm_num at this ⊢
    exact this
  · have := h.2.1 2 (by norm_num) (by norm_num)
    norm_num at this ⊢
    exact this

/-! ## LawOfLargeNumbersSimulator -/

open LawOfLargeNumbersSimulator

/-- The multiples of `step` among `1..m`, in order. -/
theorem filter_multiples (step : Nat) (hs : 1 ≤ step) (m : Nat) :
    (List.range' 1 m).filter (fun n => decide (n % step = 0)) =
      (List.range (m / step)).map (fun k => (k + 1) * step) := by
  induction m with
  | zero => simp
  | succ m ih =>
    rw [List.range'_1_concat, List.filter_append, ih, Nat.succ_div]
    by_cases hd : step ∣ m + 1
    · rw [if_pos hd, List.range_succ, List.map_append]
      have hmod : (1 + m) % step = 0 := by
        rw [Nat.add_comm]; exact Nat.mod_eq_zero_of_dvd hd
      simp only [List.filter_cons, List.filter_nil, hmod, decide_True, if_true,
        List.map_cons, List.map_nil]
      congr 2
      obtain ⟨q, hq⟩ := hd
      have hq0 : 0 < q := by
        rcases Nat.eq_zero_or_pos q with h | h
        · subst h; simp at hq
        · exact h
      have : m / step = q - 1 := by
        have hm : m = step * (q - 1) + (step - 1) := by
          have : step * q = step * (q - 1) + step := by
            conv_lhs => rw [show q = (q - 1) + 1 by omega]
            ring
          omega
        rw [hm, Nat.mul_add_div (by omega), Nat.div_eq_of_lt (by omega)]
        simp
      rw [this, show q - 1 + 1 = q by omega, Nat.mul_comm, ← hq, Nat.add_comm]
    · rw [if_neg hd, Nat.add_zero]
      have hmod : ¬ ((1 + m) % step = 0) := by
        rw [Nat.add_comm]
        intro h
        exact hd (Nat.dvd_of_mod_eq_zero h)
      simp [hmod]

/-- The result of the loop does not depend on the budget. -/
theorem simulateLoop_fuel {Rng : Type} (dist : Distribution Rng) (max_n step : Nat)
    (fuel fuel' n : Nat) (rng : Rng) (sum : ℚ) (entries : List LLNEntry)
    (r r' : Rng × ℚ × List LLNEntry)
    (h : simulateLoop dist max_n step fuel n rng sum entries = some r)
    (h' : simulateLoop dist max_n step fuel' n rng sum entries = some r') : r = r' := by
  induction fuel generalizing fuel' n rng sum entries with
  | zero => simp [simulateLoop] at h
  | succ f ih =>
    cases fuel' with
    | zero => simp [simulateLoop] at h'
    | succ f' =>
      unfold simulateLoop at h h'
      by_cases hn : n ≤ max_n
      · simp only [hn, if_true] at h h'
        by_cases hs : step = 0
        · simp [hs] at h
        · simp only [hs, if_false] at h h'
          by_cases hm : n % step = 0
          · simp only [hm, if_true] at h h'
            exact ih _ _ _ _ _ h h'
          · simp only [hm, if_false] at h h'
            exact ih _ _ _ _ _ h h'
      · simp only [hn, if_false, Option.some.injEq] at h h'
        rw [← h, ← h']

/-- The loop from the counter `n` up to `max_n`, when `max_n + 1` is still a value of
`size_t`: it completes within `max_n + 1 - n` iterations and one more test, and it
records exactly the multiples of `step` from `n` to `max_n`, in order. -/
theorem simulateLoop_spec {Rng : Type} (dist : Distribution Rng) (max_n step : Nat)
    (hs : 1 ≤ step) (hmax : max_n + 1 < sizeRange) (fuel n : Nat) (rng : Rng) (sum : ℚ)
    (entries : List LLNEntry) (hn : n ≤ max_n + 1) (hfuel : max_n + 1 - n < fuel) :
    ∃ r, simulateLoop dist max_n step fuel n rng sum entries = some r ∧
      r.2.2.map LLNEntry.n = entries.map LLNEntry.n ++
        (List.range' n (max_n + 1 - n)).filter (fun i => decide (i % step = 0)) := by
  induction fuel generalizing n rng sum entries with
  | zero => omega
  | succ f ih =>
    unfold simulateLoop
    by_cases hle : n ≤ max_n
    · have hstep : step ≠ 0 := by omega
      have hwrap : (n + 1) % sizeRange = n + 1 := Nat.mod_eq_of_lt (by omega)
      have hr : List.range' n (max_n + 1 - n) = n :: List.range' (n + 1) (max_n + 1 - (n + 1)) := by
        rw [show max_n + 1 - n = (max_n + 1 - (n + 1)) + 1 by omega, List.range'_succ]
      simp only [hle, if_true, hstep, if_false, hwrap]
      by_cases hm : n % step = 0
      · simp only [hm, if_true]
        obtain ⟨r, hr1, hr2⟩ := ih (n + 1) (dist.Sample rng).2 (sum + (dist.Sample rng).1)
          (entries ++ [⟨n, (sum + (dist.Sample rng).1) / n,
            |(sum + (dist.Sample rng).1) / n - dist.TheoreticalMean|⟩]) (by omega) (by omega)
        refine ⟨r, hr1, ?_⟩
        rw [hr2, hr]
        simp [hm]
      · simp only [hm, if_false]
        obtain ⟨r, hr1, hr2⟩ := ih (n + 1) (dist.Sample rng).2 (sum + (dist.Sample rng).1)
          entries (by omega) (by omega)
        refine ⟨r, hr1, ?_⟩
        rw [hr2, hr]
        simp [hm]
    · have : n = max_n + 1 := by omega
      subst this
      simp [hle]

theorem sampleSizes_sorted (max_n step : Nat) (hs : 1 ≤ step) :
    (sampleSizes max_n step).Pairwise (fun a b => a < b) := by
  unfold sampleSizes
  rw [List.pairwise_append]
  refine ⟨?_, ?_, ?_⟩
  · rw [List.pairwise_map]
    refine List.Pairwise.imp ?_ (List.pairwise_lt_range _)
    intro a b hab
    exact Nat.mul_lt_mul_of_lt_of_le (by omega) (le_refl _) (by omega)
  · by_cases h : max_n % step = 0
    · simp [h]
    · simp [h]
  · intro a ha b hb
    by_cases h : max_n % step = 0
    · simp [h] at hb
    · simp only [h, if_false, List.mem_singleton] at hb
      subst hb
      rw [List.mem_map] at ha
      obtain ⟨k, hk, rfl⟩ := ha
      rw [List.mem_range] at hk
      have h1 : (k + 1) * step ≤ (b / step) * step := Nat.mul_le_mul_right _ (by omega)
      have h2 : b / step * step + b % step = b := Nat.div_add_mod' b step
      have h3 : 0 < b % step := Nat.pos_of_ne_zero h
      omega

theorem sampleSizes_step (max_n step : Nat) (hd : max_n % step = 0) (i : Nat)
    (hi : i + 1 < (sampleSizes max_n step).length) :
    (sampleSizes max_n step).getD (i + 1) 0 = (sampleSizes max_n step).getD i 0 + step := by
  unfold sampleSizes at hi ⊢
  simp only [hd, if_true, List.append_nil, List.length_map, List.length_range] at hi ⊢
  rw [List.getD_eq_getElem _ _ (by simpa using hi), List.getD_eq_getElem _ _ (by simp; omega)]
  simp only [List.getElem_map, List.getElem_range]
  ring

theorem sampleSizes_last (max_n step : Nat) (hm : 1 ≤ max_n) :
    (sampleSizes max_n step).getLast? = some max_n := by
  unfold sampleSizes
  by_cases h : max_n % step = 0
  · simp only [h, if_true, List.append_nil]
    have hq : 1 ≤ max_n / step := by
      have h2 : max_n / step * step + max_n % step = max_n := Nat.div_add_mod' max_n step
      rcases Nat.eq_zero_or_pos (max_n / step) with h0 | h0
      · rw [h0, h] at h2; omega
      · exact h0
    obtain ⟨q, hq'⟩ : ∃ q, max_n / step = q + 1 := ⟨max_n / step - 1, by omega⟩
    rw [hq', List.range_succ, List.map_append]
    simp only [List.map_cons, List.map_nil, List.getLast?_append, List.getLast?_singleton]
    rw [← hq']
    have h2 : max_n / step * step + max_n % step = max_n := Nat.div_add_mod' max_n step
    rw [h] at h2
    simp only [Nat.add_zero] at h2
    rw [h2]
    rfl
  · simp [h, List.getLast?_append]

theorem sampleSizes_nil (max_n step : Nat) :
    sampleSizes max_n step = [] ↔ max_n = 0 := by
  constructor
  · intro h
    by_contra hne
    have := sampleSizes_last max_n step (by omega)
    rw [h] at this
    simp at this
  · intro h
    subst h
    simp [sampleSizes]

/-- C28. For every `step >= 1` and every `max_n` below the largest value of
`size_t`, `Simulate` returns, and the sample sizes it records are exactly
`step, 2 * step, ..., (max_n / step) * step` in this order, followed by `max_n` when
`step` does not divide `max_n`: strictly increasing, consecutive ones `step` apart
when `step` divides `max_n`, the last one `max_n` when `max_n >= 1`, and none only
when `max_n = 0`.  (With `max_n` the largest value of `size_t` the loop would draw
`2^64` samples before its counter wraps; such a run is not covered.) -/
theorem simulate_sample_sizes {Rng : Type} (dist : Distribution Rng) (rng : Rng)
    (max_n step : Nat) (hs : 1 ≤ step) (hmax : max_n + 1 < sizeRange) :
    ∃ r, (∀ fuel, max_n + 1 < fuel → Simulate dist fuel rng max_n step = some r) ∧
      (∀ fuel r', Simulate dist fuel rng max_n step = some r' → r' = r) ∧
      r.entries.map LLNEntry.n = sampleSizes max_n step ∧
      (r.entries.map LLNEntry.n).Pairwise (fun a b => a < b) ∧
      (max_n % step = 0 → ∀ i, i + 1 < r.entries.length →
        (r.entries.map LLNEntry.n).getD (i + 1) 0 =
          (r.entries.map LLNEntry.n).getD i 0 + step) ∧
      (1 ≤ max_n → (r.entries.map LLNEntry.n).getLast? = some max_n) ∧
      (r.entries = [] ↔ max_n = 0) := by
  have hstep : step ≠ 0 := by omega
  obtain ⟨l, hl, hlmap⟩ := simulateLoop_spec dist max_n step hs hmax (max_n + 2) 1 rng 0 []
    (by omega) (by omega)
  have hns : (if max_n % step ≠ 0 then
        l.2.2 ++ [⟨max_n, l.2.1 / max_n, |l.2.1 / max_n - dist.TheoreticalMean|⟩]
      else l.2.2).map LLNEntry.n = sampleSizes max_n step := by
    unfold sampleSizes
    rw [← filter_multiples step hs max_n]
    simp only [List.map_nil, List.nil_append, Nat.add_sub_cancel] at hlmap
    by_cases hd : max_n % step = 0
    · simp [hd, hlmap]
    · simp [hd, hlmap]
  have hsim : ∀ fuel r', Simulate dist fuel rng max_n step = some r' →
      r' = ⟨if max_n % step ≠ 0 then
        l.2.2 ++ [⟨max_n, l.2.1 / max_n, |l.2.1 / max_n - dist.TheoreticalMean|⟩]
      else l.2.2⟩ := by
    intro fuel r' hr'
    unfold Simulate at hr'
    cases hloop : simulateLoop dist max_n step fuel 1 rng 0 [] with
    | none => simp [hloop] at hr'
    | some l' =>
      have := simulateLoop_fuel dist max_n step _ _ _ _ _ _ _ _ hl hloop
      subst this
      simp only [hloop, hstep, if_false] at hr'
      by_cases hd : max_n % step = 0
      · simp only [hd, ne_eq, not_true_eq_false, if_false, Option.some.injEq] at hr' ⊢
        exact hr'.symm
      · simp only [hd, ne_eq, not_false_eq_true, if_true, Option.some.injEq] at hr' ⊢
        exact hr'.symm
  refine ⟨_, ?_, hsim, hns, ?_, ?_, ?_, ?_⟩
  · intro fuel hfuel
    obtain ⟨l', hl', _⟩ := simulateLoop_spec dist max_n step hs hmax fuel 1 rng 0 []
      (by omega) (by omega)
    have := simulateLoop_fuel dist max_n step _ _ _ _ _ _ _ _ hl hl'
    subst this
    unfold Simulate
    simp only [hl', hstep, if_false]
    by_cases hd : max_n % step = 0
    · simp [hd]
    · simp [hd]
  · rw [hns]; exact sampleSizes_sorted max_n step hs
  · intro hd i hi
    rw [hns]
    refine sampleSizes_step max_n step hd i ?_
    rw [← hns, List.length_map]; exact hi
  · intro hm
    rw [hns]; exact sampleSizes_last max_n step hm
  · rw [← sampleSizes_nil max_n step, ← hns]
    simp

/-- The tests' run of C28, with a source that always samples 1: `max_n = 23`,
`step = 5` records the sample sizes 5, 10, 15, 20, 23. -/
theorem simulate_sample_sizes_witness :
    (1 ≤ 5 ∧ 23 + 1 < sizeRange) ∧
    ∃ r, Simulate (Distribution.mk (fun rng : Nat => ((1 : ℚ), rng)) 1) 25 0 23 5 = some r ∧
      r.entries.map LLNEntry.n = [5, 10, 15, 20, 23] := by
  refine ⟨⟨by norm_num, by unfold sizeRange; norm_num⟩, ?_⟩
  obtain ⟨r, h1, _, h3, _⟩ :=
    simulate_sample_sizes (Distribution.mk (fun rng : Nat => ((1 : ℚ), rng)) 1) 0 23 5
      (by norm_num) (by unfold sizeRange; norm_num)
  refine ⟨r, h1 25 (by norm_num), ?_⟩
  rw [h3]
  decide

/-! ## The tokenizer -/

open MarkovTextModel

theorem isWordChar_not_space (c : Char) (h : isWordChar c = true) : isspace c = false := by
  unfold isWordChar isalnum at h
  unfold isspace
  simp only [Bool.or_eq_true, Bool.and_eq_true, decide_eq_true_eq] at h
  simp only [Bool.or_eq_false_iff, Bool.and_eq_false_iff, decide_eq_false_iff_not]
  rcases h with h | h
  · constructor <;> omega
  · subst h
    decide

/-- The tokens of a text: the run of word characters it opens with, if any, then the
tokens of the rest. -/
theorem wordTokens_split (t : List Char) :
    wordTokens t =
      (if t.takeWhile isWordChar ≠ [] then [t.takeWhile isWordChar] else []) ++
        wordTokens (t.dropWhile isWordChar) := by
  cases t with
  | nil => simp [wordTokens]
  | cons c rest =>
    by_cases hc : isWordChar c = true
    · rw [wordTokens]
      simp [hc, List.takeWhile_cons, List.dropWhile_cons]
    · simp [hc, List.takeWhile_cons, List.dropWhile_cons]

/-- The loop of `Tokenize` in `Word` mode against the tokens of the claim: the word
in progress is completed by the run of word characters the rest opens with. -/
theorem tokenizeWords_eq (text : List Char) (tokens : List State) (cur : List Char) :
    tokenizeWords text tokens cur =
      tokens ++
        (if cur ++ text.takeWhile isWordChar ≠ [] then [cur ++ text.takeWhile isWordChar]
          else []) ++
        wordTokens (text.dropWhile isWordChar) := by
  induction text generalizing tokens cur with
  | nil =>
    unfold tokenizeWords
    by_cases h : cur = []
    · simp [h, wordTokens]
    · simp [h, wordTokens]
  | cons c rest ih =>
    unfold tokenizeWords
    by_cases hc : isWordChar c = true
    · have hc' : (isalnum c || decide (c = Char.ofNat 39)) = true := hc
      rw [if_pos hc', ih]
      simp [hc, List.takeWhile_cons, List.dropWhile_cons]
    · have hc' : ¬ (isalnum c || decide (c = Char.ofNat 39)) = true := hc
      rw [if_neg hc', ih]
      simp only [hc, List.takeWhile_cons, List.dropWhile_cons, List.append_nil,
        Bool.false_eq_true, if_false, List.nil_append]
      rw [wordTokens, if_neg hc, wordTokens_split rest]
      by_cases hcur : cur = []
      · by_cases hsp : isspace c = true
        · simp [hcur, hsp]
        · simp [hcur, hsp]
      · by_cases hsp : isspace c = true
        · simp [hcur, hsp]
        · simp [hcur, hsp]

theorem tokenize_word_eq (m : MarkovTextModel) (hm : m.level_ = TokenLevel.Word)
    (text : List Char) : m.Tokenize text = wordTokens text := by
  unfold Tokenize
  rw [hm]
  show tokenizeWords text [] [] = wordTokens text
  rw [tokenizeWords_eq, wordTokens_split text]
  simp

/-- What the tokens of the claim are made of. -/
theorem wordTokens_props (n : Nat) (t : List Char) (hn : t.length ≤ n) :
    (∀ tok ∈ wordTokens t, tok ≠ [] ∧ (∀ c ∈ tok, isspace c = false) ∧
      ((∀ c ∈ tok, isWordChar c = true) ∨
        ∃ c, tok = [c] ∧ isWordChar c = false ∧ isspace c = false)) ∧
    (wordTokens t).flatten = t.filter (fun c => !isspace c) := by
  induction n generalizing t with
  | zero =>
    have : t = [] := List.length_eq_zero.1 (by omega)
    subst this
    simp [wordTokens]
  | succ n ih =>
    cases t with
    | nil => simp [wordTokens]
    | cons c rest =>
      have hrest : rest.length ≤ n := by simpa using hn
      rw [wordTokens]
      by_cases hc : isWordChar c = true
      · have hdrop : (rest.dropWhile isWordChar).length ≤ n :=
          le_trans (List.dropWhile_suffix _).length_le hrest
        obtain ⟨ih1, ih2⟩ := ih _ hdrop
        have hrun : ∀ x ∈ c :: rest.takeWhile isWordChar, isWordChar x = true := by
          intro x hx
          rcases List.mem_cons.1 hx with rfl | hx
          · exact hc
          · exact List.mem_takeWhile_imp hx
        rw [if_pos hc]
        constructor
        · intro tok htok
          rcases List.mem_cons.1 htok with rfl | htok
          · exact ⟨by simp, fun x hx => isWordChar_not_space x (hrun x hx), Or.inl hrun⟩
          · exact ih1 tok htok
        · rw [List.flatten_cons, ih2]
          have hsplit : c :: rest = (c :: rest.takeWhile isWordChar) ++
              rest.dropWhile isWordChar := by
            rw [List.cons_append, List.takeWhile_append_dropWhile]
          conv_rhs => rw [hsplit, List.filter_append]
          congr 1
          symm
          rw [List.filter_eq_self]
          intro x hx
          simp [isWordChar_not_space x (hrun x hx)]
      · rw [if_neg hc]
        obtain ⟨ih1, ih2⟩ := ih _ hrest
        by_cases hsp : isspace c = true
        · rw [if_pos hsp]
          refine ⟨ih1, ?_⟩
          rw [ih2]
          simp [hsp]
        · rw [if_neg hsp]
          have hsp' : isspace c = false := by simpa using hsp
          have hc' : isWordChar c = false := by simpa using hc
          constructor
          · intro tok htok
            rcases List.mem_cons.1 htok with rfl | htok
            · refine ⟨by simp, ?_, Or.inr ⟨c, rfl, hc', hsp'⟩⟩
              intro x hx
              rw [List.mem_singleton.1 hx]
              exact hsp'
            · exact ih1 tok htok
          · rw [List.flatten_cons, ih2]
            simp [hsp']

/-- C24. In `Word` mode the text model tokenizes every ASCII text so that each
maximal run of alphanumeric or apostrophe characters is one token, every other
character that is not whitespace is a token of one character, and whitespace yields
no token.  Hence no token is empty, no token contains whitespace, every token is a
run of word characters or one other character, and the tokens concatenated are the
text with all whitespace removed. -/
theorem tokenize_word (m : MarkovTextModel) (text : List Char)
    (hm : m.level_ = TokenLevel.Word) (_hascii : ∀ c ∈ text, c.toNat < 128) :
    m.Tokenize text = wordTokens text ∧
    (∀ tok ∈ m.Tokenize text, tok ≠ []) ∧
    (∀ tok ∈ m.Tokenize text, ∀ c ∈ tok, isspace c = false) ∧
    (∀ tok ∈ m.Tokenize text, (∀ c ∈ tok, isWordChar c = true) ∨
      ∃ c, tok = [c] ∧ isWordChar c = false ∧ isspace c = false) ∧
    (m.Tokenize text).flatten = text.filter (fun c => !isspace c) := by
  rw [tokenize_word_eq m hm]
  obtain ⟨h1, h2⟩ := wordTokens_props text.length text (le_refl _)
  exact ⟨rfl, fun tok h => (h1 tok h).1, fun tok h => (h1 tok h).2.1,
    fun tok h => (h1 tok h).2.2, h2⟩

/-- Witness of C24 on the text of the test: `Don't worry, it's okay.` gives the
tokens `Don't`, `worry`, `,`, `it's`, `okay`, `.`. -/
theorem tokenize_word_witness :
    ((MarkovTextModel.create TokenLevel.Word).level_ = TokenLevel.Word ∧
      ∀ c ∈ "Don't worry, it's okay.".toList, c.toNat < 128) ∧
    (MarkovTextModel.create TokenLevel.Word).Tokenize "Don't worry, it's okay.".toList =
      ["Don't".toList, "worry".toList, ",".toList, "it's".toList, "okay".toList,
        ".".toList] ∧
    ((MarkovTextModel.create TokenLevel.Word).Tokenize "Don't worry, it's okay.".toList).flatten =
      "Don't worry, it's okay.".toList.filter (fun c => !isspace c) :=
  ⟨⟨rfl, by decide⟩, by decide,
    (tokenize_word (MarkovTextModel.create TokenLevel.Word) "Don't worry, it's okay.".toList
      rfl (by decide)).2.2.2.2⟩

/-! ## The Markov chain: the map, the rows and the known states -/

theorem mapFind_mapAssign (s s' : State) (v : Nat) (m : List (State × Nat)) :
    mapFind s' (mapAssign s v m) = if s' = s then some v else mapFind s' m := by
  induction m with
  | nil =>
    unfold mapAssign mapFind
    by_cases h : s = s'
    · subst h; simp
    · rw [if_neg h, if_neg (fun e => h e.symm)]
      rfl
  | cons e rest ih =>
    obtain ⟨k, w⟩ := e
    unfold mapAssign
    by_cases hk : k = s
    · subst hk
      rw [if_pos rfl]
      unfold mapFind
      by_cases h : k = s'
      · subst h; simp
      · rw [if_neg h, if_neg h, if_neg (fun e => h e.symm)]
    · rw [if_neg hk]
      unfold mapFind
      by_cases h : k = s'
      · subst h
        rw [if_pos rfl, if_pos rfl, if_neg hk]
      · rw [if_neg h, if_neg h, ih]

theorem stateIndex_append_mem (s x : State) (l : List State) (h : s ∈ l) :
    stateIndex s (l ++ [x]) = stateIndex s l := by
  induction l with
  | nil => exact absurd h (List.not_mem_nil _)
  | cons y ys ih =>
    by_cases hy : y = s
    · simp [stateIndex, hy]
    · have : s ∈ ys := by
        rcases List.mem_cons.1 h with e | e
        · exact absurd e.symm hy
        · exact e
      simp [stateIndex, hy, ih this]

theorem stateIndex_append_new (s : State) (l : List State) (h : s ∉ l) :
    stateIndex s (l ++ [s]) = l.length := by
  induction l with
  | nil => simp [stateIndex]
  | cons y ys ih =>
    have hy : y ≠ s := fun e => h (e ▸ List.mem_cons_self _ _)
    have : s ∉ ys := fun e => h (List.mem_cons_of_mem _ e)
    simp [stateIndex, hy, ih this]

theorem getElem?_map_stateIndex {β : Type} (l : List State) (f : State → β) (a : State)
    (ha : a ∈ l) : (l.map f)[stateIndex a l]? = some (f a) := by
  induction l with
  | nil => exact absurd ha (List.not_mem_nil _)
  | cons x xs ih =>
    by_cases hx : x = a
    · subst hx
      simp [stateIndex]
    · have : a ∈ xs := by
        rcases List.mem_cons.1 ha with h | h
        · exact absurd h.symm hx
        · exact h
      simpa [stateIndex, hx] using ih this

theorem set_map_stateIndex {β : Type} (l : List State) (f : State → β) (a : State) (v : β)
    (hnd : l.Nodup) (ha : a ∈ l) :
    (l.map f).set (stateIndex a l) v = l.map (fun x => if x = a then v else f x) := by
  induction l with
  | nil => exact absurd ha (List.not_mem_nil _)
  | cons x xs ih =>
    rw [List.nodup_cons] at hnd
    by_cases hx : x = a
    · subst hx
      simp only [stateIndex, if_true, List.map_cons, List.set_cons_zero, List.cons.injEq,
        true_and]
      apply List.map_congr_left
      intro y hy
      have : y ≠ x := fun e => hnd.1 (e ▸ hy)
      rw [if_neg this]
    · have : a ∈ xs := by
        rcases List.mem_cons.1 ha with h | h
        · exact absurd h.symm hx
        · exact h
      simp only [stateIndex, if_neg hx, List.map_cons, List.set_cons_succ]
      rw [ih hnd.2 this]

theorem resizeRow_grow (row : List Nat) : resizeRow (row.length + 1) row = row ++ [0] := by
  unfold resizeRow
  rw [show row.length + 1 - row.length = 1 by omega]
  have : (row ++ List.replicate 1 0).length = row.length + 1 := by simp
  rw [← this, List.take_length]
  rfl

theorem resizeRow_same (row : List Nat) : resizeRow row.length row = row := by
  unfold resizeRow
  simp

theorem mem_knownAfter (states seq : List State) (x : State) :
    x ∈ knownAfter states seq ↔ x ∈ states ∨ x ∈ seq := by
  induction seq generalizing states with
  | nil => simp [knownAfter]
  | cons s rest ih =>
    unfold knownAfter
    rw [ih]
    by_cases hs : s ∈ states
    · rw [if_pos hs]
      simp only [List.mem_cons]
      constructor
      · rintro (h | h)
        · exact Or.inl h
        · exact Or.inr (Or.inr h)
      · rintro (h | h | h)
        · exact Or.inl h
        · exact Or.inl (h ▸ hs)
        · exact Or.inr h
    · rw [if_neg hs]
      simp only [List.mem_append, List.mem_singleton, List.mem_cons]
      tauto

theorem knownAfter_extends (states seq : List State) : states <+: knownAfter states seq := by
  induction seq generalizing states with
  | nil => exact List.prefix_refl _
  | cons s rest ih =>
    unfold knownAfter
    by_cases hs : s ∈ states
    · rw [if_pos hs]; exact ih states
    · rw [if_neg hs]
      exact (List.prefix_append states [s]).trans (ih _)

theorem knownAfter_append (states a b : List State) :
    knownAfter states (a ++ b) = knownAfter (knownAfter states a) b := by
  induction a generalizing states with
  | nil => rfl
  | cons s rest ih =>
    simp only [List.cons_append, knownAfter]
    exact ih _

theorem knownAfter_head (seq : List State) : (knownAfter [] seq).head? = seq.head? := by
  cases seq with
  | nil => rfl
  | cons s rest =>
    unfold knownAfter
    simp only [List.not_mem_nil, if_false, List.nil_append, List.head?_cons]
    obtain ⟨t, ht⟩ := knownAfter_extends [s] rest
    rw [← ht]
    rfl

theorem represents_congr (mc : MarkovChain) (C C' : State → State → Nat)
    (R R' : State → Nat) (hC : ∀ a b, C a b = C' a b) (hR : ∀ a, R a = R' a)
    (h : Represents mc C R) : Represents mc C' R' := by
  have e1 : C = C' := funext (fun a => funext (hC a))
  have e2 : R = R' := funext hR
  rw [← e1, ← e2]
  exact h

theorem represents_fresh : Represents MarkovChain.fresh (fun _ _ => 0) (fun _ => 0) := by
  refine ⟨List.nodup_nil, ?_, rfl, rfl, fun _ _ _ => rfl, fun _ _ => rfl, fun _ => rfl⟩
  intro s
  simp [MarkovChain.fresh, mapFind]

/-- The effect of `ensureState`: a known state is found, with its index, and the
chain is left as it is; a new one is appended, with zero counts. -/
theorem ensureState_spec (mc : MarkovChain) (C : State → State → Nat) (R : State → Nat)
    (h : Represents mc C R) (s : State) :
    Represents (mc.ensureState s).1 C R ∧
    (mc.ensureState s).1.index_to_state_ =
      (if s ∈ mc.index_to_state_ then mc.index_to_state_ else mc.index_to_state_ ++ [s]) ∧
    (s ∈ mc.index_to_state_ → mc.ensureState s = (mc, stateIndex s mc.index_to_state_)) := by
  obtain ⟨hnd, hmap, hcounts, hrows, hC0, hR0, hsum⟩ := h
  by_cases hs : s ∈ mc.index_to_state_
  · have hf := hmap s
    rw [if_pos hs] at hf
    have e : mc.ensureState s = (mc, stateIndex s mc.index_to_state_) := by
      unfold MarkovChain.ensureState
      rw [hf]
    rw [e, if_pos hs]
    exact ⟨⟨hnd, hmap, hcounts, hrows, hC0, hR0, hsum⟩, rfl, fun _ => rfl⟩
  · have hf := hmap s
    rw [if_neg hs] at hf
    have e : mc.ensureState s =
        (⟨mapAssign s mc.index_to_state_.length mc.state_to_index_, mc.index_to_state_ ++ [s],
          (mc.counts_ ++ [List.replicate (mc.index_to_state_ ++ [s]).length 0]).map
            (resizeRow (mc.index_to_state_ ++ [s]).length), mc.row_sums_ ++ [0]⟩,
          mc.index_to_state_.length) := by
      unfold MarkovChain.ensureState
      rw [hf]
    rw [e, if_neg hs]
    refine ⟨⟨?_, ?_, ?_, ?_, ?_, ?_, ?_⟩, rfl, fun h => absurd h hs⟩
    · show (mc.index_to_state_ ++ [s]).Nodup
      rw [List.nodup_append]
      refine ⟨hnd, List.nodup_singleton s, ?_⟩
      intro x hx hx'
      rw [List.mem_singleton] at hx'
      subst hx'
      exact hs hx
    · intro s'
      show mapFind s' (mapAssign s mc.index_to_state_.length mc.state_to_index_) =
        if s' ∈ mc.index_to_state_ ++ [s] then some (stateIndex s' (mc.index_to_state_ ++ [s]))
        else none
      rw [mapFind_mapAssign]
      by_cases he : s' = s
      · subst he
        rw [if_pos rfl, if_pos (by simp), stateIndex_append_new _ _ hs]
      · rw [if_neg he, hmap s']
        by_cases hin : s' ∈ mc.index_to_state_
        · rw [if_pos hin, if_pos (by simp [hin]), stateIndex_append_mem _ _ _ hin]
        · rw [if_neg hin, if_neg (by simp [hin, he])]
    · show List.map (resizeRow (mc.index_to_state_ ++ [s]).length)
          (mc.counts_ ++ [List.replicate (mc.index_to_state_ ++ [s]).length 0]) =
        (mc.index_to_state_ ++ [s]).map (fun a => (mc.index_to_state_ ++ [s]).map (C a))
      rw [List.map_append, List.map_append, hcounts, List.map_map]
      congr 1
      · apply List.map_congr_left
        intro a _
        have hl : (mc.index_to_state_ ++ [s]).length =
            (mc.index_to_state_.map (C a)).length + 1 := by simp
        show resizeRow _ (mc.index_to_state_.map (C a)) = _
        rw [hl, resizeRow_grow, List.map_append]
        simp [hC0 a s (Or.inr hs)]
      · have hrow : (mc.index_to_state_ ++ [s]).map (C s) =
            List.replicate (mc.index_to_state_ ++ [s]).length 0 := by
          rw [List.eq_replicate_iff]
          refine ⟨by simp, ?_⟩
          intro v hv
          rw [List.mem_map] at hv
          obtain ⟨y, _, rfl⟩ := hv
          exact hC0 s y (Or.inl hs)
        simp only [List.map_cons, List.map_nil, List.cons.injEq, and_true]
        rw [hrow]
        have := resizeRow_same (List.replicate (mc.index_to_state_ ++ [s]).length 0)
        simpa using this
    · show mc.row_sums_ ++ [0] = (mc.index_to_state_ ++ [s]).map R
      rw [hrows, List.map_append]
      simp [hR0 s hs]
    · intro a b hab
      apply hC0
      rcases hab with h | h
      · exact Or.inl (fun hin => h (List.mem_append_left _ hin))
      · exact Or.inr (fun hin => h (List.mem_append_left _ hin))
    · intro a ha
      exact hR0 a (fun hin => ha (List.mem_append_left _ hin))
    · intro a
      show R a = ((mc.index_to_state_ ++ [s]).map (C a)).sum
      rw [hsum a, List.map_append, List.sum_append]
      simp [hC0 a s (Or.inr hs)]

/-! ## The Markov chain: training -/

theorem stateIndex_lt (s : State) (l : List State) (h : s ∈ l) : stateIndex s l < l.length := by
  induction l with
  | nil => exact absurd h (List.not_mem_nil _)
  | cons x xs ih =>
    by_cases hx : x = s
    · simp [stateIndex, hx]
    · have : s ∈ xs := by
        rcases List.mem_cons.1 h with e | e
        · exact absurd e.symm hx
        · exact e
      simp [stateIndex, hx, ih this]

theorem sum_map_bump (l : List State) (f : State → Nat) (b : State) (hnd : l.Nodup)
    (hb : b ∈ l) :
    (l.map (fun y => f y + if y = b then 1 else 0)).sum = (l.map f).sum + 1 := by
  induction l with
  | nil => exact absurd hb (List.not_mem_nil _)
  | cons x xs ih =>
    rw [List.nodup_cons] at hnd
    simp only [List.map_cons, List.sum_cons]
    by_cases hx : x = b
    · subst hx
      have : xs.map (fun y => f y + if y = x then 1 else 0) = xs.map f := by
        apply List.map_congr_left
        intro y hy
        have : y ≠ x := fun e => hnd.1 (e ▸ hy)
        simp [this]
      rw [this]
      simp
      omega
    · have : b ∈ xs := by
        rcases List.mem_cons.1 hb with e | e
        · exact absurd e.symm hx
        · exact e
      rw [ih hnd.2 this]
      simp [hx]
      omega

/-- The effect of `counts_[from_idx][to_idx]++; row_sums_[from_idx]++;` at the
indices of two known states: both reads are in range and the count of the pair and
the row sum of its first state grow by one. -/
theorem countTransition_spec (mc : MarkovChain) (C : State → State → Nat) (R : State → Nat)
    (h : Represents mc C R) (a b : State) (ha : a ∈ mc.index_to_state_)
    (hb : b ∈ mc.index_to_state_) :
    ∃ mc', mc.countTransition (stateIndex a mc.index_to_state_)
        (stateIndex b mc.index_to_state_) = some mc' ∧
      mc'.index_to_state_ = mc.index_to_state_ ∧
      Represents mc' (fun x y => C x y + if x = a ∧ y = b then 1 else 0)
        (fun x => R x + if x = a then 1 else 0) := by
  obtain ⟨hnd, hmap, hcounts, hrows, hC0, hR0, hsum⟩ := h
  have hrow : mc.counts_[stateIndex a mc.index_to_state_]? =
      some (mc.index_to_state_.map (C a)) := by
    rw [hcounts]
    exact getElem?_map_stateIndex _ _ a ha
  have hcell : (mc.index_to_state_.map (C a))[stateIndex b mc.index_to_state_]? =
      some (C a b) := getElem?_map_stateIndex _ _ b hb
  have hsumr : mc.row_sums_[stateIndex a mc.index_to_state_]? = some (R a) := by
    rw [hrows]
    exact getElem?_map_stateIndex _ _ a ha
  refine ⟨⟨mc.state_to_index_, mc.index_to_state_,
    mc.counts_.set (stateIndex a mc.index_to_state_)
      ((mc.index_to_state_.map (C a)).set (stateIndex b mc.index_to_state_) (C a b + 1)),
    mc.row_sums_.set (stateIndex a mc.index_to_state_) (R a + 1)⟩, ?_, rfl, ?_⟩
  · unfold MarkovChain.countTransition
    rw [hrow]
    simp only [hcell, hsumr]
  · refine ⟨hnd, hmap, ?_, ?_, ?_, ?_, ?_⟩
    · show mc.counts_.set _ _ = _
      rw [set_map_stateIndex _ _ b _ hnd hb, hcounts, set_map_stateIndex _ _ a _ hnd ha]
      apply List.map_congr_left
      intro x _
      by_cases hx : x = a
      · subst hx
        rw [if_pos rfl]
        apply List.map_congr_left
        intro y _
        by_cases hy : y = b
        · subst hy; simp
        · simp [hy]
      · rw [if_neg hx]
        apply List.map_congr_left
        intro y _
        simp [hx]
    · show mc.row_sums_.set _ _ = _
      rw [hrows, set_map_stateIndex _ _ a _ hnd ha]
      apply List.map_congr_left
      intro x _
      by_cases hx : x = a
      · subst hx; simp
      · simp [hx]
    · intro x y hxy
      have h0 := hC0 x y hxy
      have hne : ¬ (x = a ∧ y = b) := by
        rintro ⟨rfl, rfl⟩
        rcases hxy with h | h
        · exact h ha
        · exact h hb
      show C x y + (if x = a ∧ y = b then 1 else 0) = 0
      rw [h0, if_neg hne]
    · intro x hx
      have hne : x ≠ a := fun e => hx (e ▸ ha)
      show R x + (if x = a then 1 else 0) = 0
      rw [hR0 x hx, if_neg hne]
    · intro x
      show R x + (if x = a then 1 else 0) =
        (mc.index_to_state_.map (fun y => C x y + if x = a ∧ y = b then 1 else 0)).sum
      by_cases hx : x = a
      · subst hx
        have : (fun y => C x y + if x = x ∧ y = b then 1 else 0) =
            (fun y => C x y + if y = b then 1 else 0) := by
          funext y; simp
        rw [this, sum_map_bump _ _ b hnd hb, hsum x]
        simp
      · have : (fun y => C x y + if x = a ∧ y = b then 1 else 0) = C x := by
          funext y; simp [hx]
        rw [this, hsum x]
        simp [hx]

theorem trainStates_spec (seq : List State) (mc : MarkovChain) (C : State → State → Nat)
    (R : State → Nat) (h : Represents mc C R) :
    Represents (MarkovChain.trainStates seq mc) C R ∧
    (MarkovChain.trainStates seq mc).index_to_state_ = knownAfter mc.index_to_state_ seq := by
  induction seq generalizing mc with
  | nil => exact ⟨h, rfl⟩
  | cons s rest ih =>
    obtain ⟨h1, h2, _⟩ := ensureState_spec mc C R h s
    obtain ⟨h3, h4⟩ := ih _ h1
    unfold MarkovChain.trainStates knownAfter
    rw [← h2]
    exact ⟨h3, h4⟩

theorem trainPairs_spec (seq : List State) (mc : MarkovChain) (C : State → State → Nat)
    (R : State → Nat) (h : Represents mc C R) (hseq : ∀ s ∈ seq, s ∈ mc.index_to_state_) :
    ∃ mc', MarkovChain.trainPairs seq mc = some mc' ∧
      mc'.index_to_state_ = mc.index_to_state_ ∧
      Represents mc' (fun a b => C a b + pairCount a b seq) (fun a => R a + outCount a seq) := by
  induction seq generalizing mc C R with
  | nil =>
    exact ⟨mc, rfl, rfl, represents_congr mc _ _ _ _ (fun _ _ => rfl) (fun _ => rfl) h⟩
  | cons x rest ih =>
    cases rest with
    | nil =>
      exact ⟨mc, rfl, rfl, represents_congr mc _ _ _ _ (fun _ _ => rfl) (fun _ => rfl) h⟩
    | cons y rest =>
      have hx : x ∈ mc.index_to_state_ := hseq x (List.mem_cons_self _ _)
      have hy : y ∈ mc.index_to_state_ :=
        hseq y (List.mem_cons_of_mem _ (List.mem_cons_self _ _))
      have ex := (ensureState_spec mc C R h x).2.2 hx
      have ey := (ensureState_spec mc C R h y).2.2 hy
      obtain ⟨mc3, h3, hst3, hrep3⟩ := countTransition_spec mc C R h x y hx hy
      obtain ⟨mc', h', hst', hrep'⟩ := ih mc3 _ _ hrep3
        (fun s hs => by rw [hst3]; exact hseq s (List.mem_cons_of_mem _ hs))
      refine ⟨mc', ?_, by rw [hst', hst3], ?_⟩
      · unfold MarkovChain.trainPairs
        simp only [ex, ey, h3]
        exact h'
      · refine represents_congr mc' _ _ _ _ ?_ ?_ hrep'
        · intro a b
          have e : (if a = x ∧ b = y then 1 else 0) = (if x = a ∧ y = b then 1 else 0) :=
            if_congr ⟨fun h => ⟨h.1.symm, h.2.symm⟩, fun h => ⟨h.1.symm, h.2.symm⟩⟩ rfl rfl
          simp only [pairCount, e]
          omega
        · intro a
          have e : (if a = x then 1 else 0) = (if x = a then 1 else 0) :=
            if_congr ⟨fun h => h.symm, fun h => h.symm⟩ rfl rfl
          simp only [outCount, e]
          omega

/-- What `Train` does: every index it uses is in range, the states seen for the
first time are appended in their order, and every count grows by the number of
times its transition occurs in the sequence. -/
theorem train_spec (mc : MarkovChain) (C : State → State → Nat) (R : State → Nat)
    (h : Represents mc C R) (seq : List State) :
    ∃ mc', mc.Train seq = some mc' ∧
      mc'.index_to_state_ = knownAfter mc.index_to_state_ seq ∧
      Represents mc' (fun a b => C a b + pairCount a b seq) (fun a => R a + outCount a seq) := by
  obtain ⟨h1, h2⟩ := trainStates_spec seq mc C R h
  obtain ⟨mc', h3, h4, h5⟩ := trainPairs_spec seq _ C R h1
    (fun s hs => by rw [h2]; exact (mem_knownAfter _ _ _).2 (Or.inr hs))
  exact ⟨mc', h3, by rw [h4, h2], h5⟩

theorem trainSequences_spec (seqs : List (List State)) (mc : MarkovChain)
    (C : State → State → Nat) (R : State → Nat) (h : Represents mc C R) :
    ∃ mc', trainSequences mc seqs = some mc' ∧
      mc'.index_to_state_ = knownAfter mc.index_to_state_ seqs.flatten ∧
      Represents mc' (fun a b => C a b + transitions a b seqs)
        (fun a => R a + outgoing a seqs) := by
  induction seqs generalizing mc C R with
  | nil =>
    refine ⟨mc, rfl, rfl, represents_congr mc _ _ _ _ ?_ ?_ h⟩
    · intro a b; simp [transitions]
    · intro a; simp [outgoing]
  | cons seq rest ih =>
    obtain ⟨mc1, h1, h2, h3⟩ := train_spec mc C R h seq
    obtain ⟨mc', h4, h5, h6⟩ := ih mc1 _ _ h3
    refine ⟨mc', ?_, ?_, represents_congr mc' _ _ _ _ ?_ ?_ h6⟩
    · unfold trainSequences at h4 ⊢
      rw [List.foldlM_cons]
      simp only [h1, Option.bind_eq_bind, Option.some_bind]
      exact h4
    · rw [h5, h2, List.flatten_cons, knownAfter_append]
    · intro a b
      simp only [transitions, List.map_cons, List.sum_cons]
      omega
    · intro a
      simp only [outgoing, List.map_cons, List.sum_cons]
      omega

/-- A chain trained from a fresh one stores the counts of the trained sequences. -/
theorem trained_represents (seqs : List (List State)) :
    ∃ mc, trainSequences MarkovChain.fresh seqs = some mc ∧
      mc.index_to_state_ = knownAfter [] seqs.flatten ∧
      Represents mc (fun a b => transitions a b seqs) (fun a => outgoing a seqs) := by
  obtain ⟨mc, h1, h2, h3⟩ := trainSequences_spec seqs _ _ _ represents_fresh
  refine ⟨mc, h1, h2, represents_congr mc _ _ _ _ ?_ ?_ h3⟩
  · intro a b; simp
  · intro a; simp

/-- The value of `TransitionProbability` on a chain that stores `C` and `R`. -/
theorem transitionProbability_spec (mc : MarkovChain) (C : State → State → Nat)
    (R : State → Nat) (h : Represents mc C R) (a b : State) :
    mc.TransitionProbability a b =
      some (if a ∈ mc.index_to_state_ ∧ b ∈ mc.index_to_state_ ∧ R a ≠ 0
        then (C a b : ℚ) / (R a : ℚ) else 0) := by
  obtain ⟨hnd, hmap, hcounts, hrows, hC0, hR0, hsum⟩ := h
  unfold MarkovChain.TransitionProbability
  by_cases ha : a ∈ mc.index_to_state_
  · by_cases hb : b ∈ mc.index_to_state_
    · have hfa := hmap a
      have hfb := hmap b
      rw [if_pos ha] at hfa
      rw [if_pos hb] at hfb
      have hsumr : mc.row_sums_[stateIndex a mc.index_to_state_]? = some (R a) := by
        rw [hrows]; exact getElem?_map_stateIndex _ _ a ha
      have hrow : mc.counts_[stateIndex a mc.index_to_state_]? =
          some (mc.index_to_state_.map (C a)) := by
        rw [hcounts]; exact getElem?_map_stateIndex _ _ a ha
      have hcell : (mc.index_to_state_.map (C a))[stateIndex b mc.index_to_state_]? =
          some (C a b) := getElem?_map_stateIndex _ _ b hb
      simp only [hfa, hfb, hsumr]
      by_cases hr : R a = 0
      · simp [hr]
      · simp only [hr, if_false, hrow, hcell]
        rw [if_pos ⟨ha, hb, hr⟩]
    · have hfb := hmap b
      rw [if_neg hb] at hfb
      rw [hfb, if_neg (fun h => hb h.2.1)]
      cases mapFind a mc.state_to_index_ <;> rfl
  · have hfa := hmap a
    rw [if_neg ha] at hfa
    rw [hfa, if_neg (fun h => ha h.1)]

/-! ## The Markov chain: transition probabilities and sampling -/

/-- C23. After training a fresh `MarkovChain` on any sequences (one `Train` call
each, all of which complete), the known states are the elements seen, and
`TransitionProbability(a, b)` is `N(a, b) / N(a)`, where `N(a, b)` is the total
number of positions at which `a` is immediately followed by `b` within the same
sequence and `N(a)` is the sum of `N(a, x)` over all `x`; it is 0 when `a` or `b`
was never seen or `a` has no outgoing transition.  The counts are those of all the
`Train` calls together. -/
theorem transition_probability_counts (seqs : List (List State)) (a b : State) :
    ∃ mc, trainSequences MarkovChain.fresh seqs = some mc ∧
      (∀ x, x ∈ mc.States ↔ ∃ s ∈ seqs, x ∈ s) ∧
      (outgoing a seqs ≠ 0 →
        mc.TransitionProbability a b =
          some ((transitions a b seqs : ℚ) / (outgoing a seqs : ℚ))) ∧
      (a ∉ mc.States ∨ b ∉ mc.States ∨ outgoing a seqs = 0 →
        mc.TransitionProbability a b = some 0) ∧
      outgoing a seqs = (mc.States.map (fun x => transitions a x seqs)).sum ∧
      (∀ x, x ∉ mc.States → transitions a x seqs = 0) := by
  obtain ⟨mc, h1, h2, h3⟩ := trained_represents seqs
  have htp := transitionProbability_spec mc _ _ h3 a b
  obtain ⟨_, _, _, _, hC0, hR0, hsum⟩ := h3
  refine ⟨mc, h1, ?_, ?_, ?_, hsum a, fun x hx => hC0 a x (Or.inr hx)⟩
  · intro x
    show x ∈ mc.index_to_state_ ↔ _
    rw [h2, mem_knownAfter, List.mem_flatten]
    simp only [List.not_mem_nil, false_or]
  · intro hne
    rw [htp]
    by_cases hab : a ∈ mc.index_to_state_ ∧ b ∈ mc.index_to_state_ ∧ outgoing a seqs ≠ 0
    · rw [if_pos hab]
    · rw [if_neg hab]
      have : transitions a b seqs = 0 := by
        apply hC0
        by_contra hcon
        rw [not_or, not_not, not_not] at hcon
        exact hab ⟨hcon.1, hcon.2, hne⟩
      rw [this]
      simp
  · intro hz
    rw [htp, if_neg]
    rintro ⟨ha, hb, hne⟩
    rcases hz with h | h | h
    · exact h ha
    · exact h hb
    · exact hne h

/-- The example of C23: after `Train([A, B])` and `Train([A, C])`,
`P(A, B) = P(A, C) = 1/2`. -/
theorem transition_probability_counts_witness :
    ∃ mc, trainSequences MarkovChain.fresh
        [["A".toList, "B".toList], ["A".toList, "C".toList]] = some mc ∧
      mc.TransitionProbability "A".toList "B".toList = some (1 / 2) ∧
      mc.TransitionProbability "A".toList "C".toList = some (1 / 2) := by
  obtain ⟨mc, h1, _, h3, _⟩ := transition_probability_counts
    [["A".toList, "B".toList], ["A".toList, "C".toList]] "A".toList "B".toList
  obtain ⟨mc', h1', _, h3', _⟩ := transition_probability_counts
    [["A".toList, "B".toList], ["A".toList, "C".toList]] "A".toList "C".toList
  rw [h1] at h1'
  have hmc : mc = mc' := Option.some.inj h1'
  subst hmc
  have ho : outgoing "A".toList [["A".toList, "B".toList], ["A".toList, "C".toList]] = 2 := by
    decide
  have hb : transitions "A".toList "B".toList
      [["A".toList, "B".toList], ["A".toList, "C".toList]] = 1 := by decide
  have hc : transitions "A".toList "C".toList
      [["A".toList, "B".toList], ["A".toList, "C".toList]] = 1 := by decide
  refine ⟨mc, h1, ?_, ?_⟩
  · rw [h3 (by rw [ho]; norm_num), ho, hb]
    norm_num
  · rw [h3' (by rw [ho]; norm_num), ho, hc]
    norm_num

theorem mapM_range_take (l : List Nat) (f : Nat → ℚ) (k : Nat) (hk : k ≤ l.length) :
    (List.range k).mapM (fun j => Option.map f l[j]?) = some ((l.take k).map f) := by
  induction k with
  | zero => rfl
  | succ k ih =>
    have hlt : k < l.length := by omega
    rw [List.range_succ, List.mapM_append, ih (by omega)]
    simp only [List.mapM_cons, List.mapM_nil, List.getElem?_eq_getElem hlt, Option.map_some',
      Option.pure_def, Option.bind_eq_bind, Option.some_bind]
    rw [List.take_succ, List.map_append, List.getElem?_eq_getElem hlt]
    rfl

/-- The weights `SampleNext` builds for a known state: its row of counts. -/
theorem sampleWeights_spec (mc : MarkovChain) (C : State → State → Nat) (R : State → Nat)
    (h : Represents mc C R) (a : State) (ha : a ∈ mc.index_to_state_) :
    mc.sampleWeights (stateIndex a mc.index_to_state_) =
      some (mc.index_to_state_.map (fun y => (C a y : ℚ))) := by
  obtain ⟨_, _, hcounts, _⟩ := h
  have hrow : mc.counts_[stateIndex a mc.index_to_state_]? =
      some (mc.index_to_state_.map (C a)) := by
    rw [hcounts]; exact getElem?_map_stateIndex _ _ a ha
  unfold MarkovChain.sampleWeights
  rw [hrow]
  simp only
  have := mapM_range_take (mc.index_to_state_.map (C a)) (fun c => (c : ℚ))
    mc.index_to_state_.length (by simp)
  rw [this]
  have hl : mc.index_to_state_.length = (mc.index_to_state_.map (C a)).length := by simp
  rw [hl, List.take_length, List.map_map]
  rfl

/-- The result of `SampleNext` on a chain that stores `C` and `R`, with a sound
sampler: `std::nullopt` for an unknown state and for one without outgoing
transition, and otherwise a known state the count to which is positive. -/
theorem sampleNext_spec {Rng : Type} (mc : MarkovChain) (C : State → State → Nat)
    (R : State → Nat) (h : Represents mc C R) (draw : Rng → List ℚ → Nat × Rng)
    (hdraw : SoundDraw draw) (a : State) (rng : Rng) :
    (a ∉ mc.index_to_state_ ∨ R a = 0 → mc.SampleNext draw a rng = some (none, rng)) ∧
    (a ∈ mc.index_to_state_ → R a ≠ 0 →
      ∃ next rng', mc.SampleNext draw a rng = some (some next, rng') ∧
        next ∈ mc.index_to_state_ ∧ 0 < C a next) := by
  have hw := fun ha => sampleWeights_spec mc C R h a ha
  obtain ⟨hnd, hmap, hcounts, hrows, hC0, hR0, hsum⟩ := h
  by_cases ha : a ∈ mc.index_to_state_
  · have hfa := hmap a
    rw [if_pos ha] at hfa
    have hsumr : mc.row_sums_[stateIndex a mc.index_to_state_]? = some (R a) := by
      rw [hrows]; exact getElem?_map_stateIndex _ _ a ha
    constructor
    · rintro (h | h)
      · exact absurd ha h
      · unfold MarkovChain.SampleNext
        simp only [hfa, hsumr, h, if_true]
    · intro _ hr
      have hpos : ∃ x ∈ mc.index_to_state_.map (fun y => (C a y : ℚ)), 0 < x := by
        by_contra hcon
        apply hr
        rw [hsum a]
        apply List.sum_eq_zero
        intro v hv
        rw [List.mem_map] at hv
        obtain ⟨y, hy, rfl⟩ := hv
        by_contra hne
        apply hcon
        exact ⟨(C a y : ℚ), List.mem_map.2 ⟨y, hy, rfl⟩, by
          exact_mod_cast Nat.pos_of_ne_zero hne⟩
      obtain ⟨hlt, hwpos⟩ := hdraw rng _ hpos
      rw [List.length_map] at hlt
      rw [List.getD_eq_getElem _ _ (by simpa using hlt), List.getElem_map] at hwpos
      refine ⟨mc.index_to_state_[(draw rng
          (mc.index_to_state_.map (fun y => (C a y : ℚ)))).1],
        (draw rng (mc.index_to_state_.map (fun y => (C a y : ℚ)))).2, ?_,
        List.getElem_mem _, by exact_mod_cast hwpos⟩
      unfold MarkovChain.SampleNext
      simp only [hfa, hsumr, hr, if_false, hw ha, List.getElem?_eq_getElem hlt]
  · have hfa := hmap a
    rw [if_neg ha] at hfa
    constructor
    · intro _
      unfold MarkovChain.SampleNext
      simp only [hfa]
    · intro h
      exact absurd h ha

/-- The loop of `Generate` on a chain that stores `C` and `R`, with a sound sampler:
it completes, it only appends to the result, at most `steps` elements, each a state
the count to which from its predecessor is positive, and it stops early only at an
unknown state or one without outgoing transition. -/
theorem generateSteps_spec {Rng : Type} (mc : MarkovChain) (C : State → State → Nat)
    (R : State → Nat) (h : Represents mc C R) (draw : Rng → List ℚ → Nat × Rng)
    (hdraw : SoundDraw draw) (steps : Nat) (back : State) (rng : Rng) (pre : List State)
    (hchain : List.Chain' (fun x y => 0 < C x y) (pre ++ [back])) :
    ∃ res rng', mc.generateSteps draw steps back rng (pre ++ [back]) = some (res, rng') ∧
      (pre ++ [back]) <+: res ∧ res.length ≤ pre.length + 1 + steps ∧
      List.Chain' (fun x y => 0 < C x y) res ∧
      (res.length < pre.length + 1 + steps →
        ∃ z, res.getLast? = some z ∧ (z ∉ mc.index_to_state_ ∨ R z = 0)) := by
  induction steps generalizing back rng pre with
  | zero =>
    refine ⟨pre ++ [back], rng, rfl, List.prefix_refl _, by simp, hchain, ?_⟩
    intro hlt
    simp at hlt
  | succ n ih =>
    obtain ⟨hdead, hlive⟩ := sampleNext_spec mc C R h draw hdraw back rng
    by_cases hb : back ∈ mc.index_to_state_ ∧ R back ≠ 0
    · obtain ⟨next, rng1, hs, _, hpos⟩ := hlive hb.1 hb.2
      have hchain' : List.Chain' (fun x y => 0 < C x y) ((pre ++ [back]) ++ [next]) := by
        rw [List.chain'_append]
        refine ⟨hchain, List.chain'_singleton _, ?_⟩
        intro x hx y hy
        simp only [List.getLast?_append, List.getLast?_singleton, Option.mem_def] at hx
        simp only [List.head?_cons, Option.mem_def, Option.some.injEq] at hy
        have hx' : x = back := by
          simpa using hx.symm
        subst hx' hy
        exact hpos
      obtain ⟨res, rng', hr, hpre, hlen, hch, hshort⟩ := ih next rng1 (pre ++ [back]) hchain'
      refine ⟨res, rng', ?_, (List.prefix_append _ _).trans hpre, ?_, hch, ?_⟩
      · unfold MarkovChain.generateSteps
        simp only [hs]
        exact hr
      · simp only [List.length_append, List.length_singleton] at hlen ⊢
        omega
      · intro hlt
        apply hshort
        simp only [List.length_append, List.length_singleton] at hlt ⊢
        omega
    · have hd : back ∉ mc.index_to_state_ ∨ R back = 0 := by
        by_contra hcon
        rw [not_or, not_not] at hcon
        exact hb ⟨hcon.1, hcon.2⟩
      refine ⟨pre ++ [back], rng, ?_, List.prefix_refl _, by simp, hchain, ?_⟩
      · unfold MarkovChain.generateSteps
        simp only [hdead hd]
      · intro _
        exact ⟨back, by simp, hd⟩

/-! ## Generation -/

/-- C25. On a chain trained from a fresh one, with a sampler that only returns
indices of positive weight, `Generate(start, length, rng)` completes.  It returns
the empty sequence when `length` is 0; otherwise a sequence that begins with
`start`, has at most `length` elements, in which every element after the first is
a trained successor of its predecessor (the count of that transition is positive),
and which is shorter than `length` only when its last element is unknown or has no
outgoing transition. -/
theorem generate_walk {Rng : Type} (seqs : List (List State)) (mc : MarkovChain)
    (htrain : trainSequences MarkovChain.fresh seqs = some mc)
    (draw : Rng → List ℚ → Nat × Rng) (hdraw : SoundDraw draw)
    (start : State) (length : Nat) (rng : Rng) :
    ∃ res rng', mc.Generate draw start length rng = some (res, rng') ∧
      (length = 0 → res = []) ∧
      (1 ≤ length → res.head? = some start) ∧
      res.length ≤ length ∧
      List.Chain' (fun x y => 0 < transitions x y seqs) res ∧
      (res.length < length →
        ∃ z, res.getLast? = some z ∧ (z ∉ mc.States ∨ outgoing z seqs = 0)) := by
  obtain ⟨mc', h1, _, hrep⟩ := trained_represents seqs
  rw [htrain] at h1
  have hmc : mc = mc' := Option.some.inj h1
  subst hmc
  unfold MarkovChain.Generate
  by_cases hl : length = 0
  · subst hl
    refine ⟨[], rng, by simp, fun _ => rfl, fun h => by omega, by simp, List.chain'_nil, ?_⟩
    intro h
    simp at h
  · obtain ⟨res, rng', hr, hpre, hlen, hch, hshort⟩ := generateSteps_spec mc _ _ hrep draw hdraw
      (length - 1) start rng [] (List.chain'_singleton _)
    rw [if_neg hl]
    simp only [List.nil_append, List.length_nil] at hr hpre hlen hshort
    refine ⟨res, rng', hr, fun h => absurd h hl, ?_, by omega, hch, ?_⟩
    · intro _
      obtain ⟨t, ht⟩ := hpre
      rw [← ht]
      rfl
    · intro hlt
      exact hshort (by omega)

theorem firstPositive_sound : SoundDraw firstPositive := by
  intro rng w hw
  obtain ⟨x, hx, hpos⟩ := hw
  have hex : ∃ y ∈ w, (fun v => decide (0 < v)) y = true := ⟨x, hx, by simpa using hpos⟩
  have hlt : w.findIdx (fun v => decide (0 < v)) < w.length := List.findIdx_lt_length_of_exists hex
  refine ⟨hlt, ?_⟩
  show 0 < w.getD (w.findIdx (fun v => decide (0 < v))) 0
  rw [List.getD_eq_getElem _ _ hlt]
  have := List.findIdx_getElem (w := hlt)
  simpa using this

/-- Witness of C25, and its example: a chain trained on `start end`, asked for 5
elements from `start` with the sampler of the first positive weight, yields
`start end`. -/
theorem generate_walk_witness :
    (trainSequences MarkovChain.fresh [["start".toList, "end".toList]] =
        some ⟨[("start".toList, 0), ("end".toList, 1)], ["start".toList, "end".toList],
          [[0, 1], [0, 0]], [1, 0]⟩ ∧
      SoundDraw firstPositive) ∧
    (∃ res rng', (MarkovChain.mk [("start".toList, 0), ("end".toList, 1)]
          ["start".toList, "end".toList] [[0, 1], [0, 0]] [1, 0]).Generate firstPositive
          "start".toList 5 0 = some (res, rng') ∧
        (5 = 0 → res = []) ∧
        (1 ≤ 5 → res.head? = some "start".toList) ∧
        res.length ≤ 5 ∧
        List.Chain' (fun x y =>
          0 < transitions x y [["start".toList, "end".toList]]) res ∧
        (res.length < 5 →
          ∃ z, res.getLast? = some z ∧
            (z ∉ (MarkovChain.mk [("start".toList, 0), ("end".toList, 1)]
                ["start".toList, "end".toList] [[0, 1], [0, 0]] [1, 0]).States ∨
              outgoing z [["start".toList, "end".toList]] = 0))) ∧
    (MarkovChain.mk [("start".toList, 0), ("end".toList, 1)]
      ["start".toList, "end".toList] [[0, 1], [0, 0]] [1, 0]).Generate firstPositive
      "start".toList 5 0 = some (["start".toList, "end".toList], 0) :=
  ⟨⟨by decide, firstPositive_sound⟩,
    generate_walk [["start".toList, "end".toList]] _ (by decide) firstPositive
      firstPositive_sound "start".toList 5 0,
    by decide⟩

/-! ## The text model -/

theorem tokenize_level (m m' : MarkovTextModel) (h : m.level_ = m'.level_) (text : List Char) :
    m.Tokenize text = m'.Tokenize text := by
  unfold Tokenize
  rw [h]

/-- Training a text model is training its chain on the tokens of the texts; the
level stays. -/
theorem trainTexts_spec (texts : List (List Char)) (m0 m : MarkovTextModel)
    (h : trainTexts m0 texts = some m) :
    m.level_ = m0.level_ ∧
    trainSequences m0.chain_ (texts.map m0.Tokenize) = some m.chain_ := by
  induction texts generalizing m0 with
  | nil =>
    unfold trainTexts at h
    simp only [List.foldlM_nil, Option.pure_def, Option.some.injEq] at h
    subst h
    exact ⟨rfl, rfl⟩
  | cons t rest ih =>
    unfold trainTexts at h
    rw [List.foldlM_cons] at h
    cases h1 : m0.TrainFromText t with
    | none => simp [h1] at h
    | some m1 =>
      simp only [h1, Option.bind_eq_bind, Option.some_bind] at h
      obtain ⟨hl, hs⟩ := ih m1 h
      unfold TrainFromText at h1
      simp only [Option.map_eq_some'] at h1
      obtain ⟨chain, hchain, rfl⟩ := h1
      refine ⟨hl, ?_⟩
      unfold trainSequences at hs ⊢
      rw [List.map_cons, List.foldlM_cons]
      simp only [hchain, Option.bind_eq_bind, Option.some_bind]
      have : List.map (MarkovTextModel.mk m0.level_ chain).Tokenize rest =
          List.map m0.Tokenize rest := by
        apply List.map_congr_left
        intro x _
        exact tokenize_level _ _ rfl x
      rw [← this]
      exact hs

theorem detokenizeWords_extends (tokens : List State) (result : List Char) :
    result <+: detokenizeWords tokens result := by
  induction tokens generalizing result with
  | nil => exact List.prefix_refl _
  | cons t rest ih =>
    unfold detokenizeWords
    by_cases hp : isPunctuation t = true
    · rw [if_pos hp]
      exact (List.prefix_append _ _).trans (ih _)
    · rw [if_neg hp]
      exact (List.prefix_append _ _).trans (ih _)

theorem foldl_append_extends (tokens : List State) (result : List Char) :
    result <+: tokens.foldl (fun r t => r ++ t) result := by
  induction tokens generalizing result with
  | nil => exact List.prefix_refl _
  | cons t rest ih =>
    rw [List.foldl_cons]
    exact (List.prefix_append _ _).trans (ih _)

theorem detokenize_begins (m : MarkovTextModel) (t0 : State) (rest : List State) :
    t0 <+: m.Detokenize (t0 :: rest) := by
  unfold Detokenize
  cases m.level_ with
  | Character =>
    show t0 <+: List.foldl (fun r t => r ++ t) ([] ++ t0) rest
    rw [List.nil_append]
    exact foldl_append_extends rest t0
  | Word => exact detokenizeWords_extends rest t0

/-- C26. For every model trained from a new one, with at least one known state, for
every `num_tokens >= 1` and every sound sampler: `GenerateText` called with an empty
start token, or with a start token that is not a known state, returns exactly what
it returns, for the same random source, when called with the first known state
`States()[0]`; it does return a text, which begins with that state; and that state
is the first token seen in training. -/
theorem generateText_default_start {Rng : Type} (level : TokenLevel)
    (texts : List (List Char)) (m : MarkovTextModel)
    (htrain : trainTexts (MarkovTextModel.create level) texts = some m)
    (draw : Rng → List ℚ → Nat × Rng) (hdraw : SoundDraw draw)
    (num_tokens : Nat) (hn : 1 ≤ num_tokens) (rng : Rng) (start_token : List Char)
    (s0 : State) (rest : List State) (hstates : m.Chain.States = s0 :: rest)
    (hstart : start_token = [] ∨ start_token ∉ m.Chain.States) :
    m.GenerateText draw num_tokens rng start_token = m.GenerateText draw num_tokens rng s0 ∧
    (∃ text rng', m.GenerateText draw num_tokens rng start_token = some (text, rng') ∧
      s0 <+: text) ∧
    (texts.map m.Tokenize).flatten.head? = some s0 := by
  have hne : num_tokens ≠ 0 := by omega
  have hstates' : m.chain_.States = s0 :: rest := hstates
  have hstart' : start_token = [] ∨ start_token ∉ s0 :: rest := by
    rw [← hstates]; exact hstart
  have hs0 : ¬ (s0 = [] ∨ s0 ∉ s0 :: rest) ∨ True := Or.inr trivial
  have e1 : m.GenerateText draw num_tokens rng start_token =
      (m.chain_.Generate draw s0 num_tokens rng).map (fun g => (m.Detokenize g.1, g.2)) := by
    unfold GenerateText
    rw [if_neg hne, hstates']
    simp only [if_pos hstart']
  have e2 : m.GenerateText draw num_tokens rng s0 =
      (m.chain_.Generate draw s0 num_tokens rng).map (fun g => (m.Detokenize g.1, g.2)) := by
    unfold GenerateText
    rw [if_neg hne, hstates']
    by_cases h : s0 = [] ∨ s0 ∉ s0 :: rest
    · simp only [if_pos h]
    · simp only [if_neg h]
  obtain ⟨hlevel, hseq⟩ := trainTexts_spec texts _ m htrain
  obtain ⟨res, rng', hg, _, hhead, _⟩ := generate_walk _ m.chain_ hseq draw hdraw s0
    num_tokens rng
  refine ⟨by rw [e1, e2], ⟨m.Detokenize res, rng', ?_, ?_⟩, ?_⟩
  · rw [e1, hg]
    rfl
  · have hh := hhead hn
    cases res with
    | nil => simp at hh
    | cons t0 more =>
      simp only [List.head?_cons, Option.some.injEq] at hh
      subst hh
      exact detokenize_begins m t0 more
  · obtain ⟨mc', h1, h2, _⟩ := trained_represents
      (texts.map (MarkovTextModel.create level).Tokenize)
    have hseq' : trainSequences MarkovChain.fresh
        (texts.map (MarkovTextModel.create level).Tokenize) = some m.chain_ := hseq
    rw [hseq'] at h1
    have hmc : m.chain_ = mc' := Option.some.inj h1
    subst hmc
    have htok : texts.map m.Tokenize = texts.map (MarkovTextModel.create level).Tokenize := by
      apply List.map_congr_left
      intro x _
      exact tokenize_level _ _ hlevel x
    rw [htok, ← knownAfter_head, ← h2]
    show m.chain_.States.head? = some s0
    rw [hstates']
    rfl

/-- Witness of C26 on the test: a model trained on `known text`, asked for 2 tokens
from the unknown start `unknown`, with the sampler of the first positive weight. -/
theorem generateText_default_start_witness :
    (trainTexts (MarkovTextModel.create TokenLevel.Word) ["known text".toList] =
        some ⟨TokenLevel.Word, ⟨[("known".toList, 0), ("text".toList, 1)],
          ["known".toList, "text".toList], [[0, 1], [0, 0]], [1, 0]⟩⟩ ∧
      SoundDraw firstPositive ∧ 1 ≤ 2 ∧
      (MarkovTextModel.mk TokenLevel.Word ⟨[("known".toList, 0), ("text".toList, 1)],
          ["known".toList, "text".toList], [[0, 1], [0, 0]], [1, 0]⟩).Chain.States =
        "known".toList :: ["text".toList] ∧
      ("unknown".toList = [] ∨
        "unknown".toList ∉ (MarkovTextModel.mk TokenLevel.Word
          ⟨[("known".toList, 0), ("text".toList, 1)],
            ["known".toList, "text".toList], [[0, 1], [0, 0]], [1, 0]⟩).Chain.States)) ∧
    (MarkovTextModel.mk TokenLevel.Word ⟨[("known".toList, 0), ("text".toList, 1)],
        ["known".toList, "text".toList], [[0, 1], [0, 0]], [1, 0]⟩).GenerateText firstPositive
        2 0 "unknown".toList =
      (MarkovTextModel.mk TokenLevel.Word ⟨[("known".toList, 0), ("text".toList, 1)],
        ["known".toList, "text".toList], [[0, 1], [0, 0]], [1, 0]⟩).GenerateText firstPositive
        2 0 "known".toList :=
  ⟨⟨by decide, firstPositive_sound, by decide, rfl, Or.inr (by decide)⟩,
    (generateText_default_start TokenLevel.Word ["known text".toList]
      ⟨TokenLevel.Word, ⟨[("known".toList, 0), ("text".toList, 1)],
        ["known".toList, "text".toList], [[0, 1], [0, 0]], [1, 0]⟩⟩ (by decide)
      firstPositive firstPositive_sound 2 (by decide) 0 "unknown".toList
      "known".toList ["text".toList] rfl (Or.inr (by decide))).1⟩

/-- C27. `GenerateText` returns the empty string whenever `num_tokens` is 0, and
whenever the model has no known states, for every start token and random source.  A
new model has no known states, and neither has one trained only on texts that yield
no tokens: such training leaves the model as it was. -/
theorem generateText_empty {Rng : Type} (m : MarkovTextModel)
    (draw : Rng → List ℚ → Nat × Rng) (num_tokens : Nat) (rng : Rng)
    (start_token : List Char) :
    m.GenerateText draw 0 rng start_token = some ([], rng) ∧
    (m.Chain.States = [] → m.GenerateText draw num_tokens rng start_token = some ([], rng)) ∧
    (∀ level, (MarkovTextModel.create level).Chain.States = []) ∧
    (∀ texts, (∀ t ∈ texts, m.Tokenize t = []) → trainTexts m texts = some m) := by
  refine ⟨?_, ?_, fun _ => rfl, ?_⟩
  · unfold GenerateText
    rw [if_pos rfl]
  · intro h
    have h' : m.chain_.States = [] := h
    unfold GenerateText
    by_cases hn : num_tokens = 0
    · rw [if_pos hn]
    · rw [if_neg hn, h']
  · intro texts
    induction texts with
    | nil => intro _; rfl
    | cons t rest ih =>
      intro hall
      unfold trainTexts
      rw [List.foldlM_cons]
      have ht : m.TrainFromText t = some m := by
        unfold TrainFromText
        rw [hall t (List.mem_cons_self _ _)]
        rfl
      rw [ht]
      exact ih (fun x hx => hall x (List.mem_cons_of_mem _ hx))

/-! ## The order of the returned events -/

/-- On masks of one length, `maskLess` is the lexicographic order with `false` before
`true`: at the first position where the masks differ the smaller one holds `false`. -/
theorem maskLess_iff : ∀ (a b : List Bool), a.length = b.length →
    (maskLess a b = true ↔
      ∃ i, i < a.length ∧ a.getD i false = false ∧ b.getD i false = true ∧
        ∀ j, j < i → a.getD j false = b.getD j false)
  | [], [], _ => by simp [maskLess]
  | [], _ :: _, h => by simp at h
  | _ :: _, [], h => by simp at h
  | x :: as, y :: bs, h => by
    have hl : as.length = bs.length := by simpa using h
    have ih := maskLess_iff as bs hl
    unfold maskLess
    constructor
    · intro hm
      by_cases h1 : (!x && y) = true
      · refine ⟨0, by simp, ?_, ?_, ?_⟩
        · cases x <;> simp_all
        · cases y <;> simp_all
        · intro j hj; omega
      · rw [if_neg h1] at hm
        by_cases h2 : (!y && x) = true
        · rw [if_pos h2] at hm; exact absurd hm (by simp)
        · rw [if_neg h2] at hm
          obtain ⟨i, hi, ha, hb, hj⟩ := ih.1 hm
          have hxy : x = y := by cases x <;> cases y <;> simp_all
          refine ⟨i + 1, by simpa using hi, ?_, ?_, ?_⟩
          · rw [List.getD_cons_succ]; exact ha
          · rw [List.getD_cons_succ]; exact hb
          · intro j hjlt
            cases j with
            | zero => rw [List.getD_cons_zero, List.getD_cons_zero]; exact hxy
            | succ j =>
              rw [List.getD_cons_succ, List.getD_cons_succ]
              exact hj j (by omega)
    · rintro ⟨i, hi, ha, hb, hj⟩
      cases i with
      | zero =>
        rw [List.getD_cons_zero] at ha hb
        subst ha; subst hb
        simp
      | succ i =>
        have h0 := hj 0 (by omega)
        rw [List.getD_cons_zero, List.getD_cons_zero] at h0
        subst h0
        rw [List.getD_cons_succ] at ha hb
        have hm : maskLess as bs = true := ih.2 ⟨i, by simpa using hi, ha, hb, by
          intro j hjlt
          have := hj (j + 1) (by omega)
          rw [List.getD_cons_succ, List.getD_cons_succ] at this
          exact this⟩
        cases x <;> simp [hm]

/-- The seed depends only on the set of its masks. -/
theorem generateSeed_congr (n : Nat) (G G' : List Event)
    (h : ∀ m, (m = (Event.Empty n).GetMask ∨ m = (Event.Full n).GetMask ∨
        ∃ g ∈ G, g.GetMask = m) ↔
      (m = (Event.Empty n).GetMask ∨ m = (Event.Full n).GetMask ∨
        ∃ g ∈ G', g.GetMask = m)) :
    generateSeed n G = generateSeed n G' := by
  apply setOk_ext (generateSeed_ok n G) (generateSeed_ok n G')
  intro m
  rw [mem_generateSeed, mem_generateSeed]
  exact h m

/-- The events of `Generate` depend only on the seed. -/
theorem generate_congr (fuel : Nat) (omega omega' : OutcomeSpace) (G G' : List Event)
    (hn : omega'.GetSize = omega.GetSize)
    (h : generateSeed omega.GetSize G = generateSeed omega.GetSize G') :
    (Generate fuel omega' G').map GetEvents = (Generate fuel omega G).map GetEvents := by
  unfold Generate
  simp only [hn, h, Option.map_map]
  rfl

/-- On one outcome space, `Generate` depends only on the seed. -/
theorem generate_congr_seed (fuel : Nat) (omega : OutcomeSpace) (G G' : List Event)
    (h : generateSeed omega.GetSize G' = generateSeed omega.GetSize G) :
    Generate fuel omega G' = Generate fuel omega G := by
  unfold Generate
  simp only [h]

/-- C33. For every outcome space of size `n` and every list of generators whose masks
have length `n`, `Generate` returns, and the event list it returns is listed in
strictly increasing order of the masks for `operator<` of `std::vector<bool>`, which
on these masks is the lexicographic order with `false` before `true`; the list
depends only on `n` and on the set of the generator masks taken together with the
empty and the full mask: any outcome space of the same size and any generators with
the same set of masks give the same events on every budget, and so do a permutation
of the generators, a generator repeated at any place, and the empty or the full
event added at any place. -/
theorem generate_events_canonical (omega : OutcomeSpace) (G : List Event)
    (hG : ∀ g ∈ G, g.GetSize = omega.GetSize) :
    (∃ fuel sa, Generate fuel omega G = some sa) ∧
    (∀ fuel sa, Generate fuel omega G = some sa →
      (sa.GetEvents.map Event.GetMask).Pairwise (fun a b => maskLess a b = true) ∧
      (sa.GetEvents.map Event.GetMask).Pairwise (fun a b =>
        ∃ i, i < omega.GetSize ∧ a.getD i false = false ∧ b.getD i false = true ∧
          ∀ j, j < i → a.getD j false = b.getD j false)) ∧
    (∀ (omega' : OutcomeSpace) (G' : List Event), omega'.GetSize = omega.GetSize →
      (∀ m, (m = (Event.Empty omega.GetSize).GetMask ∨
            m = (Event.Full omega.GetSize).GetMask ∨ ∃ g ∈ G, g.GetMask = m) ↔
          (m = (Event.Empty omega.GetSize).GetMask ∨
            m = (Event.Full omega.GetSize).GetMask ∨ ∃ g ∈ G', g.GetMask = m)) →
      ∀ fuel, (Generate fuel omega' G').map GetEvents =
        (Generate fuel omega G).map GetEvents) ∧
    (∀ G', G'.Perm G → ∀ fuel, Generate fuel omega G' = Generate fuel omega G) ∧
    (∀ G1 G2 g, G = G1 ++ G2 → g ∈ G → ∀ fuel,
      Generate fuel omega (G1 ++ g :: G2) = Generate fuel omega G) ∧
    (∀ G1 G2, G = G1 ++ G2 → ∀ fuel,
      Generate fuel omega (G1 ++ Event.Empty omega.GetSize :: G2) = Generate fuel omega G ∧
      Generate fuel omega (G1 ++ Event.Full omega.GetSize :: G2) = Generate fuel omega G) := by
  refine ⟨generate_returns omega G hG, ?_, ?_, ?_, ?_, ?_⟩
  · obtain ⟨r, _, h2, hok, hsz, _, _, _⟩ := generate_events omega G hG
    intro fuel sa hsa
    rw [h2 fuel sa hsa, map_GetMask_map_mk]
    refine ⟨hok, ?_⟩
    unfold SetOk at hok
    rw [List.pairwise_iff_forall_sublist] at hok ⊢
    intro a b hab
    have ha : a ∈ r := hab.subset (by simp)
    have hb : b ∈ r := hab.subset (by simp)
    have hla := hsz a ha
    have hlb := hsz b hb
    have := (maskLess_iff a b (by rw [hla, hlb])).1 (hok hab)
    rw [hla] at this
    exact this
  · intro omega' G' hn hset fuel
    exact generate_congr fuel omega omega' G G' hn (generateSeed_congr _ G G' hset)
  · intro G' hperm fuel
    apply generate_congr_seed
    apply generateSeed_congr
    intro m
    simp only [hperm.mem_iff]
  · intro G1 G2 g hG12 hg fuel
    apply generate_congr_seed
    apply generateSeed_congr
    intro m
    subst hG12
    simp only [List.mem_append, List.mem_cons] at hg ⊢
    constructor
    · rintro (h | h | ⟨e, he, hm⟩)
      · exact Or.inl h
      · exact Or.inr (Or.inl h)
      · rcases he with he | he | he
        · exact Or.inr (Or.inr ⟨e, Or.inl he, hm⟩)
        · subst he
          exact Or.inr (Or.inr ⟨e, hg, hm⟩)
        · exact Or.inr (Or.inr ⟨e, Or.inr he, hm⟩)
    · rintro (h | h | ⟨e, he, hm⟩)
      · exact Or.inl h
      · exact Or.inr (Or.inl h)
      · rcases he with he | he
        · exact Or.inr (Or.inr ⟨e, Or.inl he, hm⟩)
        · exact Or.inr (Or.inr ⟨e, Or.inr (Or.inr he), hm⟩)
  · intro G1 G2 hG12 fuel
    subst hG12
    constructor
    · apply generate_congr_seed
      apply generateSeed_congr
      intro m
      simp only [List.mem_append, List.mem_cons]
      constructor
      · rintro (h | h | ⟨e, he, hm⟩)
        · exact Or.inl h
        · exact Or.inr (Or.inl h)
        · rcases he with he | he | he
          · exact Or.inr (Or.inr ⟨e, Or.inl he, hm⟩)
          · subst he
            exact Or.inl hm.symm
          · exact Or.inr (Or.inr ⟨e, Or.inr he, hm⟩)
      · rintro (h | h | ⟨e, he, hm⟩)
        · exact Or.inl h
        · exact Or.inr (Or.inl h)
        · rcases he with he | he
          · exact Or.inr (Or.inr ⟨e, Or.inl he, hm⟩)
          · exact Or.inr (Or.inr ⟨e, Or.inr (Or.inr he), hm⟩)
    · apply generate_congr_seed
      apply generateSeed_congr
      intro m
      simp only [List.mem_append, List.mem_cons]
      constructor
      · rintro (h | h | ⟨e, he, hm⟩)
        · exact Or.inl h
        · exact Or.inr (Or.inl h)
        · rcases he with he | he | he
          · exact Or.inr (Or.inr ⟨e, Or.inl he, hm⟩)
          · subst he
            exact Or.inr (Or.inl hm.symm)
          · exact Or.inr (Or.inr ⟨e, Or.inr he, hm⟩)
      · rintro (h | h | ⟨e, he, hm⟩)
        · exact Or.inl h
        · exact Or.inr (Or.inl h)
        · rcases he with he | he
          · exact Or.inr (Or.inr ⟨e, Or.inl he, hm⟩)
          · exact Or.inr (Or.inr ⟨e, Or.inr (Or.inr he), hm⟩)

/-- Witness of C33 on the two-outcome space with the generator `{A}`, given once and
given twice. -/
theorem generate_events_canonical_witness :
    (∀ g ∈ [Event.mk [true, false]], g.GetSize = (OutcomeSpace.mk ["A", "B"]).GetSize) ∧
    Generate 4 ⟨["A", "B"]⟩ [⟨[true, false]⟩] = some ⟨⟨["A", "B"]⟩,
      [⟨[false, false]⟩, ⟨[false, true]⟩, ⟨[true, false]⟩, ⟨[true, true]⟩]⟩ ∧
    Generate 4 ⟨["A", "B"]⟩ ([] ++ Event.mk [true, false] :: [Event.mk [true, false]]) =
      Generate 4 ⟨["A", "B"]⟩ [⟨[true, false]⟩] :=
  ⟨by decide, by decide,
    (generate_events_canonical ⟨["A", "B"]⟩ [⟨[true, false]⟩] (by decide)).2.2.2.2.1
      [] [⟨[true, false]⟩] ⟨[true, false]⟩ rfl (List.mem_singleton.2 rfl) 4⟩

/-! ## Detokenizing and tokenizing again -/

/-- The loop of `Detokenize` in `Word` mode appends to the result it starts from. -/
theorem detokenizeWords_append (tokens : List State) (result : List Char) :
    detokenizeWords tokens result = result ++ detokenizeWords tokens [] := by
  induction tokens generalizing result with
  | nil => simp [detokenizeWords]
  | cons t rest ih =>
    unfold detokenizeWords
    by_cases hp : isPunctuation t = true
    · rw [if_pos hp, if_pos hp, ih, ih ([] ++ t)]
      simp
    · rw [if_neg hp, if_neg hp, ih, ih ([] ++ (' ' :: t))]
      simp

/-- A run of word characters is not a punctuation token. -/
theorem isPunctuation_word (t : State) (h : ∀ c ∈ t, isWordChar c = true) :
    isPunctuation t = false := by
  unfold isPunctuation
  split
  · rename_i c
    have hc := h c (List.mem_singleton.2 rfl)
    unfold isWordChar at hc
    cases hal : isalnum c
    · rw [hal] at hc
      simp only [Bool.false_or, decide_eq_true_eq] at hc
      simp [hc]
    · simp
  · rfl

/-- One character that is not a word character is a punctuation token. -/
theorem isPunctuation_single (c : Char) (h : isWordChar c = false) :
    isPunctuation [c] = true := by
  unfold isWordChar at h
  simp only [Bool.or_eq_false_iff, decide_eq_false_iff_not] at h
  simp [isPunctuation, h.1, h.2]

/-- A run of word characters followed by a text that opens with no word character is
the first token of the two put together. -/
theorem wordTokens_word_append (w s : List Char) (hw : w ≠ [])
    (hall : ∀ c ∈ w, isWordChar c = true) (hs : s.takeWhile isWordChar = []) :
    wordTokens (w ++ s) = w :: wordTokens s := by
  have hd : s.dropWhile isWordChar = s := by
    have := List.takeWhile_append_dropWhile isWordChar s
    rw [hs, List.nil_append] at this
    exact this
  rw [wordTokens_split, List.takeWhile_append_of_pos hall, List.dropWhile_append_of_pos hall,
    hs, hd, List.append_nil, if_pos hw]
  rfl

/-- Each token of the tokenizer other than the first one starts, once detokenized,
with a character that is not a word character. -/
theorem detokenizeWords_opens (tokens : List State)
    (h : ∀ tok ∈ tokens, (tok ≠ [] ∧ ∀ c ∈ tok, isWordChar c = true) ∨
      ∃ c, tok = [c] ∧ isWordChar c = false ∧ isspace c = false) :
    (detokenizeWords tokens []).takeWhile isWordChar = [] := by
  cases tokens with
  | nil => simp [detokenizeWords]
  | cons t rest =>
    unfold detokenizeWords
    rcases h t (List.mem_cons_self _ _) with ⟨_, hall⟩ | ⟨c, rfl, hc, _⟩
    · rw [if_neg (by rw [isPunctuation_word t hall]; simp), detokenizeWords_append]
      have : isWordChar ' ' = false := by decide
      simp [List.takeWhile_cons, this]
    · rw [if_pos (isPunctuation_single c hc), detokenizeWords_append]
      simp [List.takeWhile_cons, hc]

/-- The tokens of the detokenized tail are the tail. -/
theorem wordTokens_detokenizeWords (tokens : List State)
    (h : ∀ tok ∈ tokens, (tok ≠ [] ∧ ∀ c ∈ tok, isWordChar c = true) ∨
      ∃ c, tok = [c] ∧ isWordChar c = false ∧ isspace c = false) :
    wordTokens (detokenizeWords tokens []) = tokens := by
  induction tokens with
  | nil => simp [detokenizeWords, wordTokens]
  | cons t rest ih =>
    have hrest : ∀ tok ∈ rest, (tok ≠ [] ∧ ∀ c ∈ tok, isWordChar c = true) ∨
        ∃ c, tok = [c] ∧ isWordChar c = false ∧ isspace c = false :=
      fun tok htok => h tok (List.mem_cons_of_mem _ htok)
    unfold detokenizeWords
    rcases h t (List.mem_cons_self _ _) with ⟨hne, hall⟩ | ⟨c, rfl, hc, hsp⟩
    · rw [if_neg (by rw [isPunctuation_word t hall]; simp), detokenizeWords_append]
      have h1 : isWordChar ' ' = false := by decide
      have h2 : isspace ' ' = true := by decide
      show wordTokens (' ' :: (t ++ detokenizeWords rest [])) = t :: rest
      rw [wordTokens, if_neg (by simp [h1]), if_pos h2,
        wordTokens_word_append t _ hne hall (detokenizeWords_opens rest hrest), ih hrest]
    · rw [if_pos (isPunctuation_single c hc), detokenizeWords_append]
      show wordTokens (c :: detokenizeWords rest []) = [c] :: rest
      rw [wordTokens, if_neg (by simp [hc]), if_neg (by simp [hsp]), ih hrest]

/-- In `Word` mode the tokens of a detokenized list of tokens of the tokenizer are
that list. -/
theorem wordTokens_detokenize (m : MarkovTextModel) (hm : m.level_ = TokenLevel.Word)
    (tokens : List State)
    (h : ∀ tok ∈ tokens, (tok ≠ [] ∧ ∀ c ∈ tok, isWordChar c = true) ∨
      ∃ c, tok = [c] ∧ isWordChar c = false ∧ isspace c = false) :
    wordTokens (m.Detokenize tokens) = tokens := by
  cases tokens with
  | nil => simp [Detokenize, wordTokens]
  | cons t rest =>
    have hrest : ∀ tok ∈ rest, (tok ≠ [] ∧ ∀ c ∈ tok, isWordChar c = true) ∨
        ∃ c, tok = [c] ∧ isWordChar c = false ∧ isspace c = false :=
      fun tok htok => h tok (List.mem_cons_of_mem _ htok)
    unfold Detokenize
    simp only [hm]
    rw [detokenizeWords_append]
    rcases h t (List.mem_cons_self _ _) with ⟨hne, hall⟩ | ⟨c, rfl, hc, hsp⟩
    · rw [wordTokens_word_append t _ hne hall (detokenizeWords_opens rest hrest),
        wordTokens_detokenizeWords rest hrest]
    · show wordTokens (c :: detokenizeWords rest []) = [c] :: rest
      rw [wordTokens, if_neg (by simp [hc]), if_neg (by simp [hsp]),
        wordTokens_detokenizeWords rest hrest]

/-- In `Character` mode the tokens of a text, put together, are the text. -/
theorem foldl_append_singletons (text : List Char) (result : List Char) :
    (text.map (fun c => [c])).foldl (fun result t => result ++ t) result = result ++ text := by
  induction text generalizing result with
  | nil => simp
  | cons c rest ih =>
    rw [List.map_cons, List.foldl_cons, ih]
    simp

/-- C34. For every ASCII text: in `Word` mode, detokenizing the tokens of the text
and tokenizing the result again gives the tokens of the text, where `Detokenize`
appends a punctuation token (one character that is neither alphanumeric nor the
apostrophe) without a space and every other token after the first with one space
before it; in `Character` mode detokenizing the tokens of the text gives the text. -/
theorem tokenize_detokenize (m : MarkovTextModel) (text : List Char)
    (_hascii : ∀ c ∈ text, c.toNat < 128) :
    (m.level_ = TokenLevel.Word →
      m.Tokenize (m.Detokenize (m.Tokenize text)) = m.Tokenize text ∧
      ∀ (tokens : List State) (t : State), tokens ≠ [] →
        m.Detokenize (tokens ++ [t]) =
          m.Detokenize tokens ++ (if isPunctuation t then t else ' ' :: t)) ∧
    (m.level_ = TokenLevel.Character → m.Detokenize (m.Tokenize text) = text) := by
  constructor
  · intro hm
    constructor
    · rw [tokenize_word_eq m hm, tokenize_word_eq m hm]
      apply wordTokens_detokenize m hm
      intro tok htok
      obtain ⟨h1, _⟩ := wordTokens_props text.length text (le_refl _)
      obtain ⟨hne, _, h3⟩ := h1 tok htok
      rcases h3 with h3 | h3
      · exact Or.inl ⟨hne, h3⟩
      · exact Or.inr h3
    · intro tokens t hne
      cases tokens with
      | nil => exact absurd rfl hne
      | cons t0 rest =>
        unfold Detokenize
        simp only [hm, List.cons_append]
        rw [detokenizeWords_append, detokenizeWords_append rest t0]
        have : ∀ l : List State, detokenizeWords (l ++ [t]) [] =
            detokenizeWords l [] ++ (if isPunctuation t then t else ' ' :: t) := by
          intro l
          induction l with
          | nil =>
            by_cases hp : isPunctuation t = true
            · simp [detokenizeWords, hp]
            · simp [detokenizeWords, hp]
          | cons x xs ih =>
            rw [List.cons_append]
            unfold detokenizeWords
            by_cases hx : isPunctuation x = true
            · rw [if_pos hx, if_pos hx, detokenizeWords_append, detokenizeWords_append xs, ih]
              simp
            · rw [if_neg hx, if_neg hx, detokenizeWords_append, detokenizeWords_append xs, ih]
              simp
        rw [this, List.append_assoc]
  · intro hm
    unfold Tokenize Detokenize
    simp only [hm]
    cases text with
    | nil => rfl
    | cons c rest =>
      show ((c :: rest).map (fun c => [c])).foldl (fun result t => result ++ t) [] = c :: rest
      rw [foldl_append_singletons]
      rfl

/-- Witness of C34 on the text of the test in `Word` mode: the tokens of
`Don't worry, it's okay.` are detokenized to the same text and tokenized to the same
tokens again. -/
theorem tokenize_detokenize_witness :
    (∀ c ∈ "Don't worry, it's okay.".toList, c.toNat < 128) ∧
    (MarkovTextModel.create TokenLevel.Word).Detokenize
      ((MarkovTextModel.create TokenLevel.Word).Tokenize "Don't worry, it's okay.".toList) =
        "Don't worry, it's okay.".toList ∧
    (MarkovTextModel.create TokenLevel.Word).Tokenize
      ((MarkovTextModel.create TokenLevel.Word).Detokenize
        ((MarkovTextModel.create TokenLevel.Word).Tokenize "Don't worry, it's okay.".toList)) =
      (MarkovTextModel.create TokenLevel.Word).Tokenize "Don't worry, it's okay.".toList :=
  ⟨by decide, by decide,
    ((tokenize_detokenize (MarkovTextModel.create TokenLevel.Word)
      "Don't worry, it's okay.".toList (by decide)).1 rfl).1⟩

/-! ## The representation invariant of the Markov chain -/

theorem getElem?_stateIndex (l : List State) (s : State) (h : s ∈ l) :
    l[stateIndex s l]? = some s := by
  have := getElem?_map_stateIndex l (fun x => x) s h
  simpa using this

theorem stateIndex_of_getElem? (l : List State) (hnd : l.Nodup) (i : Nat) (s : State)
    (h : l[i]? = some s) : stateIndex s l = i := by
  induction l generalizing i with
  | nil => simp at h
  | cons x xs ih =>
    rw [List.nodup_cons] at hnd
    cases i with
    | zero =>
      simp only [List.getElem?_cons_zero, Option.some.injEq] at h
      simp [stateIndex, h]
    | succ i =>
      rw [List.getElem?_cons_succ] at h
      have hmem : s ∈ xs := List.getElem?_mem h
      have hx : x ≠ s := fun e => hnd.1 (e ▸ hmem)
      simp [stateIndex, hx, ih hnd.2 i h]

/-- A chain that stores some counts satisfies the invariant. -/
theorem repInvariant_of_represents (mc : MarkovChain) (C : State → State → Nat)
    (R : State → Nat) (h : Represents mc C R) : RepInvariant mc := by
  obtain ⟨hnd, hmap, hcounts, hrows, _, _, hsum⟩ := h
  refine ⟨hnd, ?_, ?_, ?_, ?_, ?_, ?_⟩
  · intro i s his
    have hmem : s ∈ mc.index_to_state_ := List.getElem?_mem his
    rw [hmap s, if_pos hmem, stateIndex_of_getElem? _ hnd i s his]
  · intro s hs
    rw [hmap s, if_neg hs]
  · rw [hcounts, List.length_map]
  · intro row hrow
    rw [hcounts] at hrow
    obtain ⟨a, _, rfl⟩ := List.mem_map.1 hrow
    rw [List.length_map]
  · rw [hrows, List.length_map]
  · intro i row hrow
    rw [hcounts, List.getElem?_map] at hrow
    rw [hrows, List.getElem?_map]
    cases hi : mc.index_to_state_[i]? with
    | none => rw [hi] at hrow; simp at hrow
    | some a =>
      rw [hi] at hrow
      simp only [Option.map_some', Option.some.injEq] at hrow
      rw [← hrow, Option.map_some', hsum a]

/-- The counts a chain stores, read off its fields. -/
theorem represents_of_repInvariant (mc : MarkovChain) (h : RepInvariant mc) :
    Represents mc
      (fun a b => if a ∈ mc.index_to_state_ ∧ b ∈ mc.index_to_state_ then
        (mc.counts_.getD (stateIndex a mc.index_to_state_) []).getD
          (stateIndex b mc.index_to_state_) 0 else 0)
      (fun a => if a ∈ mc.index_to_state_ then
        mc.row_sums_.getD (stateIndex a mc.index_to_state_) 0 else 0) := by
  obtain ⟨hnd, hpos, hout, hlen, hrowlen, hrlen, hsum⟩ := h
  have hrowmap : ∀ (i : Nat) (a : State), mc.index_to_state_[i]? = some a →
      ∀ row, mc.counts_[i]? = some row →
      row = mc.index_to_state_.map (fun b =>
        if a ∈ mc.index_to_state_ ∧ b ∈ mc.index_to_state_ then
          (mc.counts_.getD (stateIndex a mc.index_to_state_) []).getD
            (stateIndex b mc.index_to_state_) 0 else 0) := by
    intro i a hia row hrow
    have ha : a ∈ mc.index_to_state_ := List.getElem?_mem hia
    have hidx := stateIndex_of_getElem? _ hnd i a hia
    have hrl := hrowlen row (List.getElem?_mem hrow)
    apply List.ext_getElem?
    intro j
    rw [List.getElem?_map]
    cases hj : mc.index_to_state_[j]? with
    | none =>
      rw [Option.map_none']
      rw [List.getElem?_eq_none_iff] at hj ⊢
      omega
    | some b =>
      have hb : b ∈ mc.index_to_state_ := List.getElem?_mem hj
      have hjdx := stateIndex_of_getElem? _ hnd j b hj
      have hjlt : j < row.length := by
        rw [hrl]
        exact (List.getElem?_eq_some_iff.1 hj).1
      rw [Option.map_some', if_pos ⟨ha, hb⟩, hidx, hjdx]
      simp only [List.getD_eq_getElem?_getD, hrow, Option.getD_some,
        List.getElem?_eq_getElem hjlt]
  refine ⟨hnd, ?_, ?_, ?_, ?_, ?_, ?_⟩
  · intro s
    by_cases hs : s ∈ mc.index_to_state_
    · rw [if_pos hs]
      exact hpos _ s (getElem?_stateIndex _ s hs)
    · rw [if_neg hs]
      exact hout s hs
  · apply List.ext_getElem?
    intro i
    rw [List.getElem?_map]
    cases hi : mc.index_to_state_[i]? with
    | none =>
      rw [Option.map_none']
      rw [List.getElem?_eq_none_iff] at hi ⊢
      omega
    | some a =>
      have hilt : i < mc.counts_.length := by
        rw [hlen]
        exact (List.getElem?_eq_some_iff.1 hi).1
      rw [Option.map_some', List.getElem?_eq_getElem hilt]
      congr 1
      exact hrowmap i a hi _ (List.getElem?_eq_getElem hilt)
  · apply List.ext_getElem?
    intro i
    rw [List.getElem?_map]
    cases hi : mc.index_to_state_[i]? with
    | none =>
      rw [Option.map_none']
      rw [List.getElem?_eq_none_iff] at hi ⊢
      omega
    | some a =>
      have ha : a ∈ mc.index_to_state_ := List.getElem?_mem hi
      have hilt : i < mc.row_sums_.length := by
        rw [hrlen]
        exact (List.getElem?_eq_some_iff.1 hi).1
      rw [Option.map_some', if_pos ha, stateIndex_of_getElem? _ hnd i a hi,
        List.getD_eq_getElem?_getD, List.getElem?_eq_getElem hilt]
      rfl
  · intro a b hab
    show (if _ then _ else _) = 0
    rw [if_neg]
    rintro ⟨ha, hb⟩
    rcases hab with h | h
    · exact h ha
    · exact h hb
  · intro a ha
    show (if _ then _ else _) = 0
    rw [if_neg ha]
  · intro a
    show (if _ then _ else _) = _
    by_cases ha : a ∈ mc.index_to_state_
    · have hia := getElem?_stateIndex _ a ha
      have hilt : stateIndex a mc.index_to_state_ < mc.counts_.length := by
        rw [hlen]
        exact stateIndex_lt a _ ha
      have hrow := List.getElem?_eq_getElem hilt
      have hs := hsum _ _ hrow
      rw [if_pos ha, List.getD_eq_getElem?_getD, hs, Option.getD_some]
      exact congrArg List.sum (hrowmap _ a hia _ hrow)
    · rw [if_neg ha]
      symm
      apply List.sum_eq_zero
      intro x hx
      obtain ⟨b, _, rfl⟩ := List.mem_map.1 hx
      exact if_neg (fun h => ha h.1)

/-! ## The distribution of the next state -/

theorem distAssign_new (s : State) (p : ℚ) (d : List (State × ℚ))
    (h : s ∉ d.map Prod.fst) : distAssign s p d = d ++ [(s, p)] := by
  induction d with
  | nil => rfl
  | cons x xs ih =>
    obtain ⟨k, v⟩ := x
    simp only [List.map_cons, List.mem_cons, not_or] at h
    have hk : k ≠ s := fun e => h.1 e.symm
    simp only [distAssign, if_neg hk, ih h.2, List.cons_append]

/-- The lookup in a map with pairwise distinct keys finds the entries of the list. -/
theorem distFind_eq_some (s : State) (p : ℚ) (d : List (State × ℚ))
    (hnd : (d.map Prod.fst).Nodup) : distFind s d = some p ↔ (s, p) ∈ d := by
  induction d with
  | nil => simp [distFind]
  | cons x xs ih =>
    obtain ⟨k, v⟩ := x
    rw [List.map_cons, List.nodup_cons] at hnd
    unfold distFind
    by_cases hk : k = s
    · subst hk
      rw [if_pos rfl]
      constructor
      · intro h
        rw [Option.some.injEq] at h
        subst h
        exact List.mem_cons_self _ _
      · intro h
        rcases List.mem_cons.1 h with h | h
        · rw [Prod.mk.injEq] at h
          rw [h.2]
        · exact absurd (List.mem_map.2 ⟨(k, p), h, rfl⟩) hnd.1
    · rw [if_neg hk, ih hnd.2]
      constructor
      · exact fun h => List.mem_cons_of_mem _ h
      · intro h
        rcases List.mem_cons.1 h with h | h
        · rw [Prod.mk.injEq] at h
          exact absurd h.1.symm hk
        · exact h

/-- The loop of `NextDistribution` over the first `k` states of a chain that stores
`C` and `R`. -/
theorem nextDistribution_fold (mc : MarkovChain) (C : State → State → Nat)
    (R : State → Nat) (h : Represents mc C R) (a : State) (ha : a ∈ mc.index_to_state_)
    (k : Nat) (hk : k ≤ mc.index_to_state_.length) :
    (List.range k).foldlM (mc.nextDistributionStep (stateIndex a mc.index_to_state_)) [] =
      some (((mc.index_to_state_.take k).filter (fun t => decide (0 < C a t))).map
        (fun t => (t, (C a t : ℚ) / (R a : ℚ)))) := by
  obtain ⟨hnd, _, hcounts, hrows, _, _, _⟩ := h
  have hsumr : mc.row_sums_[stateIndex a mc.index_to_state_]? = some (R a) := by
    rw [hrows]; exact getElem?_map_stateIndex _ _ a ha
  have hrow : mc.counts_[stateIndex a mc.index_to_state_]? =
      some (mc.index_to_state_.map (C a)) := by
    rw [hcounts]; exact getElem?_map_stateIndex _ _ a ha
  induction k with
  | zero => rfl
  | succ k ih =>
    have hlt : k < mc.index_to_state_.length := by omega
    have hk1 : mc.index_to_state_[k]? = some mc.index_to_state_[k] :=
      List.getElem?_eq_getElem hlt
    have hcell : (mc.index_to_state_.map (C a))[k]? = some (C a mc.index_to_state_[k]) := by
      rw [List.getElem?_map, hk1]
      rfl
    rw [List.range_succ, List.foldlM_append, ih (by omega)]
    simp only [Option.bind_eq_bind, Option.some_bind, List.foldlM_cons, List.foldlM_nil,
      Option.pure_def, Option.bind_some]
    unfold MarkovChain.nextDistributionStep
    simp only [hrow, hcell, hk1, hsumr]
    rw [List.take_succ, hk1, List.filter_append]
    by_cases hpos : 0 < C a mc.index_to_state_[k]
    · rw [if_pos hpos, distAssign_new]
      · simp [hpos]
      · intro hmem
        rw [List.map_map] at hmem
        obtain ⟨t, ht, hte⟩ := List.mem_map.1 hmem
        have ht2 : t ∈ mc.index_to_state_.take k := (List.mem_filter.1 ht).1
        have htk : t = mc.index_to_state_[k] := hte
        rw [htk] at ht2
        obtain ⟨i, hi⟩ := List.mem_iff_getElem?.1 ht2
        rw [List.getElem?_take] at hi
        split at hi
        · rename_i hik
          have h1 := stateIndex_of_getElem? _ hnd i _ hi
          have h2 := stateIndex_of_getElem? _ hnd k _ hk1
          omega
        · simp at hi
    · rw [if_neg hpos]
      simp [hpos]

/-- The result of `NextDistribution` on a chain that stores `C` and `R`: the states
to which the count is positive, in the order of the known states, each with the
count divided by the row sum. -/
theorem nextDistribution_spec (mc : MarkovChain) (C : State → State → Nat)
    (R : State → Nat) (h : Represents mc C R) (a : State) :
    mc.NextDistribution a =
      some (if a ∈ mc.index_to_state_ ∧ R a ≠ 0 then
        (mc.index_to_state_.filter (fun t => decide (0 < C a t))).map
          (fun t => (t, (C a t : ℚ) / (R a : ℚ))) else []) := by
  have hfold := fun ha => nextDistribution_fold mc C R h a ha mc.index_to_state_.length
    (le_refl _)
  obtain ⟨hnd, hmap, hcounts, hrows, _, _, _⟩ := h
  unfold MarkovChain.NextDistribution
  by_cases ha : a ∈ mc.index_to_state_
  · have hfa := hmap a
    rw [if_pos ha] at hfa
    have hsumr : mc.row_sums_[stateIndex a mc.index_to_state_]? = some (R a) := by
      rw [hrows]; exact getElem?_map_stateIndex _ _ a ha
    simp only [hfa, hsumr]
    by_cases hr : R a = 0
    · rw [if_pos hr, if_neg (fun h => h.2 hr)]
    · rw [if_neg hr, if_pos ⟨ha, hr⟩, hfold ha, List.take_length]
  · have hfa := hmap a
    rw [if_neg ha] at hfa
    rw [hfa, if_neg (fun h => ha h.1)]

/-- The values of the row of a state with outgoing transitions sum to one. -/
theorem sum_map_div (l : List State) (f : State → Nat) (r : Nat) (hr : r ≠ 0)
    (hsum : r = (l.map f).sum) :
    (((l.filter (fun t => decide (0 < f t))).map
      (fun t => (t, (f t : ℚ) / (r : ℚ)))).map Prod.snd).sum = 1 := by
  have h1 : ∀ l : List State, (((l.filter (fun t => decide (0 < f t))).map
      (fun t => (t, (f t : ℚ) / (r : ℚ)))).map Prod.snd).sum =
      (((l.map f).sum : Nat) : ℚ) / (r : ℚ) := by
    intro l
    induction l with
    | nil => simp
    | cons x xs ih =>
      by_cases hx : 0 < f x
      · rw [List.filter_cons_of_pos (by simpa using hx)]
        simp only [List.map_cons, List.sum_cons, Nat.cast_add]
        rw [ih, add_div]
      · have h0 : f x = 0 := by omega
        rw [List.filter_cons_of_neg (by simpa using hx)]
        simp only [List.map_cons, List.sum_cons, Nat.cast_add]
        rw [ih, h0]
        simp
  rw [h1 l, ← hsum]
  exact div_self (by exact_mod_cast hr)

/-! ## The order of the known states -/

theorem stateIndex_append (x : State) (a b : List State) :
    stateIndex x (a ++ b) = if x ∈ a then stateIndex x a else a.length + stateIndex x b := by
  induction a with
  | nil => simp
  | cons y ys ih =>
    by_cases hy : y = x
    · subst hy
      simp [stateIndex]
    · have hxy : ¬ x = y := fun e => hy e.symm
      rw [List.cons_append]
      simp only [stateIndex, if_neg hy, List.mem_cons, hxy, false_or, List.length_cons]
      rw [ih]
      split <;> omega

/-- The known states are listed in the order of their first appearance: first the
states known before, then the new ones by their first position in the sequence. -/
theorem knownAfter_order (l : List State) : ∀ (states : List State) (x y : State),
    x ∈ knownAfter states l → y ∈ knownAfter states l →
    (stateIndex x (knownAfter states l) < stateIndex y (knownAfter states l) ↔
      stateIndex x (states ++ l) < stateIndex y (states ++ l)) := by
  induction l with
  | nil =>
    intro states x y _ _
    simp [knownAfter]
  | cons s rest ih =>
    intro states x y hx hy
    unfold knownAfter at hx hy ⊢
    by_cases hs : s ∈ states
    · rw [if_pos hs] at hx hy ⊢
      rw [ih states x y hx hy]
      rw [stateIndex_append x states rest, stateIndex_append y states rest,
        stateIndex_append x states (s :: rest), stateIndex_append y states (s :: rest)]
      by_cases hxs : x ∈ states
      · have hxlt := stateIndex_lt x states hxs
        by_cases hys : y ∈ states
        · simp only [if_pos hxs, if_pos hys]
        · simp only [if_pos hxs, if_neg hys]
          constructor <;> intro _ <;> omega
      · have hsx : s ≠ x := fun e => hxs (e ▸ hs)
        by_cases hys : y ∈ states
        · have hylt := stateIndex_lt y states hys
          simp only [if_neg hxs, if_pos hys]
          constructor <;> intro _ <;> omega
        · have hsy : s ≠ y := fun e => hys (e ▸ hs)
          simp only [if_neg hxs, if_neg hys, stateIndex, if_neg hsx, if_neg hsy]
          constructor <;> intro _ <;> omega
    · rw [if_neg hs] at hx hy ⊢
      rw [ih (states ++ [s]) x y hx hy, List.append_assoc]
      rfl

theorem distFind_eq_none (s : State) (d : List (State × ℚ)) (h : s ∉ d.map Prod.fst) :
    distFind s d = none := by
  induction d with
  | nil => rfl
  | cons x xs ih =>
    obtain ⟨k, v⟩ := x
    simp only [List.map_cons, List.mem_cons, not_or] at h
    have hk : k ≠ s := fun e => h.1 e.symm
    simp only [distFind, if_neg hk, ih h.2]

/-- The map `NextDistribution` returns on a chain that stores `C` and `R`, against
`TransitionProbability`. -/
theorem nextDistribution_props (mc : MarkovChain) (C : State → State → Nat)
    (R : State → Nat) (h : Represents mc C R) (a : State) :
    ∃ d, mc.NextDistribution a = some d ∧ (d.map Prod.fst).Nodup ∧
      (∀ t, ∃ p, mc.TransitionProbability a t = some p ∧
        distFind t d = if 0 < p then some p else none) ∧
      (∀ x ∈ d, 0 < x.2) ∧
      (a ∈ mc.index_to_state_ ∧ R a ≠ 0 → (d.map Prod.snd).sum = 1) ∧
      (¬ (a ∈ mc.index_to_state_ ∧ R a ≠ 0) → d = []) := by
  have hnd_spec := nextDistribution_spec mc C R h a
  have htp := transitionProbability_spec mc C R h a
  obtain ⟨hnd, _, _, _, hC0, _, hsum⟩ := h
  by_cases hc : a ∈ mc.index_to_state_ ∧ R a ≠ 0
  · rw [if_pos hc] at hnd_spec
    have hRpos : (0 : ℚ) < (R a : ℚ) := by
      have : 0 < R a := Nat.pos_of_ne_zero hc.2
      exact_mod_cast this
    have hkeys : ((mc.index_to_state_.filter (fun t => decide (0 < C a t))).map
        (fun t => (t, (C a t : ℚ) / (R a : ℚ)))).map Prod.fst =
        mc.index_to_state_.filter (fun t => decide (0 < C a t)) := by
      rw [List.map_map]
      exact List.map_id _
    have hkn : (((mc.index_to_state_.filter (fun t => decide (0 < C a t))).map
        (fun t => (t, (C a t : ℚ) / (R a : ℚ)))).map Prod.fst).Nodup := by
      rw [hkeys]
      exact hnd.filter _
    refine ⟨_, hnd_spec, hkn, ?_, ?_, ?_, fun hn => absurd hc hn⟩
    · intro t
      refine ⟨_, htp t, ?_⟩
      by_cases ht : t ∈ mc.index_to_state_ ∧ 0 < C a t
      · have hCpos : (0 : ℚ) < (C a t : ℚ) := by exact_mod_cast ht.2
        have hp : (if a ∈ mc.index_to_state_ ∧ t ∈ mc.index_to_state_ ∧ R a ≠ 0 then
            (C a t : ℚ) / (R a : ℚ) else 0) = (C a t : ℚ) / (R a : ℚ) :=
          if_pos ⟨hc.1, ht.1, hc.2⟩
        rw [hp, if_pos (div_pos hCpos hRpos), distFind_eq_some _ _ _ hkn]
        exact List.mem_map.2 ⟨t, List.mem_filter.2 ⟨ht.1, by simpa using ht.2⟩, rfl⟩
      · have hzero : (if a ∈ mc.index_to_state_ ∧ t ∈ mc.index_to_state_ ∧ R a ≠ 0 then
            (C a t : ℚ) / (R a : ℚ) else 0) = 0 := by
          by_cases ht1 : t ∈ mc.index_to_state_
          · have : C a t = 0 := by
              by_contra hne
              exact ht ⟨ht1, Nat.pos_of_ne_zero hne⟩
            rw [this]
            simp
          · rw [if_neg (fun h => ht1 h.2.1)]
        rw [hzero, if_neg (lt_irrefl _)]
        apply distFind_eq_none
        rw [hkeys]
        intro hmem
        obtain ⟨h1, h2⟩ := List.mem_filter.1 hmem
        exact ht ⟨h1, by simpa using h2⟩
    · intro x hx
      obtain ⟨t, ht, rfl⟩ := List.mem_map.1 hx
      have h2 := (List.mem_filter.1 ht).2
      have hCpos : (0 : ℚ) < (C a t : ℚ) := by
        have : 0 < C a t := by simpa using h2
        exact_mod_cast this
      exact div_pos hCpos hRpos
    · intro _
      exact sum_map_div mc.index_to_state_ (C a) (R a) hc.2 (hsum a)
  · rw [if_neg hc] at hnd_spec
    refine ⟨[], hnd_spec, List.nodup_nil, ?_, ?_, ?_, fun _ => rfl⟩
    · intro t
      refine ⟨_, htp t, ?_⟩
      have hp : (if a ∈ mc.index_to_state_ ∧ t ∈ mc.index_to_state_ ∧ R a ≠ 0 then
          (C a t : ℚ) / (R a : ℚ) else 0) = 0 := if_neg (fun h => hc ⟨h.1, h.2.2⟩)
      rw [hp, if_neg (lt_irrefl _)]
      rfl
    · intro x hx
      exact absurd hx (List.not_mem_nil _)
    · intro h
      exact absurd h hc

/-- C31. The representation invariant of `MarkovChain`: it holds of a fresh chain;
every `Train` call on a chain that satisfies it completes, and the chain afterwards
satisfies it again, with the new states appended to the known ones in the order in
which they are first seen; so after any sequence of `Train` calls on a fresh chain
the known states are the elements seen, listed in the order of their first
appearance; and on a chain that satisfies the invariant no read of `counts_` or
`row_sums_` by `TransitionProbability`, `NextDistribution` or `SampleNext` is out
of range: each of them returns. -/
theorem markov_invariant :
    RepInvariant MarkovChain.fresh ∧
    (∀ (mc : MarkovChain) (seq : List State), RepInvariant mc →
      ∃ mc', mc.Train seq = some mc' ∧ RepInvariant mc' ∧
        mc'.States = knownAfter mc.States seq) ∧
    (∀ seqs : List (List State), ∃ mc,
      trainSequences MarkovChain.fresh seqs = some mc ∧ RepInvariant mc ∧
      (∀ x, x ∈ mc.States ↔ x ∈ seqs.flatten) ∧
      ∀ x y, x ∈ mc.States → y ∈ mc.States →
        (stateIndex x mc.States < stateIndex y mc.States ↔
          stateIndex x seqs.flatten < stateIndex y seqs.flatten)) ∧
    (∀ mc : MarkovChain, RepInvariant mc →
      (∀ a b, ∃ p, mc.TransitionProbability a b = some p) ∧
      (∀ a, ∃ d, mc.NextDistribution a = some d) ∧
      (∀ a idx, mapFind a mc.state_to_index_ = some idx →
        (∃ r, mc.row_sums_[idx]? = some r) ∧ ∃ w, mc.sampleWeights idx = some w) ∧
      ∀ (Rng : Type) (draw : Rng → List ℚ → Nat × Rng), SoundDraw draw →
        ∀ a rng, ∃ r, mc.SampleNext draw a rng = some r) := by
  refine ⟨repInvariant_of_represents _ _ _ represents_fresh, ?_, ?_, ?_⟩
  · intro mc seq hinv
    obtain ⟨mc', h1, h2, h3⟩ := train_spec mc _ _ (represents_of_repInvariant mc hinv) seq
    exact ⟨mc', h1, repInvariant_of_represents _ _ _ h3, h2⟩
  · intro seqs
    obtain ⟨mc, h1, h2, h3⟩ := trained_represents seqs
    refine ⟨mc, h1, repInvariant_of_represents _ _ _ h3, ?_, ?_⟩
    · intro x
      show x ∈ mc.index_to_state_ ↔ _
      rw [h2, mem_knownAfter]
      simp
    · intro x y hx hy
      have hx' : x ∈ knownAfter [] seqs.flatten := by rw [← h2]; exact hx
      have hy' : y ∈ knownAfter [] seqs.flatten := by rw [← h2]; exact hy
      show stateIndex x mc.index_to_state_ < stateIndex y mc.index_to_state_ ↔ _
      rw [h2]
      exact knownAfter_order seqs.flatten [] x y hx' hy'
  · intro mc hinv
    have hrep := represents_of_repInvariant mc hinv
    refine ⟨fun a b => ⟨_, transitionProbability_spec mc _ _ hrep a b⟩,
      fun a => ⟨_, nextDistribution_spec mc _ _ hrep a⟩, ?_, ?_⟩
    · intro a idx hidx
      have hmap := hrep.2.1 a
      rw [hidx] at hmap
      by_cases ha : a ∈ mc.index_to_state_
      · rw [if_pos ha] at hmap
        rw [Option.some.injEq] at hmap
        rw [hmap]
        have hr : mc.row_sums_[stateIndex a mc.index_to_state_]? =
            some (mc.row_sums_.getD (stateIndex a mc.index_to_state_) 0) := by
          have := getElem?_map_stateIndex mc.index_to_state_ (fun a =>
            if a ∈ mc.index_to_state_ then
              mc.row_sums_.getD (stateIndex a mc.index_to_state_) 0 else 0) a ha
          rw [← hrep.2.2.2.1] at this
          rw [this]
          exact congrArg some (if_pos ha)
        exact ⟨⟨_, hr⟩, ⟨_, sampleWeights_spec mc _ _ hrep a ha⟩⟩
      · rw [if_neg ha] at hmap
        exact absurd hmap (by simp)
    · intro Rng draw hdraw a rng
      obtain ⟨h1, h2⟩ := sampleNext_spec mc _ _ hrep draw hdraw a rng
      by_cases ha : a ∈ mc.index_to_state_ ∧
          (if a ∈ mc.index_to_state_ then
            mc.row_sums_.getD (stateIndex a mc.index_to_state_) 0 else 0) ≠ 0
      · obtain ⟨next, rng', h3, _⟩ := h2 ha.1 ha.2
        exact ⟨_, h3⟩
      · refine ⟨_, h1 ?_⟩
        by_cases ha1 : a ∈ mc.index_to_state_
        · right
          by_contra hne
          exact ha ⟨ha1, hne⟩
        · exact Or.inl ha1

/-- C32. After training a fresh `MarkovChain` on any sequences, for every state `s`
the map `NextDistribution(s)` is returned; its keys are exactly the states `t` with
`TransitionProbability(s, t) > 0`, and the value at each key is
`TransitionProbability(s, t)`; all its values are positive; if `s` is known and has
at least one outgoing transition its values sum to exactly 1, and otherwise the map
is empty. -/
theorem nextDistribution_matches (seqs : List (List State)) (s : State) :
    ∃ mc, trainSequences MarkovChain.fresh seqs = some mc ∧
      ∃ d, mc.NextDistribution s = some d ∧ (d.map Prod.fst).Nodup ∧
        (∀ t, ∃ p, mc.TransitionProbability s t = some p ∧
          distFind t d = if 0 < p then some p else none) ∧
        (∀ x ∈ d, 0 < x.2) ∧
        (s ∈ mc.States ∧ outgoing s seqs ≠ 0 → (d.map Prod.snd).sum = 1) ∧
        (¬ (s ∈ mc.States ∧ outgoing s seqs ≠ 0) → d = []) := by
  obtain ⟨mc, h1, _, h3⟩ := trained_represents seqs
  exact ⟨mc, h1, nextDistribution_props mc _ _ h3 s⟩

/-- The example of C32: after `Train([A, B])` and `Train([A, C])` the map
`NextDistribution(A)` holds `B` and `C` with `1/2` each, and `NextDistribution(B)`
is empty. -/
theorem nextDistribution_matches_witness :
    (∃ mc, trainSequences MarkovChain.fresh
        [["A".toList, "B".toList], ["A".toList, "C".toList]] = some mc ∧
      ∃ d, mc.NextDistribution "A".toList = some d ∧
        distFind "B".toList d = some (1 / 2) ∧ distFind "C".toList d = some (1 / 2) ∧
        (d.map Prod.snd).sum = 1) ∧
    ∃ mc, trainSequences MarkovChain.fresh
        [["A".toList, "B".toList], ["A".toList, "C".toList]] = some mc ∧
      mc.NextDistribution "B".toList = some [] := by
  have hmc : trainSequences MarkovChain.fresh
      [["A".toList, "B".toList], ["A".toList, "C".toList]] =
      some ⟨[("A".toList, 0), ("B".toList, 1), ("C".toList, 2)],
        ["A".toList, "B".toList, "C".toList], [[0, 1, 1], [0, 0, 0], [0, 0, 0]],
        [2, 0, 0]⟩ := by decide
  constructor
  · obtain ⟨mc, h1, d, h2, _, h4, _, h6, _⟩ := nextDistribution_matches
      [["A".toList, "B".toList], ["A".toList, "C".toList]] "A".toList
    have hmc' := hmc
    rw [h1, Option.some.injEq] at hmc'
    refine ⟨mc, h1, d, h2, ?_, ?_, h6 ⟨by rw [hmc']; decide, by decide⟩⟩
    · obtain ⟨p, hp1, hp2⟩ := h4 "B".toList
      have hp : mc.TransitionProbability "A".toList "B".toList = some (1 / 2) := by
        rw [hmc']
        simp [MarkovChain.TransitionProbability, mapFind]
      rw [hp1, Option.some.injEq] at hp
      rw [hp2, hp, if_pos (by norm_num)]
    · obtain ⟨p, hp1, hp2⟩ := h4 "C".toList
      have hp : mc.TransitionProbability "A".toList "C".toList = some (1 / 2) := by
        rw [hmc']
        simp [MarkovChain.TransitionProbability, mapFind]
      rw [hp1, Option.some.injEq] at hp
      rw [hp2, hp, if_pos (by norm_num)]
  · obtain ⟨mc, h1, d, h2, _, _, _, _, h7⟩ := nextDistribution_matches
      [["A".toList, "B".toList], ["A".toList, "C".toList]] "B".toList
    have hd : d = [] := h7 (fun h => h.2 (by decide))
    rw [hd] at h2
    exact ⟨mc, h1, h2⟩

end ptm
